import Mathlib

/-!
Key-value service with an LRU cache in front of a MySQL store.

A shallow embedding of `cache/cache.h`, `db/db.h` and the `/kv/*` and `/compute/hash`
handlers of `server/server.h`, and the properties of the specification proved over it.

Conventions of the embedding.

* `std::list<Node>` is a list of nodes, each paired with the address of its list
  cell. A `list<Node>::iterator` is such an address; iterators stay valid while the
  cell lives, which is what the index of the cache relies on.
* `std::unordered_map<string, iterator>` is an association list from keys to
  addresses. Its order is never observed.
* A step that C++ leaves undefined (dereferencing an iterator whose cell is not in
  the list, `back()` or `pop_back()` on an empty list) makes the operation return
  `none`.
* `max_size` is an `int`; the comparison `items.size() >= (size_t)max_size` is done
  on the 64-bit conversion of it. The counters `hits`, `misses`, `evicts` are `int`
  too: `x++` and `hits + misses` are taken modulo `2^32` (`int_incr`, `int_add`), the
  two's complement wrap-around, where C++ itself leaves the overflow of an `int`
  undefined. Every property that gives the value of a counter after a call has the
  bound that keeps the counter below `INT_MAX`, so that it does not rest on this choice.
* A statement sent to MySQL is given by its kind and operands; the SQL text is not
  part of these definitions. Before the statement is built, a store operation that
  has a connection escapes each operand into a fixed array (`DB.put_writes` and the
  like give the bytes written and the size of the array): an escape call that writes
  past the end of its array is undefined, and the store operation returns `none`. The
  server itself is a parameter: a state and a function that answers a statement;
  `store_sql` is the server that the specification describes, with statements that
  may fail.
* A `std::string` holds the UTF-8 bytes of a text; `char` is signed. A `char *` read
  as a `std::string` ends at its first null byte (`c_string`): this is how a column
  of a result row is read. A C++ exception that leaves a function is an outcome of
  its own (`HashResult.thrown`).
* A `double` is the rational it stands for; each conversion and operation rounds to the
  nearest `double`, ties to even (`round_double`).
* The mutex of the cache and of the pool is not part of the sequential model: a
  method that holds it for its whole body is one step. `Cache.hit_rate_during` is the
  one place where two threads are interleaved. The `cout` log lines of the handlers
  are left out.
-/

namespace KV

/-! ## Association lists (the common shape of the list cells and of the index) -/

/-- First value bound to `a`. -/
def assocFind {α β : Type} [DecidableEq α] : List (α × β) → α → Option β
  | [], _ => none
  | (x, y) :: t, a => if x = a then some y else assocFind t a

/-- All bindings except those of `a`. -/
def assocErase {α β : Type} [DecidableEq α] (l : List (α × β)) (a : α) : List (α × β) :=
  l.filter (fun p => decide (p.1 ≠ a))

/-! ## cache/cache.h -/

/-- Address of a list cell: what a `list<Node>::iterator` holds. -/
abbrev Iter := Nat

/-- The `struct Node` of the cache. -/
structure Node where
  k : String
  v : String
  deriving DecidableEq, Repr

/-- Largest value of a C++ `int`. -/
def INT_MAX : Int := 2147483647

/-- Smallest value of a C++ `int`. -/
def INT_MIN : Int := -2147483648

/-- The sum of two `int` values as an `int`, with wrap-around. -/
def int_add (a b : Int) : Int := (a + b + 2147483648) % 4294967296 - 2147483648

/-- The statement `x++` on an `int` counter. -/
def int_incr (x : Int) : Int := int_add x 1

/-- The conversion `(size_t)x` of an `int` on a 64-bit target. -/
def size_t_of_int (x : Int) : Nat := (x % 18446744073709551616).toNat

/-- The conversion of a `size_t` to `int` (the return of `Cache::size`). -/
def int_of_size_t (n : Nat) : Int :=
  ((n : Int) + 2147483648) % 4294967296 - 2147483648

/-- An address that no cell of the list uses: where `push_front` puts the new cell. -/
def fresh (l : List (Iter × Node)) : Iter :=
  (l.map Prod.fst).foldr max 0 + 1

/-- The call `items.splice(items.begin(), items, it)`: the cell at `it` moves to the front. -/
def splice_front (l : List (Iter × Node)) (it : Iter) : Option (List (Iter × Node)) :=
  match assocFind l it with
  | none => none
  | some n => some ((it, n) :: assocErase l it)

/-- The assignment `it->v = val`. -/
def assign_v (l : List (Iter × Node)) (it : Iter) (val : String) : Option (List (Iter × Node)) :=
  match assocFind l it with
  | none => none
  | some _ => some (l.map (fun p => if p.1 = it then (p.1, { p.2 with v := val }) else p))

/-- The class `Cache`: capacity, recency list (front = most recently used), index, counters. -/
structure Cache where
  max_size : Int
  items : List (Iter × Node)
  map : List (String × Iter)
  hits : Int
  misses : Int
  evicts : Int
  deriving DecidableEq, Repr

namespace Cache

/-- The constructor `Cache(int size)`. -/
def new (size : Int) : Cache :=
  { max_size := size, items := [], map := [], hits := 0, misses := 0, evicts := 0 }

/-- The nodes of the recency list, most recently used first. -/
def entries (c : Cache) : List Node := c.items.map Prod.snd

/-- The keys of the recency list, most recently used first. -/
def keys (c : Cache) : List String := c.items.map (fun p => p.2.k)

/-- `Cache::get`: `none` inside is a miss (`false`, `val` untouched), `some v` a hit. -/
def get (c : Cache) (key : String) : Option (Option String × Cache) :=
  match assocFind c.map key with
  | none => some (none, { c with misses := int_incr c.misses })
  | some it =>
    match splice_front c.items it with
    | none => none
    | some items1 =>
      match assocFind items1 it with
      | none => none
      | some n => some (some n.v, { c with items := items1, hits := int_incr c.hits })

/-- The `if (items.size() >= (size_t)max_size)` block of `Cache::put`. -/
def evict_if_full (c : Cache) : Option Cache :=
  if c.items.length ≥ size_t_of_int c.max_size then
    match c.items.getLast? with
    | none => none
    | some last =>
      some { c with map := assocErase c.map last.2.k,
                    items := c.items.dropLast,
                    evicts := int_incr c.evicts }
  else some c

/-- The last two lines of `Cache::put`: `push_front` and `map[key] = items.begin()`. -/
def push_new (c : Cache) (key val : String) : Cache :=
  let it := fresh c.items
  { c with items := (it, { k := key, v := val }) :: c.items,
           map := (key, it) :: assocErase c.map key }

/-- `Cache::put`. -/
def put (c : Cache) (key val : String) : Option Cache :=
  match assocFind c.map key with
  | some it =>
    match splice_front c.items it with
    | none => none
    | some items1 =>
      match assign_v items1 it val with
      | none => none
      | some items2 => some { c with items := items2 }
  | none =>
    match evict_if_full c with
    | none => none
    | some c1 => some (push_new c1 key val)

/-- `Cache::remove`. -/
def remove (c : Cache) (key : String) : Option Cache :=
  match assocFind c.map key with
  | none => some c
  | some it =>
    match assocFind c.items it with
    | none => none
    | some _ => some { c with items := assocErase c.items it, map := assocErase c.map key }

/-- `Cache::size`. -/
def size (c : Cache) : Int := int_of_size_t c.items.length

/-- A call of one of the three operations of the cache. -/
inductive Op where
  | get (key : String)
  | put (key val : String)
  | remove (key : String)
  deriving DecidableEq, Repr

/-- The state after one call. -/
def step (c : Cache) : Op → Option Cache
  | Op.get key => (c.get key).map Prod.snd
  | Op.put key val => c.put key val
  | Op.remove key => c.remove key

/-- The state after a sequence of calls, first call first. -/
def run (c : Cache) : List Op → Option Cache
  | [] => some c
  | op :: rest =>
    match c.step op with
    | none => none
    | some c1 => run c1 rest

/-- The representation invariant: list cells have distinct addresses and distinct keys,
the index binds each key once, every index binding points to the cell that carries its
key, and every cell is bound in the index under its key. -/
def WF (c : Cache) : Prop :=
  (c.items.map Prod.fst).Nodup ∧
  (c.items.map (fun p => p.2.k)).Nodup ∧
  (c.map.map Prod.fst).Nodup ∧
  (∀ p ∈ c.map, (p.2, p.1) ∈ c.items.map (fun q => (q.1, q.2.k))) ∧
  (∀ q ∈ c.items, (q.2.k, q.1) ∈ c.map)

instance (c : Cache) : Decidable c.WF := by
  unfold WF; infer_instance

/-- The state of a cache of capacity 2 after `put("a","1")` and `put("b","2")`. -/
def demo : Cache :=
  { max_size := 2, items := [(2, ⟨"b", "2"⟩), (1, ⟨"a", "1"⟩)], map := [("b", 2), ("a", 1)],
    hits := 0, misses := 0, evicts := 0 }

end Cache

/-! ## db/db.h: the connection pool -/

/-- A `MYSQL *` connection handle (a null handle is `none : Option Conn`). -/
abbrev Conn := Nat

/-- The statements that `DB::put`, `DB::get`, `DB::del`, `DB::put_hash` and `DB::get_hash`
send with `mysql_query`, by kind and operands. The two statements on `hash_store` carry
the 255-byte text prefix, the 32-digit text hash and the text itself. -/
inductive Query where
  | upsert (key val : String)
  | select (key : String)
  | delete (key : String)
  | upsert_hash (text_pfx : List Nat) (text_hash text : String) (hash : Nat)
  | select_hash (text_pfx : List Nat) (text_hash text : String)
  deriving DecidableEq, Repr

/-- What the client library reports for a statement: `mysql_query` returned non-zero
(`rejected`), or it returned zero and then `mysql_store_result` gave no result set,
`mysql_fetch_row` gave no row, the first column of the row was null, or it held `s`. -/
inductive Answer where
  | rejected
  | no_result
  | no_row
  | null_value
  | value (s : String)
  deriving DecidableEq, Repr

/-- The MySQL server behind the connections. It is not part of the repository: any state
type `σ` and any way of answering a statement on a connection is allowed. -/
structure MySQL (σ : Type) where
  exec : σ → Conn → Query → Answer × σ

/-- The class `DB`: the vector of free connections (`back()` is the last element). -/
structure DB where
  pool : List Conn
  deriving DecidableEq, Repr

namespace DB

/-- `DB::get_conn`. -/
def get_conn (d : DB) : Option Conn × DB :=
  match d.pool.getLast? with
  | none => (none, d)
  | some conn => (some conn, { pool := d.pool.dropLast })

/-- `DB::return_conn`. -/
def return_conn (d : DB) (conn : Option Conn) : DB :=
  match conn with
  | none => d
  | some x => { pool := d.pool ++ [x] }

end DB

/-! ## db/db.h: the bytes of a `std::string` and the escape buffers -/

/-- The UTF-8 encoding of a code point. -/
def utf8 (c : Nat) : List Nat :=
  if c < 128 then [c]
  else if c < 2048 then [192 + c / 64, 128 + c % 64]
  else if c < 65536 then [224 + c / 4096, 128 + c / 64 % 64, 128 + c % 64]
  else [240 + c / 262144, 128 + c / 4096 % 64, 128 + c / 64 % 64, 128 + c % 64]

/-- The bytes of a `std::string` whose content is the UTF-8 text `s`. -/
def bytes (s : String) : List Nat := (s.data.map (fun ch => utf8 ch.toNat)).flatten

/-- The bytes of `text.substr(0, 255)`. -/
def text_pfx (text : String) : List Nat := (bytes text).take 255

/-- The `std::string` made from a `char *` (`val = row[0]`, `stoul(row[0])`): the text
before the first null byte. In UTF-8 only the code point 0 has a null byte. -/
def c_string (s : String) : String :=
  String.mk (s.data.takeWhile (fun ch => decide (ch ≠ Char.ofNat 0)))

/-- The bytes that `mysql_real_escape_string` writes for one byte of its input (MySQL C
API: backslash, quote, double quote, NUL, line feed, carriage return and Control-Z are
written as a backslash and a character, every other byte as itself). -/
def escape_byte (b : Nat) : List Nat :=
  if b = 0 then [92, 48]
  else if b = 10 then [92, 110]
  else if b = 13 then [92, 114]
  else if b = 26 then [92, 90]
  else if b = 34 then [92, 34]
  else if b = 39 then [92, 39]
  else if b = 92 then [92, 92]
  else [b]

/-- The bytes that `mysql_real_escape_string(conn, to, src, length)` writes into `to`:
the escaped input followed by a terminating null byte. -/
def mysql_real_escape_string (src : List Nat) : List Nat :=
  (src.map escape_byte).flatten ++ [0]

/-- One call of `mysql_real_escape_string` into a local array: the number of bytes it
writes and the size of the array. -/
structure EscapeWrite where
  written : Nat
  size : Nat
  deriving DecidableEq, Repr

/-- The call stays inside its array. -/
def EscapeWrite.ok (w : EscapeWrite) : Bool := decide (w.written ≤ w.size)

namespace DB

/-- The escape calls of `DB::put`: the key into `esc_key[512]`, the value into
`esc_val[1024]`. -/
def put_writes (key val : String) : List EscapeWrite :=
  [{ written := (mysql_real_escape_string (bytes key)).length, size := 512 },
   { written := (mysql_real_escape_string (bytes val)).length, size := 1024 }]

/-- The escape call of `DB::get`: the key into `esc_key[512]`. -/
def get_writes (key : String) : List EscapeWrite :=
  [{ written := (mysql_real_escape_string (bytes key)).length, size := 512 }]

/-- The escape call of `DB::del`: the key into `esc_key[512]`. -/
def del_writes (key : String) : List EscapeWrite :=
  [{ written := (mysql_real_escape_string (bytes key)).length, size := 512 }]

/-- The escape calls of `DB::put_hash`: the text into `esc_text[4096]`, its first 255
bytes into `esc_prefix[512]`. -/
def put_hash_writes (text : String) : List EscapeWrite :=
  [{ written := (mysql_real_escape_string (bytes text)).length, size := 4096 },
   { written := (mysql_real_escape_string (text_pfx text)).length, size := 512 }]

/-- The escape calls of `DB::get_hash`: the text into `esc_text[4096]`, its first 255
bytes into `esc_prefix[512]`. -/
def get_hash_writes (text : String) : List EscapeWrite :=
  [{ written := (mysql_real_escape_string (bytes text)).length, size := 4096 },
   { written := (mysql_real_escape_string (text_pfx text)).length, size := 512 }]

end DB

/-! ## db/db.h: the key-value table operations -/

namespace DB

/-- `DB::put`: the flag returned, the pool and the server state after the call. `none` is
the undefined outcome of an escape call that writes past the end of its array; the null
check on the connection comes before the escape calls. -/
def put {σ : Type} (M : MySQL σ) (d : DB) (s : σ) (key val : String) :
    Option (Bool × DB × σ) :=
  match d.get_conn with
  | (none, d1) => some (false, d1, s)
  | (some conn, d1) =>
    if (put_writes key val).all EscapeWrite.ok then
      match M.exec s conn (Query.upsert key val) with
      | (ans, s1) => some (decide (ans ≠ Answer.rejected), d1.return_conn (some conn), s1)
    else none

/-- `DB::get`: `some v` stands for `true` with `val = v`, `none` for `false` with `val`
untouched; `val = row[0]` copies the column up to its first null byte. The outer `none` is
the undefined outcome of an escape call that writes past the end of its array. -/
def get {σ : Type} (M : MySQL σ) (d : DB) (s : σ) (key : String) :
    Option (Option String × DB × σ) :=
  match d.get_conn with
  | (none, d1) => some (none, d1, s)
  | (some conn, d1) =>
    if (get_writes key).all EscapeWrite.ok then
      match M.exec s conn (Query.select key) with
      | (Answer.value v, s1) => some (some (c_string v), d1.return_conn (some conn), s1)
      | (_, s1) => some (none, d1.return_conn (some conn), s1)
    else none

/-- `DB::del`. `none` is the undefined outcome of an escape call that writes past the end
of its array. -/
def del {σ : Type} (M : MySQL σ) (d : DB) (s : σ) (key : String) : Option (Bool × DB × σ) :=
  match d.get_conn with
  | (none, d1) => some (false, d1, s)
  | (some conn, d1) =>
    if (del_writes key).all EscapeWrite.ok then
      match M.exec s conn (Query.delete key) with
      | (ans, s1) => some (decide (ans ≠ Answer.rejected), d1.return_conn (some conn), s1)
    else none

end DB

/-! ## server/server.h: the `/kv/create`, `/kv/read` and `/kv/delete` handlers -/

/-- The query parameters of an `httplib::Request`. -/
structure Request where
  params : List (String × String)
  deriving DecidableEq, Repr

namespace Request

/-- `req.has_param(name)`. -/
def has_param (r : Request) (name : String) : Bool := (assocFind r.params name).isSome

/-- `req.get_param_value(name)`: the first value of the parameter, empty when missing. -/
def get_param_value (r : Request) (name : String) : String :=
  (assocFind r.params name).getD ""

end Request

/-- The `res.status` and the JSON text given to `res.set_content`. -/
structure Response where
  status : Nat
  body : String
  deriving DecidableEq, Repr

/-- The class `Server`: the two caches and the store it points to. -/
structure Server where
  cache : Cache
  hash_cache : Cache
  db : DB
  deriving DecidableEq, Repr

namespace Server

/-- The body of the 400 answers of the `/kv/*` handlers. -/
def missing_key : String := "\x7b\"error\": \"missing key\"\x7d"

/-- The body of the 500 answer of `/kv/create`. -/
def db_error : String := "\x7b\"error\": \"db error\"\x7d"

/-- The body of the 201 answer of `/kv/create`. -/
def created (key val : String) (old : Option String) : String :=
  "\x7b\"success\": true, \"message\": \""
    ++ (if old.isSome then "Key overwritten" else "Key created")
    ++ "\", \"key\": \"" ++ key ++ "\", \"value\": \"" ++ val ++ "\", \"overwritten\": "
    ++ (if old.isSome then "true" else "false")
    ++ (match old with
        | some old_val => ", \"old_value\": \"" ++ old_val ++ "\""
        | none => "")
    ++ "\x7d"

/-- The body of a 200 answer of `/kv/read`, with its `source`. -/
def found (key val source : String) : String :=
  "\x7b\"success\": true, \"key\": \"" ++ key ++ "\", \"value\": \"" ++ val
    ++ "\", \"source\": \"" ++ source ++ "\"\x7d"

/-- The body of the 404 answer of `/kv/read`. -/
def not_found (key : String) : String :=
  "\x7b\"error\": \"Key not found\", \"key\": \"" ++ key ++ "\"\x7d"

/-- The body of the 200 answer of `/kv/delete`. -/
def deleted (key : String) : String :=
  "\x7b\"success\": true, \"message\": \"Deleted\", \"key\": \"" ++ key ++ "\"\x7d"

/-- The `/kv/create` handler: response, server after the call, MySQL state after it. -/
def kv_create {σ : Type} (M : MySQL σ) (srv : Server) (s : σ) (req : Request) :
    Option (Response × Server × σ) :=
  let both := req.has_param "key" && req.has_param "value"
  let key := if both then req.get_param_value "key" else ""
  let val := if both then req.get_param_value "value" else ""
  if key = "" then some ({ status := 400, body := missing_key }, srv, s)
  else
    match DB.get M srv.db s key with
    | none => none
    | some (old, d1, s1) =>
      match DB.put M d1 s1 key val with
      | none => none
      | some (false, d2, s2) =>
        some ({ status := 500, body := db_error }, { srv with db := d2 }, s2)
      | some (true, d2, s2) =>
        match srv.cache.put key val with
        | none => none
        | some c1 =>
          some ({ status := 201, body := created key val old },
                { srv with cache := c1, db := d2 }, s2)

/-- The `/kv/read` handler. -/
def kv_read {σ : Type} (M : MySQL σ) (srv : Server) (s : σ) (req : Request) :
    Option (Response × Server × σ) :=
  if req.has_param "key" = false then some ({ status := 400, body := missing_key }, srv, s)
  else
    let key := req.get_param_value "key"
    match srv.cache.get key with
    | none => none
    | some (some val, c1) =>
      some ({ status := 200, body := found key val "cache" }, { srv with cache := c1 }, s)
    | some (none, c1) =>
      match DB.get M srv.db s key with
      | none => none
      | some (some val, d1, s1) =>
        match c1.put key val with
        | none => none
        | some c2 =>
          some ({ status := 200, body := found key val "database" },
                { srv with cache := c2, db := d1 }, s1)
      | some (none, d1, s1) =>
        some ({ status := 404, body := not_found key }, { srv with cache := c1, db := d1 }, s1)

/-- The `/kv/delete` handler. -/
def kv_delete {σ : Type} (M : MySQL σ) (srv : Server) (s : σ) (req : Request) :
    Option (Response × Server × σ) :=
  if req.has_param "key" = false then some ({ status := 400, body := missing_key }, srv, s)
  else
    let key := req.get_param_value "key"
    match DB.del M srv.db s key with
    | none => none
    | some (_, d1, s1) =>
      match srv.cache.remove key with
      | none => none
      | some c1 =>
        some ({ status := 200, body := deleted key }, { srv with cache := c1, db := d1 }, s1)

end Server

/-- A server that rejects every statement and keeps its table. -/
def down_sql : MySQL (List (String × String)) where
  exec := fun t _ _ => (Answer.rejected, t)

/-- A server with the cache state `Cache.demo`, an empty hash cache and two free
connections. -/
def Server.demo : Server :=
  { cache := Cache.demo, hash_cache := Cache.new 500, db := { pool := [1, 2] } }


/-! ## Sequences of calls on the pool and the counters -/

/-- The list of results and the pool after `n` successive `get_conn` calls with no
`return_conn` in between, first call first. -/
def DB.acquire (d : DB) : Nat → List (Option Conn) × DB
  | 0 => ([], d)
  | n + 1 =>
    match DB.acquire d n with
    | (rs, d1) =>
      match d1.get_conn with
      | (r, d2) => (rs ++ [r], d2)

/-- Whether a call is a `get`. -/
def Cache.Op.is_get : Cache.Op → Bool
  | Cache.Op.get _ => true
  | _ => false

/-- The `put` calls of a list of key-value pairs, in order. -/
def Cache.puts (kvs : List (String × String)) : List Cache.Op :=
  kvs.map (fun p => Cache.Op.put p.1 p.2)

/-! ## db/db.h: the fingerprint table operations -/

/-- The value of a byte as a `char` (signed, as on x86-64). -/
def schar (b : Nat) : Int := if b < 128 then (b : Int) else (b : Int) - 256

/-- The loop `h = h * base + c` over the bytes, in unsigned arithmetic of `w` bits. -/
def poly_hash (w base : Nat) (bs : List Nat) : Nat :=
  bs.foldl (fun h b => Int.toNat ((((h * base : Nat) : Int) + schar b) % ((2 ^ w : Nat) : Int))) 0

/-- The output of `hex << setfill('0') << setw(16) << n`. -/
def hex16 (n : Nat) : String :=
  String.mk (List.replicate (16 - (Nat.toDigits 16 n).length) '0' ++ Nat.toDigits 16 n)

/-- `compute_text_hash`. -/
def compute_text_hash (text : String) : String :=
  hex16 (poly_hash 64 31 (bytes text)) ++ hex16 (poly_hash 64 37 (bytes text))

/-- The characters that `isspace` accepts in the C locale. -/
def is_space (c : Char) : Bool := c.toNat = 32 || (9 ≤ c.toNat && c.toNat ≤ 13)

/-- `std::stoul(s)` in base 10 with a 64-bit `unsigned long`: leading white space, an
optional sign, then at least one digit; `none` is the exception it throws
(`invalid_argument` without a digit, `out_of_range` beyond 64 bits); a minus sign negates
in unsigned arithmetic. -/
def stoul (s : String) : Option Nat :=
  let cs := s.data.dropWhile is_space
  let neg := decide (cs.head? = some '-')
  let cs1 := if cs.head? = some '-' ∨ cs.head? = some '+' then cs.tail else cs
  let ds := cs1.takeWhile Char.isDigit
  if ds = [] then none
  else
    let n := ds.foldl (fun a d => 10 * a + (d.toNat - 48)) 0
    if 18446744073709551616 ≤ n then none
    else some (if neg then (18446744073709551616 - n) % 18446744073709551616 else n)

/-- What a call of `DB::get_hash` ends with: `true` with `hash` set, `false`, or an
exception that leaves the function. -/
inductive HashResult where
  | found (hash : Nat)
  | not_found
  | thrown
  deriving DecidableEq, Repr

namespace DB

/-- `DB::put_hash`. `none` is the undefined outcome of an escape call that writes past the
end of its array. -/
def put_hash {σ : Type} (M : MySQL σ) (d : DB) (s : σ) (text : String) (hash : Nat) :
    Option (Bool × DB × σ) :=
  match d.get_conn with
  | (none, d1) => some (false, d1, s)
  | (some conn, d1) =>
    if (put_hash_writes text).all EscapeWrite.ok then
      match M.exec s conn
          (Query.upsert_hash (text_pfx text) (compute_text_hash text) text hash) with
      | (ans, s1) => some (decide (ans ≠ Answer.rejected), d1.return_conn (some conn), s1)
    else none

/-- `DB::get_hash`. The conversion `hash = stoul(row[0])` sits between `get_conn` and
`return_conn`: when it throws, the function is left with the connection still taken.
`none` is the undefined outcome of an escape call that writes past the end of its array. -/
def get_hash {σ : Type} (M : MySQL σ) (d : DB) (s : σ) (text : String) :
    Option (HashResult × DB × σ) :=
  match d.get_conn with
  | (none, d1) => some (HashResult.not_found, d1, s)
  | (some conn, d1) =>
    if (get_hash_writes text).all EscapeWrite.ok then
      match M.exec s conn
          (Query.select_hash (text_pfx text) (compute_text_hash text) text) with
      | (Answer.value v, s1) =>
        (match stoul (c_string v) with
         | none => some (HashResult.thrown, d1, s1)
         | some n =>
           some (HashResult.found (n % 4294967296), d1.return_conn (some conn), s1))
      | (_, s1) => some (HashResult.not_found, d1.return_conn (some conn), s1)
    else none

end DB

/-! ## server/server.h: the `/compute/hash` handler and runs of `/kv/*` requests -/

namespace Server

/-- The body of the 400 answer of `/compute/hash`. -/
def missing_text : String := "\x7b\"error\": \"missing text\"\x7d"

/-- The body that the exception handler of the server sets, with status 500. -/
def internal_error : String := "\x7b\"error\": \"internal server error\"\x7d"

/-- The body of a 200 answer of `/compute/hash`, with its `source`. -/
def hashed (text hash source : String) : String :=
  "\x7b\"success\": true, \"text\": \"" ++ text ++ "\", \"hash\": " ++ hash
    ++ ", \"source\": \"" ++ source ++ "\"\x7d"

/-- The loop `h = h * 31 + c` of the handler on a `uint32_t`. -/
def text_hash32 (text : String) : Nat := poly_hash 32 31 (bytes text)

/-- The `/compute/hash` handler. An exception out of `get_hash` ends in the exception
handler of the server. -/
def compute_hash {σ : Type} (M : MySQL σ) (srv : Server) (s : σ) (req : Request) :
    Option (Response × Server × σ) :=
  if req.has_param "text" = false then some ({ status := 400, body := missing_text }, srv, s)
  else
    let text := req.get_param_value "text"
    match srv.hash_cache.get text with
    | none => none
    | some (some cached, c1) =>
      some ({ status := 200, body := hashed text cached "cache" },
            { srv with hash_cache := c1 }, s)
    | some (none, c1) =>
      match DB.get_hash M srv.db s text with
      | none => none
      | some (HashResult.thrown, d1, s1) =>
        some ({ status := 500, body := internal_error },
              { srv with hash_cache := c1, db := d1 }, s1)
      | some (HashResult.found db_hash, d1, s1) =>
        (match c1.put text (toString db_hash) with
         | none => none
         | some c2 =>
           some ({ status := 200, body := hashed text (toString db_hash) "database" },
                 { srv with hash_cache := c2, db := d1 }, s1))
      | some (HashResult.not_found, d1, s1) =>
        match DB.put_hash M d1 s1 text (text_hash32 text) with
        | none => none
        | some (_, d2, s2) =>
          match c1.put text (toString (text_hash32 text)) with
          | none => none
          | some c2 =>
            some ({ status := 200,
                    body := hashed text (toString (text_hash32 text)) "computed" },
                  { srv with hash_cache := c2, db := d2 }, s2)

/-- The three operations of the service on the key-value dataset. -/
inductive Endpoint where
  | kv_create
  | kv_read
  | kv_delete
  deriving DecidableEq, Repr

/-- A request routed to its handler. -/
def handle {σ : Type} (M : MySQL σ) (srv : Server) (s : σ) :
    Endpoint × Request → Option (Response × Server × σ)
  | (Endpoint.kv_create, req) => kv_create M srv s req
  | (Endpoint.kv_read, req) => kv_read M srv s req
  | (Endpoint.kv_delete, req) => kv_delete M srv s req

/-- A sequential run of requests, first request first: the server and the MySQL state
after it. -/
def serve {σ : Type} (M : MySQL σ) (srv : Server) (s : σ) :
    List (Endpoint × Request) → Option (Server × σ)
  | [] => some (srv, s)
  | call :: rest =>
    match handle M srv s call with
    | none => none
    | some (_, srv1, s1) => serve M srv1 s1 rest

end Server

/-- A row of the `hash_store` table. -/
structure HashRow where
  text_pfx : List Nat
  text_hash : String
  text : String
  hash_value : Nat
  deriving DecidableEq, Repr

/-- The state of the store: the `kv_pairs` table, the `hash_store` table, and for the
statements to come whether each one fails (`true`) or not. -/
structure Store where
  kv : List (String × String)
  hs : List HashRow
  faults : List Bool
  deriving DecidableEq, Repr

/-- The row of `hash_store` that a select on prefix, text hash and text returns. -/
def Store.lookup (t : Store) (pfx : List Nat) (th text : String) : Option HashRow :=
  t.hs.find? (fun r => decide (r.text_pfx = pfx ∧ r.text_hash = th ∧ r.text = text))

/-- Modelled from the spec: the MySQL server that keeps the two tables (it is outside the
repository). On `kv_pairs`, put upserts, get returns the value or not-found, delete
removes. On `hash_store`, put upserts keyed by the exact text and get returns the value of
the row whose prefix, text hash and exact text all equal the ones asked for. Every
statement may fail, as the next entry of `faults` says; a failed statement is rejected and
leaves both tables unchanged. -/
def store_sql : MySQL Store where
  exec := fun t _ q =>
    if t.faults.head? = some true then (Answer.rejected, { t with faults := t.faults.tail })
    else
      match q with
      | Query.upsert key val =>
        (Answer.no_result,
          { t with kv := (key, val) :: assocErase t.kv key, faults := t.faults.tail })
      | Query.select key =>
        (match assocFind t.kv key with
         | some v => Answer.value v
         | none => Answer.no_row, { t with faults := t.faults.tail })
      | Query.delete key =>
        (Answer.no_result, { t with kv := assocErase t.kv key, faults := t.faults.tail })
      | Query.upsert_hash pfx th text hash =>
        (Answer.no_result,
          { t with hs := { text_pfx := pfx, text_hash := th, text := text, hash_value := hash }
                      :: t.hs.filter (fun r => decide (r.text ≠ text)),
                   faults := t.faults.tail })
      | Query.select_hash pfx th text =>
        (match t.lookup pfx th text with
         | some r => Answer.value (toString r.hash_value)
         | none => Answer.no_row, { t with faults := t.faults.tail })

/-- The tiers agree: the cache is well-formed, its capacity does not convert to zero, and
every entry of the cache is a row of `kv_pairs` with the same value. -/
def Server.Agree (srv : Server) (st : Store) : Prop :=
  srv.cache.WF ∧ size_t_of_int srv.cache.max_size ≠ 0 ∧
  ∀ n ∈ srv.cache.entries, assocFind st.kv n.k = some n.v

/-- Every parameter value of the request has at most 255 bytes and no null byte. -/
def Request.plain (r : Request) : Prop :=
  ∀ p ∈ r.params, (bytes p.2).length ≤ 255 ∧ c_string p.2 = p.2

/-- No value of the `kv_pairs` table has a null byte. -/
def Store.plain (st : Store) : Prop := ∀ p ∈ st.kv, c_string p.2 = p.2

/-- A value with a null byte in it: the letter `a`, a null byte, the letter `b`. -/
def nul_value : String := String.mk ['a', Char.ofNat 0, 'b']

/-- A server that gives the same answer to every statement. -/
def fixed_sql (a : Answer) : MySQL Unit where
  exec := fun _ _ _ => (a, ())

/-- A server with an empty cache of capacity 2, an empty hash cache of capacity 2 and
one free connection. -/
def Server.small : Server :=
  { cache := Cache.new 2, hash_cache := Cache.new 2, db := { pool := [7] } }

/-- Two texts of 285 bytes: 255 times `a`, then one of two tails of 30 letters. They are
distinct, have the same first 255 bytes and the same `compute_text_hash`. -/
def collide (second : Bool) : String :=
  String.mk (List.replicate 255 'a') ++
    (if second then "qmmonsmmqmmtmmsmpmtsmsommmmmms" else "mwrmmmummqmmnnmrmmmmnmmmqtmsum")

/-! ## cache/cache.h: `hit_rate` and the `double` arithmetic it uses -/

/-- The integer nearest to `y`, the even one of the two when `y` is half-way. -/
def round_half_even (y : ℚ) : Int :=
  if y - Int.floor y < 1 / 2 then Int.floor y
  else if 1 / 2 < y - Int.floor y then Int.floor y + 1
  else if Int.floor y % 2 = 0 then Int.floor y
  else Int.floor y + 1

/-- The `double` nearest to `x` (IEEE 754 binary64, round to nearest, ties to even), for
`x` in the range of normal numbers: 53 significant bits at the binary exponent of `x`.
Every `double` operation is taken to round its exact result once, this way. -/
def round_double (x : ℚ) : ℚ :=
  if x = 0 then 0
  else round_half_even (x / 2 ^ (Int.log 2 |x| - 52)) * 2 ^ (Int.log 2 |x| - 52)

/-- `Cache::hit_rate`: `total = hits + misses` on `int`, then the conversions, the
division and the multiplication by `100.0` on `double`, each rounded. -/
def Cache.hit_rate (c : Cache) : ℚ :=
  if int_add c.hits c.misses > 0 then
    round_double (round_double
      (round_double (c.hits : ℚ) / round_double (int_add c.hits c.misses : ℚ)) * 100)
  else 0

/-- The text made of `n` times the letter `a`. -/
def letters (n : Nat) : String := String.mk (List.replicate n 'a')

/-- The text made of `n` single quotes. -/
def quotes (n : Nat) : String := String.mk (List.replicate n (Char.ofNat 39))

/-! ## cache/cache.h: `hit_rate` called while another thread uses the cache -/

/-- The result of `hit_rate()` on one thread while another thread makes the calls `ops`.
`get`, `put` and `remove` hold the mutex for their whole body, so each call of the other
thread is one step. `hit_rate`, like `size`, `get_hits`, `get_misses` and `get_evictions`,
takes no lock: it loads `misses` and `hits` in two steps (`hits + misses` leaves the order
of the two loads open; this is the order `misses`, `hits`) and computes from the loaded
values. `i` calls of the other thread complete before the first load and `j` more before
the second. -/
def Cache.hit_rate_during (c : Cache) (ops : List Cache.Op) (i j : Nat) : Option ℚ :=
  match c.run (ops.take i) with
  | none => none
  | some c1 =>
    match c.run (ops.take (i + j)) with
    | none => none
    | some c2 => some (Cache.hit_rate { c2 with misses := c1.misses })

/-- The result of `hit_rate()` in the sequential order that puts it after the first `k`
calls of `ops`. -/
def Cache.hit_rate_after (c : Cache) (ops : List Cache.Op) (k : Nat) : Option ℚ :=
  (c.run (ops.take k)).map Cache.hit_rate

/-! ## Lemmas on association lists -/

/-- Two bindings of a list with distinct first components are equal once their first
components are. -/
theorem eq_of_fst_eq {α β : Type} {l : List (α × β)} (hn : (l.map Prod.fst).Nodup)
    {p q : α × β} (hp : p ∈ l) (hq : q ∈ l) (h : p.1 = q.1) : p = q :=
  List.inj_on_of_nodup_map hn hp hq h

section Assoc
variable {α β : Type} [DecidableEq α]

theorem assocFind_some_mem {l : List (α × β)} {a : α} {b : β}
    (h : assocFind l a = some b) : (a, b) ∈ l := by
  induction l with
  | nil => simp [assocFind] at h
  | cons p t ih =>
    obtain ⟨x, y⟩ := p
    by_cases hx : x = a
    · simp [assocFind, hx] at h
      simp [hx, h]
    · simp [assocFind, hx] at h
      exact List.mem_cons_of_mem _ (ih h)

theorem assocFind_eq_none {l : List (α × β)} {a : α} :
    assocFind l a = none ↔ ∀ p ∈ l, p.1 ≠ a := by
  induction l with
  | nil => simp [assocFind]
  | cons p t ih =>
    obtain ⟨x, y⟩ := p
    by_cases hx : x = a
    · simp [assocFind, hx]
    · simp [assocFind, hx, ih]

theorem assocFind_of_mem {l : List (α × β)} (hn : (l.map Prod.fst).Nodup) {a : α} {b : β}
    (h : (a, b) ∈ l) : assocFind l a = some b := by
  induction l with
  | nil => simp at h
  | cons p t ih =>
    obtain ⟨x, y⟩ := p
    rw [List.map_cons, List.nodup_cons] at hn
    rcases List.mem_cons.mp h with h1 | h1
    · cases h1
      simp [assocFind]
    · have hx : x ≠ a := by
        intro hxa
        apply hn.1
        rw [hxa]
        exact List.mem_map.mpr ⟨(a, b), h1, rfl⟩
      simp [assocFind, hx, ih hn.2 h1]

theorem mem_assocErase {l : List (α × β)} {a : α} {p : α × β} :
    p ∈ assocErase l a ↔ p ∈ l ∧ p.1 ≠ a := by
  simp [assocErase]

theorem assocErase_sublist (l : List (α × β)) (a : α) : (assocErase l a).Sublist l :=
  List.filter_sublist l

theorem assocErase_eq_self {l : List (α × β)} {a : α} (h : assocFind l a = none) :
    assocErase l a = l := by
  rw [assocFind_eq_none] at h
  unfold assocErase
  rw [List.filter_eq_self]
  intro p hp
  simp [h p hp]

theorem assocFind_assocErase_self (l : List (α × β)) (a : α) :
    assocFind (assocErase l a) a = none := by
  rw [assocFind_eq_none]
  intro p hp
  exact (mem_assocErase.mp hp).2

theorem assocFind_assocErase_ne {l : List (α × β)} {a a1 : α} (h : a1 ≠ a) :
    assocFind (assocErase l a) a1 = assocFind l a1 := by
  induction l with
  | nil => rfl
  | cons p t ih =>
    obtain ⟨x, y⟩ := p
    by_cases hx : x = a
    · have hx1 : x ≠ a1 := by rw [hx]; exact fun e => h e.symm
      have he : assocErase ((x, y) :: t) a = assocErase t a := by
        simp [assocErase, hx]
      rw [he, ih]
      simp [assocFind, hx1]
    · have he : assocErase ((x, y) :: t) a = (x, y) :: assocErase t a := by
        simp [assocErase, hx]
      rw [he]
      by_cases hx1 : x = a1
      · simp [assocFind, hx1]
      · simp [assocFind, hx1, ih]

theorem nodup_fst_assocErase {l : List (α × β)} (a : α) (hn : (l.map Prod.fst).Nodup) :
    ((assocErase l a).map Prod.fst).Nodup :=
  hn.sublist ((assocErase_sublist l a).map Prod.fst)

/-- Moving a binding to the front permutes the list. -/
theorem cons_assocErase_perm {l : List (α × β)} (hn : (l.map Prod.fst).Nodup) {a : α} {b : β}
    (h : (a, b) ∈ l) : List.Perm ((a, b) :: assocErase l a) l := by
  induction l with
  | nil => simp at h
  | cons p t ih =>
    obtain ⟨x, y⟩ := p
    rw [List.map_cons, List.nodup_cons] at hn
    by_cases hx : x = a
    · subst hx
      have hy : (x, b) = (x, y) := by
        rcases List.mem_cons.mp h with h1 | h1
        · exact h1
        · exact absurd (List.mem_map.mpr ⟨(x, b), h1, rfl⟩) hn.1
      have ht : assocErase t x = t := by
        apply assocErase_eq_self
        rw [assocFind_eq_none]
        intro p hp hpx
        apply hn.1
        rw [← hpx]
        exact List.mem_map.mpr ⟨p, hp, rfl⟩
      have he : assocErase ((x, y) :: t) x = t := by
        rw [← ht]
        simp [assocErase]
      rw [he, hy]
    · have h1 : (a, b) ∈ t := by
        rcases List.mem_cons.mp h with h1 | h1
        · cases h1
          exact absurd rfl hx
        · exact h1
      have he : assocErase ((x, y) :: t) a = (x, y) :: assocErase t a := by
        simp [assocErase, hx]
      rw [he]
      exact (List.Perm.swap _ _ _).trans ((ih hn.2 h1).cons _)

end Assoc


/-! ## Lemmas on the cache -/

namespace Cache

theorem wf_new (size : Int) : (new size).WF := by
  simp [WF, new]

/-- Below `INT_MAX` the statement `x++` adds one. -/
theorem int_incr_eq {x : Int} (h1 : INT_MIN ≤ x) (h2 : x < INT_MAX) : int_incr x = x + 1 := by
  unfold int_incr int_add
  unfold INT_MIN at h1
  unfold INT_MAX at h2
  omega

/-- The invariant only reads the index and the address and key of every cell. -/
theorem WF.congr {c c1 : Cache} (h : c.WF) (hm : c1.map = c.map)
    (hs : List.Perm (c1.items.map (fun q => (q.1, q.2.k)))
      (c.items.map (fun q => (q.1, q.2.k)))) : c1.WF := by
  obtain ⟨h1, h2, h3, h4, h5⟩ := h
  refine ⟨?_, ?_, ?_, ?_, ?_⟩
  · have e : ∀ l : List (Iter × Node),
        l.map Prod.fst = (l.map (fun q => (q.1, q.2.k))).map Prod.fst := by
      intro l; simp [List.map_map, Function.comp_def]
    rw [e] at h1 ⊢
    exact (hs.map Prod.fst).nodup_iff.mpr h1
  · have e : ∀ l : List (Iter × Node),
        l.map (fun p => p.2.k) = (l.map (fun q => (q.1, q.2.k))).map Prod.snd := by
      intro l; simp [List.map_map, Function.comp_def]
    rw [e] at h2 ⊢
    exact (hs.map Prod.snd).nodup_iff.mpr h2
  · rw [hm]; exact h3
  · intro p hp
    rw [hm] at hp
    exact hs.mem_iff.mpr (h4 p hp)
  · intro q hq
    have hq1 : (q.1, q.2.k) ∈ c1.items.map (fun q => (q.1, q.2.k)) :=
      List.mem_map.mpr ⟨q, hq, rfl⟩
    obtain ⟨r, hr, hre⟩ := List.mem_map.mp (hs.mem_iff.mp hq1)
    have := h5 r hr
    simp only [Prod.mk.injEq] at hre
    rw [hm, ← hre.1, ← hre.2]
    exact this

theorem WF.find_some {c : Cache} (h : c.WF) {key : String} {it : Iter}
    (hf : assocFind c.map key = some it) :
    ∃ n, (it, n) ∈ c.items ∧ n.k = key ∧ assocFind c.items it = some n := by
  obtain ⟨h1, _, _, h4, _⟩ := h
  obtain ⟨q, hq, hqe⟩ := List.mem_map.mp (h4 _ (assocFind_some_mem hf))
  simp only [Prod.mk.injEq] at hqe
  obtain ⟨i, n⟩ := q
  simp only at hqe
  obtain ⟨rfl, rfl⟩ := hqe
  exact ⟨n, hq, rfl, assocFind_of_mem h1 hq⟩

theorem WF.find_of_mem {c : Cache} (h : c.WF) {q : Iter × Node} (hq : q ∈ c.items) :
    assocFind c.map q.2.k = some q.1 :=
  assocFind_of_mem h.2.2.1 (h.2.2.2.2 q hq)

theorem WF.find_none {c : Cache} (h : c.WF) {key : String}
    (hf : assocFind c.map key = none) : ∀ q ∈ c.items, q.2.k ≠ key := by
  intro q hq hk
  have := h.find_of_mem hq
  rw [hk, hf] at this
  cases this

theorem WF.find_none_of_not_mem {c : Cache} (h : c.WF) {key : String} (hk : key ∉ c.keys) :
    assocFind c.map key = none := by
  cases hf : assocFind c.map key with
  | none => rfl
  | some it =>
    obtain ⟨n, hq, hn, _⟩ := h.find_some hf
    exact absurd (List.mem_map.mpr ⟨(it, n), hq, hn⟩) hk

/-- Two cells of a well-formed recency list with the same key are the same cell. -/
theorem WF.eq_of_key_eq {c : Cache} (h : c.WF) {p q : Iter × Node}
    (hp : p ∈ c.items) (hq : q ∈ c.items) (hk : p.2.k = q.2.k) : p = q :=
  List.inj_on_of_nodup_map h.2.1 hp hq hk

/-- Removing the cell at the address of a key removes exactly the cells of that key. -/
theorem WF.erase_eq_filter {c : Cache} (h : c.WF) {it : Iter} {n : Node}
    (hq : (it, n) ∈ c.items) :
    assocErase c.items it = c.items.filter (fun q => decide (q.2.k ≠ n.k)) := by
  unfold assocErase
  apply List.filter_congr
  intro q hq1
  by_cases e : q.1 = it
  · have : q = (it, n) := eq_of_fst_eq h.1 hq1 hq e
    subst this
    simp
  · have e1 : q.2.k ≠ n.k := by
      intro hk
      have : q = (it, n) := h.eq_of_key_eq hq1 hq hk
      exact e (by rw [this])
    simp [e, e1]

theorem entries_filter (l : List (Iter × Node)) (key : String) :
    (l.filter (fun q => decide (q.2.k ≠ key))).map Prod.snd
      = (l.map Prod.snd).filter (fun n => decide (n.k ≠ key)) := by
  rw [List.filter_map]
  rfl


theorem get_miss {c : Cache} {key : String} (hf : assocFind c.map key = none) :
    c.get key = some (none, { c with misses := int_incr c.misses }) := by
  simp [get, hf]

theorem get_hit {c : Cache} (h : c.WF) {it : Iter} {n : Node} (hq : (it, n) ∈ c.items) :
    c.get n.k = some (some n.v,
      { c with items := (it, n) :: assocErase c.items it, hits := int_incr c.hits }) := by
  have h1 : assocFind c.map n.k = some it := h.find_of_mem hq
  have h2 : assocFind c.items it = some n := assocFind_of_mem h.1 hq
  simp [get, h1, splice_front, h2, assocFind]

theorem map_assign_assocErase (l : List (Iter × Node)) (it : Iter) (val : String) :
    (assocErase l it).map (fun p => if p.1 = it then (p.1, { p.2 with v := val }) else p)
      = assocErase l it := by
  conv_rhs => rw [← List.map_id (assocErase l it)]
  apply List.map_congr_left
  intro p hp
  have := (mem_assocErase.mp hp).2
  simp [this]

theorem put_hit {c : Cache} (h : c.WF) {it : Iter} {n : Node} (hq : (it, n) ∈ c.items)
    (val : String) :
    c.put n.k val = some
      { c with items := (it, { k := n.k, v := val }) :: assocErase c.items it } := by
  have h1 : assocFind c.map n.k = some it := h.find_of_mem hq
  have h2 : assocFind c.items it = some n := assocFind_of_mem h.1 hq
  simp [put, h1, splice_front, h2, assign_v, assocFind, map_assign_assocErase]

theorem remove_miss {c : Cache} {key : String} (hf : assocFind c.map key = none) :
    c.remove key = some c := by
  simp [remove, hf]

theorem remove_hit {c : Cache} (h : c.WF) {it : Iter} {n : Node} (hq : (it, n) ∈ c.items) :
    c.remove n.k = some
      { c with items := assocErase c.items it, map := assocErase c.map n.k } := by
  have h1 : assocFind c.map n.k = some it := h.find_of_mem hq
  have h2 : assocFind c.items it = some n := assocFind_of_mem h.1 hq
  simp [remove, h1, h2]

theorem put_miss {c : Cache} {key : String} (hf : assocFind c.map key = none) (val : String) :
    c.put key val = (c.evict_if_full).map (fun c1 => push_new c1 key val) := by
  simp only [put, hf]
  cases c.evict_if_full <;> rfl

/-! ### The invariant is kept by every operation -/

theorem wf_move_front {c : Cache} (h : c.WF) {it : Iter} {n : Node} (hq : (it, n) ∈ c.items)
    (val : String) (hits : Int) :
    WF { c with items := (it, { k := n.k, v := val }) :: assocErase c.items it,
                hits := hits } := by
  refine WF.congr h rfl ?_
  have hp := (cons_assocErase_perm h.1 hq).map (fun q => (q.1, q.2.k))
  simpa using hp

theorem wf_remove {c : Cache} (h : c.WF) {it : Iter} {n : Node} (hq : (it, n) ∈ c.items) :
    WF { c with items := assocErase c.items it, map := assocErase c.map n.k } := by
  have he := h.erase_eq_filter hq
  obtain ⟨h1, h2, h3, h4, h5⟩ := id h
  refine ⟨?_, ?_, ?_, ?_, ?_⟩
  · exact nodup_fst_assocErase it h1
  · exact h2.sublist ((assocErase_sublist c.items it).map _)
  · exact nodup_fst_assocErase n.k h3
  · intro p hp
    obtain ⟨hp1, hp2⟩ := mem_assocErase.mp hp
    obtain ⟨q, hq1, hqe⟩ := List.mem_map.mp (h4 p hp1)
    simp only [Prod.mk.injEq] at hqe
    refine List.mem_map.mpr ⟨q, ?_, by simp [hqe]⟩
    show q ∈ assocErase c.items it
    rw [he]
    simp only [List.mem_filter, decide_eq_true_eq]
    exact ⟨hq1, by rw [hqe.2]; exact hp2⟩
  · intro q hq1
    have hq2 : q ∈ assocErase c.items it := hq1
    rw [he] at hq2
    simp only [List.mem_filter, decide_eq_true_eq] at hq2
    exact mem_assocErase.mpr ⟨h5 q hq2.1, hq2.2⟩

theorem fresh_not_mem (l : List (Iter × Node)) : ∀ q ∈ l, q.1 ≠ fresh l := by
  have hb : ∀ (l : List Nat) (x : Nat), x ∈ l → x ≤ l.foldr max 0 := by
    intro l
    induction l with
    | nil => intro x hx; simp at hx
    | cons a t ih =>
      intro x hx
      rcases List.mem_cons.mp hx with e | e
      · subst e; simp
      · have := ih x e
        simp only [List.foldr_cons]
        exact le_trans this (le_max_right _ _)
  intro q hq e
  have hle : (q.1 : Nat) ≤ (l.map Prod.fst).foldr max 0 :=
    hb (l.map Prod.fst) q.1 (List.mem_map.mpr ⟨q, hq, rfl⟩)
  have e2 : (q.1 : Nat) = (l.map Prod.fst).foldr max 0 + 1 := e
  rw [e2] at hle
  exact Nat.not_succ_le_self _ hle

theorem wf_push_new {c : Cache} (h : c.WF) {key : String}
    (hf : assocFind c.map key = none) (val : String) : (push_new c key val).WF := by
  have hk := h.find_none hf
  obtain ⟨h1, h2, h3, h4, h5⟩ := id h
  have hm : assocErase c.map key = c.map := assocErase_eq_self hf
  simp only [push_new, hm]
  refine ⟨?_, ?_, ?_, ?_, ?_⟩
  · simp only [List.map_cons, List.nodup_cons]
    refine ⟨?_, h1⟩
    intro hmem
    obtain ⟨q, hq, hqe⟩ := List.mem_map.mp hmem
    exact fresh_not_mem c.items q hq hqe
  · simp only [List.map_cons, List.nodup_cons]
    refine ⟨?_, h2⟩
    intro hmem
    obtain ⟨q, hq, hqe⟩ := List.mem_map.mp hmem
    exact hk q hq hqe
  · simp only [List.map_cons, List.nodup_cons]
    refine ⟨?_, h3⟩
    intro hmem
    obtain ⟨p, hp, hpe⟩ := List.mem_map.mp hmem
    exact (assocFind_eq_none.mp hf) p hp hpe
  · intro p hp
    rcases List.mem_cons.mp hp with e | e
    · subst e; simp
    · exact List.mem_cons_of_mem _ (h4 p e)
  · intro q hq
    rcases List.mem_cons.mp hq with e | e
    · subst e; simp
    · exact List.mem_cons_of_mem _ (h5 q e)


/-! ### Eviction -/

theorem evict_not_full {c : Cache} (hlt : c.items.length < size_t_of_int c.max_size) :
    c.evict_if_full = some c := by
  have : ¬ (c.items.length ≥ size_t_of_int c.max_size) := by omega
  simp [evict_if_full, this]

theorem evict_full {c : Cache} (hge : c.items.length ≥ size_t_of_int c.max_size)
    {init : List (Iter × Node)} {last : Iter × Node} (hi : c.items = init ++ [last]) :
    c.evict_if_full = some { c with map := assocErase c.map last.2.k,
                                    items := init,
                                    evicts := int_incr c.evicts } := by
  unfold evict_if_full
  rw [if_pos hge, hi]
  simp

/-- Dropping the last cell is erasing the cell at its address. -/
theorem assocErase_last {init : List (Iter × Node)} {last : Iter × Node}
    (hn : ((init ++ [last]).map Prod.fst).Nodup) : assocErase (init ++ [last]) last.1 = init := by
  rw [List.map_append, List.nodup_append] at hn
  obtain ⟨_, _, hd⟩ := hn
  unfold assocErase
  rw [List.filter_append]
  have h1 : init.filter (fun p => decide (p.1 ≠ last.1)) = init := by
    rw [List.filter_eq_self]
    intro p hp
    have : p.1 ≠ last.1 := by
      intro e
      exact hd (List.mem_map.mpr ⟨p, hp, rfl⟩) (by simp [e])
    simp [this]
  rw [h1]
  simp

theorem wf_evict {c : Cache} (h : c.WF) {init : List (Iter × Node)} {last : Iter × Node}
    (hi : c.items = init ++ [last]) :
    WF { c with map := assocErase c.map last.2.k, items := init,
                evicts := int_incr c.evicts } := by
  have hq : (last.1, last.2) ∈ c.items := by rw [hi]; simp
  have hw := wf_remove h hq
  have he : assocErase c.items last.1 = init := by
    rw [hi]
    apply assocErase_last
    rw [← hi]
    exact h.1
  rw [he] at hw
  exact WF.congr hw rfl (List.Perm.refl _)

theorem size_t_of_int_eq {x : Int} (h1 : 0 ≤ x) (h2 : x ≤ INT_MAX) :
    (size_t_of_int x : Int) = x := by
  unfold size_t_of_int
  unfold INT_MAX at h2
  omega

theorem eq_append_of_ne_nil (l : List (Iter × Node)) (h : l ≠ []) :
    ∃ init last, l = init ++ [last] :=
  ⟨l.dropLast, l.getLast h, (List.dropLast_append_getLast h).symm⟩

/-- On a non-empty list, or with a capacity that does not convert to zero, the eviction
step of `put` is defined: it keeps the invariant and the absence of a key, and makes room
for one more cell. -/
theorem evict_defined {c : Cache} (h : c.WF)
    (hok : c.items ≠ [] ∨ size_t_of_int c.max_size ≠ 0)
    {key : String} (hf : assocFind c.map key = none) :
    ∃ c1, c.evict_if_full = some c1 ∧ c1.WF ∧ assocFind c1.map key = none ∧
      c1.max_size = c.max_size ∧ c1.hits = c.hits ∧ c1.misses = c.misses ∧
      (c.items.length ≤ size_t_of_int c.max_size →
        c1.items.length + 1 ≤ size_t_of_int c.max_size) := by
  by_cases hlt : c.items.length < size_t_of_int c.max_size
  · exact ⟨c, evict_not_full hlt, h, hf, rfl, rfl, rfl, fun _ => hlt⟩
  · have hge : c.items.length ≥ size_t_of_int c.max_size := by omega
    have hne : c.items ≠ [] := by
      rcases hok with hne | hcap
      · exact hne
      · intro e
        rw [e] at hge
        simp at hge
        exact hcap hge
    obtain ⟨init, last, hi⟩ := eq_append_of_ne_nil c.items hne
    refine ⟨_, evict_full hge hi, wf_evict h hi, ?_, rfl, rfl, rfl, ?_⟩
    · show assocFind (assocErase c.map last.2.k) key = none
      rw [assocFind_eq_none] at hf ⊢
      intro p hp
      exact hf p (mem_assocErase.mp hp).1
    · intro hle
      show init.length + 1 ≤ size_t_of_int c.max_size
      have : c.items.length = init.length + 1 := by rw [hi]; simp
      omega

/-- The eviction step is undefined only on an empty list with a capacity that converts to
zero. -/
theorem evict_none_iff (c : Cache) :
    c.evict_if_full = none ↔ c.items = [] ∧ size_t_of_int c.max_size = 0 := by
  unfold evict_if_full
  by_cases hge : c.items.length ≥ size_t_of_int c.max_size
  · rw [if_pos hge]
    cases hl : c.items.getLast? with
    | none =>
      have e : c.items = [] := List.getLast?_eq_none_iff.mp hl
      rw [e] at hge
      simp at hge
      simp [e, hge]
    | some last =>
      have : c.items ≠ [] := by
        intro e
        rw [e] at hl
        simp at hl
      simp [this]
  · rw [if_neg hge]
    have : ¬ (c.items = [] ∧ size_t_of_int c.max_size = 0) := by
      rintro ⟨e1, e2⟩
      rw [e1, e2] at hge
      simp at hge
    simp [this]

/-- With a capacity that does not convert to zero, `put` of a key that the index does not
hold is defined and leaves the new entry in the first cell of the recency list. -/
theorem put_miss_defined {c : Cache} (h : c.WF) (hcap : size_t_of_int c.max_size ≠ 0)
    {key : String} (hf : assocFind c.map key = none) (val : String) :
    ∃ c1 it rest, c.put key val = some c1 ∧ c1.WF ∧
      c1.items = (it, { k := key, v := val }) :: rest ∧ c1.max_size = c.max_size ∧
      c1.hits = c.hits ∧ c1.misses = c.misses := by
  obtain ⟨c0, he, hw, hf0, hm, hh, hmi, _⟩ := evict_defined h (Or.inr hcap) hf
  exact ⟨push_new c0 key val, fresh c0.items, c0.items, by rw [put_miss hf, he]; rfl,
    wf_push_new hw hf0 val, rfl, hm, hh, hmi⟩

/-! ### Every call is defined and keeps the invariant and the size bound -/

theorem step_inv {c : Cache} (h : c.WF) (hcap : size_t_of_int c.max_size ≠ 0) (op : Op) :
    ∃ c1, c.step op = some c1 ∧ c1.WF ∧ c1.max_size = c.max_size ∧
      (c.items.length ≤ size_t_of_int c.max_size →
        c1.items.length ≤ size_t_of_int c.max_size) := by
  cases op with
  | get key =>
    cases hf : assocFind c.map key with
    | none =>
      exact ⟨{ c with misses := int_incr c.misses }, by simp [step, get_miss hf],
        WF.congr h rfl (List.Perm.refl _), rfl, fun x => x⟩
    | some it =>
      obtain ⟨n, hq, rfl, _⟩ := h.find_some hf
      refine ⟨{ c with items := (it, n) :: assocErase c.items it, hits := int_incr c.hits },
        by simp [step, get_hit h hq], wf_move_front h hq n.v _, rfl, ?_⟩
      intro hle
      have := (cons_assocErase_perm h.1 hq).length_eq
      simp only [List.length_cons] at this ⊢
      omega
  | put key val =>
    cases hf : assocFind c.map key with
    | none =>
      obtain ⟨c1, he, hw, hf1, hm, _, _, hl⟩ := evict_defined h (Or.inr hcap) hf
      refine ⟨push_new c1 key val, by simp [step, put_miss hf, he], wf_push_new hw hf1 val,
        hm, ?_⟩
      intro hle
      have := hl hle
      simpa [push_new] using this
    | some it =>
      obtain ⟨n, hq, rfl, _⟩ := h.find_some hf
      have hw := wf_move_front h hq val c.hits
      refine ⟨_, by simp [step, put_hit h hq], hw, rfl, ?_⟩
      intro hle
      have := (cons_assocErase_perm h.1 hq).length_eq
      simp only [List.length_cons] at this ⊢
      omega
  | remove key =>
    cases hf : assocFind c.map key with
    | none => exact ⟨c, by simp [step, remove_miss hf], h, rfl, fun x => x⟩
    | some it =>
      obtain ⟨n, hq, rfl, _⟩ := h.find_some hf
      refine ⟨_, by simp [step, remove_hit h hq], wf_remove h hq, rfl, ?_⟩
      intro hle
      have := (assocErase_sublist c.items it).length_le
      show (assocErase c.items it).length ≤ _
      omega

/-- Every call that is defined keeps the invariant, whatever the capacity. -/
theorem step_wf {c c1 : Cache} (h : c.WF) (op : Op) (hs : c.step op = some c1) : c1.WF := by
  by_cases hok : c.items ≠ [] ∨ size_t_of_int c.max_size ≠ 0
  · cases op with
    | get key =>
      cases hf : assocFind c.map key with
      | none =>
        simp only [step, get_miss hf, Option.map_some', Option.some.injEq] at hs
        subst hs
        exact WF.congr h rfl (List.Perm.refl _)
      | some it =>
        obtain ⟨n, hq, rfl, _⟩ := h.find_some hf
        simp only [step, get_hit h hq, Option.map_some', Option.some.injEq] at hs
        subst hs
        exact wf_move_front h hq n.v _
    | put key val =>
      cases hf : assocFind c.map key with
      | none =>
        obtain ⟨c0, he, hw, hf0, _⟩ := evict_defined h hok hf
        simp only [step, put_miss hf, he, Option.map_some', Option.some.injEq] at hs
        subst hs
        exact wf_push_new hw hf0 val
      | some it =>
        obtain ⟨n, hq, rfl, _⟩ := h.find_some hf
        simp only [step, put_hit h hq, Option.some.injEq] at hs
        subst hs
        exact wf_move_front h hq val c.hits
    | remove key =>
      cases hf : assocFind c.map key with
      | none =>
        simp only [step, remove_miss hf, Option.some.injEq] at hs
        subst hs
        exact h
      | some it =>
        obtain ⟨n, hq, rfl, _⟩ := h.find_some hf
        simp only [step, remove_hit h hq, Option.some.injEq] at hs
        subst hs
        exact wf_remove h hq
  · have hemp : c.items = [] := by
      by_contra e
      exact hok (Or.inl e)
    have hcap : size_t_of_int c.max_size = 0 := by
      by_contra e
      exact hok (Or.inr e)
    have hmap : ∀ key, assocFind c.map key = none := by
      intro key
      apply h.find_none_of_not_mem
      simp [keys, hemp]
    cases op with
    | get key =>
      simp only [step, get_miss (hmap key), Option.map_some', Option.some.injEq] at hs
      subst hs
      exact WF.congr h rfl (List.Perm.refl _)
    | put key val =>
      have : c.evict_if_full = none := (evict_none_iff c).mpr ⟨hemp, hcap⟩
      simp [step, put_miss (hmap key), this] at hs
    | remove key =>
      simp only [step, remove_miss (hmap key), Option.some.injEq] at hs
      subst hs
      exact h

/-- Every state that a sequence of calls reaches from a well-formed state is well-formed. -/
theorem run_wf (ops : List Op) : ∀ {c c1 : Cache}, c.WF → c.run ops = some c1 → c1.WF := by
  induction ops with
  | nil =>
    intro c c1 h hr
    simp only [run, Option.some.injEq] at hr
    subst hr
    exact h
  | cons op rest ih =>
    intro c c1 h hr
    cases hs : c.step op with
    | none => simp [run, hs] at hr
    | some c0 =>
      simp only [run, hs] at hr
      exact ih (step_wf h op hs) hr

theorem run_inv (ops : List Op) : ∀ {c : Cache}, c.WF → size_t_of_int c.max_size ≠ 0 →
    c.items.length ≤ size_t_of_int c.max_size →
    ∃ c1, c.run ops = some c1 ∧ c1.WF ∧ c1.max_size = c.max_size ∧
      c1.items.length ≤ size_t_of_int c.max_size := by
  induction ops with
  | nil => intro c h _ hl; exact ⟨c, rfl, h, rfl, hl⟩
  | cons op rest ih =>
    intro c h hcap hl
    obtain ⟨c1, hs, hw, hm, hl1⟩ := step_inv h hcap op
    obtain ⟨c2, hr, hw2, hm2, hl2⟩ := ih hw (by rw [hm]; exact hcap) (by rw [hm]; exact hl1 hl)
    refine ⟨c2, by simp [run, hs, hr], hw2, by rw [hm2, hm], ?_⟩
    rw [← hm]; exact hl2


/-! ### The recency order seen through `entries` -/

theorem mem_entries {c : Cache} {n : Node} (h : n ∈ c.entries) : ∃ it, (it, n) ∈ c.items := by
  obtain ⟨q, hq, rfl⟩ := List.mem_map.mp h
  exact ⟨q.1, hq⟩

theorem mem_keys {c : Cache} {key : String} (h : key ∈ c.keys) :
    ∃ it n, (it, n) ∈ c.items ∧ n.k = key := by
  obtain ⟨q, hq, hk⟩ := List.mem_map.mp h
  exact ⟨q.1, q.2, hq, hk⟩

theorem entries_move_front {c : Cache} (h : c.WF) {it : Iter} {n : Node}
    (hq : (it, n) ∈ c.items) (m : Node) :
    ((it, m) :: assocErase c.items it).map Prod.snd
      = m :: c.entries.filter (fun x => decide (x.k ≠ n.k)) := by
  rw [List.map_cons, h.erase_eq_filter hq, entries_filter]
  rfl

theorem entries_filter_absent {c : Cache} {key : String} (hk : key ∉ c.keys) :
    c.entries.filter (fun x => decide (x.k ≠ key)) = c.entries := by
  rw [List.filter_eq_self]
  intro x hx
  obtain ⟨q, hq, rfl⟩ := List.mem_map.mp hx
  have : q.2.k ≠ key := fun e => hk (List.mem_map.mpr ⟨q, hq, e⟩)
  simp [this]

/-- `remove` is defined on every well-formed state; it filters the entry of the key out of
the recency order and changes nothing else but the index. -/
theorem remove_entries {c : Cache} (h : c.WF) (key : String) :
    ∃ c1, c.remove key = some c1 ∧
      c1.entries = c.entries.filter (fun x => decide (x.k ≠ key)) ∧
      c1.hits = c.hits ∧ c1.misses = c.misses ∧ c1.evicts = c.evicts ∧
      c1.max_size = c.max_size ∧ c1.WF := by
  cases hf : assocFind c.map key with
  | none =>
    have ha := h.find_none hf
    have hk : key ∉ c.keys := by
      intro hk
      obtain ⟨it, n, hq, hn⟩ := mem_keys hk
      exact ha _ hq hn
    exact ⟨c, remove_miss hf, (entries_filter_absent hk).symm, rfl, rfl, rfl, rfl, h⟩
  | some it =>
    obtain ⟨n, hq, rfl, _⟩ := h.find_some hf
    refine ⟨_, remove_hit h hq, ?_, rfl, rfl, rfl, rfl, wf_remove h hq⟩
    show (assocErase c.items it).map Prod.snd = _
    rw [h.erase_eq_filter hq, entries_filter]
    rfl

/-- A key is held exactly when one of the entries carries it. -/
theorem mem_keys_iff (c : Cache) (key : String) :
    key ∈ c.keys ↔ ∃ n ∈ c.entries, n.k = key := by
  constructor
  · intro hk
    obtain ⟨it, n, hq, hn⟩ := mem_keys hk
    exact ⟨n, List.mem_map.mpr ⟨(it, n), hq, rfl⟩, hn⟩
  · rintro ⟨n, hn, hk⟩
    obtain ⟨it, hq⟩ := mem_entries hn
    exact List.mem_map.mpr ⟨(it, n), hq, hk⟩

theorem size_eq_length {c : Cache} (h : (c.items.length : Int) ≤ INT_MAX) :
    c.size = c.items.length := by
  unfold size int_of_size_t
  unfold INT_MAX at h
  omega

end Cache

/-! ## The properties of the cache -/

open Cache

/-- C1: a cache created with a capacity `cap ≥ 1` (an `int`) never holds more than `cap`
entries: after every call of every sequence of `get`, `put` and `remove` calls from the
empty cache, the call is defined and `size()` is at most `cap`. -/
theorem cache_size_le_capacity (cap : Int) (h1 : 1 ≤ cap) (h2 : cap ≤ INT_MAX)
    (ops : List Op) (n : Nat) :
    ∃ c, (Cache.new cap).run (ops.take n) = some c ∧ c.size ≤ cap := by
  have hs : (size_t_of_int cap : Int) = cap := size_t_of_int_eq (by omega) h2
  have hcap : size_t_of_int (Cache.new cap).max_size ≠ 0 := by
    show size_t_of_int cap ≠ 0
    omega
  obtain ⟨c, hr, _, hm, hl⟩ := run_inv (ops.take n) (wf_new cap) hcap (Nat.zero_le _)
  refine ⟨c, hr, ?_⟩
  have hl1 : (c.items.length : Int) ≤ cap := by
    have : c.items.length ≤ size_t_of_int cap := hl
    omega
  rw [size_eq_length (le_trans hl1 h2)]
  exact hl1

theorem cache_size_le_capacity_witness :
    (1 : Int) ≤ 2 ∧ (2 : Int) ≤ INT_MAX ∧
    ∃ c, (Cache.new 2).run
        ([Op.put "a" "1", Op.put "b" "2", Op.get "a", Op.put "c" "3", Op.remove "a"].take 4)
          = some c ∧ c.size ≤ 2 :=
  ⟨by decide, by decide, cache_size_le_capacity 2 (by decide) (by decide) _ 4⟩

/-- C2: after every call of every sequence of `get`, `put` and `remove` calls from the empty
cache of capacity `cap ≥ 1`, the recency list and the index hold the same keys: no key
occurs twice in the list or in the index, every key of the index maps to the address of
the list cell that carries that key, and every list cell is indexed under its key. -/
theorem cache_list_index_agree (cap : Int) (h1 : 1 ≤ cap) (h2 : cap ≤ INT_MAX)
    (ops : List Op) (n : Nat) :
    ∃ c, (Cache.new cap).run (ops.take n) = some c ∧
      c.keys.Nodup ∧ (c.map.map Prod.fst).Nodup ∧
      (∀ key it, assocFind c.map key = some it →
        ∃ node, assocFind c.items it = some node ∧ node.k = key) ∧
      (∀ q ∈ c.items, assocFind c.map q.2.k = some q.1) ∧
      (∀ key, key ∈ c.map.map Prod.fst ↔ key ∈ c.keys) := by
  have hs : (size_t_of_int cap : Int) = cap := size_t_of_int_eq (by omega) h2
  have hcap : size_t_of_int (Cache.new cap).max_size ≠ 0 := by
    show size_t_of_int cap ≠ 0
    omega
  obtain ⟨c, hr, hw, _, _⟩ := run_inv (ops.take n) (wf_new cap) hcap (Nat.zero_le _)
  refine ⟨c, hr, hw.2.1, hw.2.2.1, ?_, ?_, ?_⟩
  · intro key it hf
    obtain ⟨node, _, hk, hn⟩ := hw.find_some hf
    exact ⟨node, hn, hk⟩
  · intro q hq
    exact hw.find_of_mem hq
  · intro key
    constructor
    · intro hk
      obtain ⟨p, hp, rfl⟩ := List.mem_map.mp hk
      obtain ⟨node, hq, hk1, _⟩ := hw.find_some (assocFind_of_mem hw.2.2.1 hp)
      exact List.mem_map.mpr ⟨(p.2, node), hq, hk1⟩
    · intro hk
      obtain ⟨it, node, hq, rfl⟩ := mem_keys hk
      exact List.mem_map.mpr ⟨(node.k, it), hw.2.2.2.2 _ hq, rfl⟩

theorem cache_list_index_agree_witness :
    (1 : Int) ≤ 2 ∧ (2 : Int) ≤ INT_MAX ∧
    ∃ c, (Cache.new 2).run
        ([Op.put "a" "1", Op.put "b" "2", Op.get "a", Op.put "c" "3", Op.remove "a"].take 5)
          = some c ∧
      c.keys.Nodup ∧ (c.map.map Prod.fst).Nodup ∧
      (∀ key it, assocFind c.map key = some it →
        ∃ node, assocFind c.items it = some node ∧ node.k = key) ∧
      (∀ q ∈ c.items, assocFind c.map q.2.k = some q.1) ∧
      (∀ key, key ∈ c.map.map Prod.fst ↔ key ∈ c.keys) :=
  ⟨by decide, by decide, cache_list_index_agree 2 (by decide) (by decide) _ 5⟩


/-- C3: in a well-formed cache state that holds `key` with value `v` and whose `hits` is an
`int` below `INT_MAX`, `get(key)` is a hit that returns `v`; the entry moves to the front
of the recency order while all other entries keep their values and relative order; `hits`
grows by exactly one, `misses` and `evicts` do not change. -/
theorem get_present (c : Cache) (h : c.WF) (hlo : INT_MIN ≤ c.hits) (hhi : c.hits < INT_MAX)
    (key v : String) (hp : ({ k := key, v := v } : Node) ∈ c.entries) :
    ∃ c1, c.get key = some (some v, c1) ∧
      c1.entries = { k := key, v := v } :: c.entries.filter (fun x => decide (x.k ≠ key)) ∧
      c1.hits = c.hits + 1 ∧ c1.misses = c.misses ∧ c1.evicts = c.evicts ∧
      c1.max_size = c.max_size ∧ c1.WF := by
  obtain ⟨it, hq⟩ := mem_entries hp
  refine ⟨{ c with items := (it, { k := key, v := v }) :: assocErase c.items it,
                   hits := int_incr c.hits }, get_hit h hq, ?_, int_incr_eq hlo hhi, rfl, rfl,
    rfl, ?_⟩
  · exact entries_move_front h hq _
  · exact wf_move_front h hq v _

theorem get_present_witness :
    Cache.demo.WF ∧ INT_MIN ≤ Cache.demo.hits ∧ Cache.demo.hits < INT_MAX ∧
    (⟨"a", "1"⟩ : Node)
      ∈ Cache.demo.entries ∧
    ∃ c1, Cache.demo.get "a"
        = some (some "1", c1) ∧
      c1.entries = ⟨"a", "1"⟩ ::
        Cache.demo.entries.filter
          (fun x => decide (x.k ≠ "a")) ∧
      c1.hits = Cache.demo.hits + 1 ∧ c1.misses = Cache.demo.misses ∧
      c1.evicts = Cache.demo.evicts ∧ c1.max_size = Cache.demo.max_size ∧ c1.WF :=
  ⟨by decide, by decide, by decide, by decide,
    get_present Cache.demo
      (by decide) (by decide) (by decide) "a" "1" (by decide)⟩

/-- C4: in a well-formed cache state that does not hold `key` and whose `misses` is an
`int` below `INT_MAX`, `get(key)` is a miss: it returns not-found and the state after it is
the state before it with `misses` one higher (entries, recency order, index, `hits` and
`evicts` are the same). -/
theorem get_absent (c : Cache) (h : c.WF) (hlo : INT_MIN ≤ c.misses) (hhi : c.misses < INT_MAX)
    (key : String) (ha : key ∉ c.keys) :
    c.get key = some (none, { c with misses := c.misses + 1 }) := by
  rw [get_miss (h.find_none_of_not_mem ha), int_incr_eq hlo hhi]

theorem get_absent_witness :
    Cache.demo.WF ∧ INT_MIN ≤ Cache.demo.misses ∧ Cache.demo.misses < INT_MAX ∧
    "c" ∉ Cache.demo.keys ∧
    Cache.demo.get "c"
      = some (none, { Cache.demo with misses := Cache.demo.misses + 1 }) :=
  ⟨by decide, by decide, by decide, by decide,
    get_absent Cache.demo
      (by decide) (by decide) (by decide) "c" (by decide)⟩


/-- C5: in a well-formed cache state that holds `key`, `put(key, v)` evicts nothing: the
size, the set of keys and the three counters are unchanged, the entry of `key` becomes the
front of the recency order with value `v`, every other entry keeps its value and relative
order, and a `get(key)` that follows returns `v`. -/
theorem put_present (c : Cache) (h : c.WF) (key old v : String)
    (hp : ({ k := key, v := old } : Node) ∈ c.entries) :
    ∃ c1, c.put key v = some c1 ∧
      c1.entries = { k := key, v := v } :: c.entries.filter (fun x => decide (x.k ≠ key)) ∧
      c1.size = c.size ∧ (∀ x, x ∈ c1.keys ↔ x ∈ c.keys) ∧
      c1.hits = c.hits ∧ c1.misses = c.misses ∧ c1.evicts = c.evicts ∧
      c1.max_size = c.max_size ∧ c1.WF ∧
      ∃ c2, c1.get key = some (some v, c2) := by
  obtain ⟨it, hq⟩ := mem_entries hp
  have hw : WF { c with items := (it, { k := key, v := v }) :: assocErase c.items it } :=
    wf_move_front h hq v c.hits
  have hperm := cons_assocErase_perm h.1 hq
  refine ⟨{ c with items := (it, { k := key, v := v }) :: assocErase c.items it },
    put_hit h hq v, entries_move_front h hq _, ?_, ?_, rfl, rfl, rfl, rfl, hw, ?_⟩
  · have := hperm.length_eq
    simp only [List.length_cons] at this
    simp only [size, List.length_cons, this]
  · intro x
    have hk := hperm.map (fun p : Iter × Node => p.2.k)
    exact hk.mem_iff
  · exact ⟨_, get_hit hw (n := { k := key, v := v }) (List.mem_cons_self _ _)⟩

theorem put_present_witness :
    Cache.demo.WF ∧ (⟨"a", "1"⟩ : Node) ∈ Cache.demo.entries ∧
    ∃ c1, Cache.demo.put "a" "7" = some c1 ∧
      c1.entries = ⟨"a", "7"⟩ :: Cache.demo.entries.filter (fun x => decide (x.k ≠ "a")) ∧
      c1.size = Cache.demo.size ∧ (∀ x, x ∈ c1.keys ↔ x ∈ Cache.demo.keys) ∧
      c1.hits = Cache.demo.hits ∧ c1.misses = Cache.demo.misses ∧
      c1.evicts = Cache.demo.evicts ∧ c1.max_size = Cache.demo.max_size ∧ c1.WF ∧
      ∃ c2, c1.get "a" = some (some "7", c2) :=
  ⟨by decide, by decide, put_present Cache.demo (by decide) "a" "1" "7" (by decide)⟩

/-- C6: in a well-formed cache state of capacity `max_size ≥ 1` that does not hold `key`,
`put(key, v)` on a cache that holds exactly `max_size` entries and whose `evicts` is an
`int` below `INT_MAX` removes the last entry of the recency order and no other, adds one to
`evicts`, and puts `(key, v)` at the front, all other entries keeping values and order; on
a cache that holds fewer entries it evicts nothing, puts `(key, v)` at the front and the
size grows by one. -/
theorem put_absent (c : Cache) (h : c.WF) (h1 : 1 ≤ c.max_size) (h2 : c.max_size ≤ INT_MAX)
    (key v : String) (ha : key ∉ c.keys) :
    ((c.entries.length : Int) = c.max_size → INT_MIN ≤ c.evicts → c.evicts < INT_MAX →
      ∃ c1, c.put key v = some c1 ∧
        c1.entries = { k := key, v := v } :: c.entries.dropLast ∧
        c1.evicts = c.evicts + 1 ∧ c1.size = c.size ∧
        c1.hits = c.hits ∧ c1.misses = c.misses ∧ c1.max_size = c.max_size ∧ c1.WF) ∧
    ((c.entries.length : Int) < c.max_size →
      ∃ c1, c.put key v = some c1 ∧
        c1.entries = { k := key, v := v } :: c.entries ∧
        c1.evicts = c.evicts ∧ c1.size = c.size + 1 ∧
        c1.hits = c.hits ∧ c1.misses = c.misses ∧ c1.max_size = c.max_size ∧ c1.WF) := by
  have hf := h.find_none_of_not_mem ha
  have hs : (size_t_of_int c.max_size : Int) = c.max_size := size_t_of_int_eq (by omega) h2
  have hlen : c.entries.length = c.items.length := by simp [entries]
  constructor
  · intro hfull hlo hhi
    rw [hlen] at hfull
    have hge : c.items.length ≥ size_t_of_int c.max_size := by omega
    have hne : c.items ≠ [] := by
      intro e
      rw [e] at hfull
      simp at hfull
      omega
    obtain ⟨init, last, hi⟩ := eq_append_of_ne_nil c.items hne
    have hw := wf_evict h hi
    have hf1 : assocFind (assocErase c.map last.2.k) key = none := by
      rw [assocFind_eq_none] at hf ⊢
      intro p hp
      exact hf p (mem_assocErase.mp hp).1
    refine ⟨push_new { c with map := assocErase c.map last.2.k, items := init,
                              evicts := int_incr c.evicts } key v,
      by rw [put_miss hf, evict_full hge hi]; rfl, ?_, int_incr_eq hlo hhi, ?_, rfl, rfl, rfl,
      wf_push_new hw hf1 v⟩
    · simp [push_new, entries, hi]
    · simp [push_new, size, hi]
  · intro hlt
    rw [hlen] at hlt
    have hlt1 : c.items.length < size_t_of_int c.max_size := by omega
    refine ⟨push_new c key v, by rw [put_miss hf, evict_not_full hlt1]; rfl, ?_, rfl, ?_,
      rfl, rfl, rfl, wf_push_new h hf v⟩
    · simp [push_new, entries]
    · unfold INT_MAX at h2
      simp only [push_new, size, int_of_size_t, List.length_cons]
      push_cast
      omega

theorem put_absent_witness :
    (Cache.demo.WF ∧ 1 ≤ Cache.demo.max_size ∧ Cache.demo.max_size ≤ INT_MAX ∧
      "c" ∉ Cache.demo.keys ∧ (Cache.demo.entries.length : Int) = Cache.demo.max_size ∧
      INT_MIN ≤ Cache.demo.evicts ∧ Cache.demo.evicts < INT_MAX ∧
      ∃ c1, Cache.demo.put "c" "3" = some c1 ∧
        c1.entries = ⟨"c", "3"⟩ :: Cache.demo.entries.dropLast ∧
        c1.evicts = Cache.demo.evicts + 1 ∧ c1.size = Cache.demo.size ∧
        c1.hits = Cache.demo.hits ∧ c1.misses = Cache.demo.misses ∧
        c1.max_size = Cache.demo.max_size ∧ c1.WF) ∧
    ((Cache.new 2).WF ∧ 1 ≤ (Cache.new 2).max_size ∧ (Cache.new 2).max_size ≤ INT_MAX ∧
      "c" ∉ (Cache.new 2).keys ∧
      ((Cache.new 2).entries.length : Int) < (Cache.new 2).max_size ∧
      ∃ c1, (Cache.new 2).put "c" "3" = some c1 ∧
        c1.entries = ⟨"c", "3"⟩ :: (Cache.new 2).entries ∧
        c1.evicts = (Cache.new 2).evicts ∧ c1.size = (Cache.new 2).size + 1 ∧
        c1.hits = (Cache.new 2).hits ∧ c1.misses = (Cache.new 2).misses ∧
        c1.max_size = (Cache.new 2).max_size ∧ c1.WF) :=
  ⟨⟨by decide, by decide, by decide, by decide, by decide, by decide, by decide,
      (put_absent Cache.demo (by decide) (by decide) (by decide) "c" "3" (by decide)).1
        (by decide) (by decide) (by decide)⟩,
    ⟨by decide, by decide, by decide, by decide, by decide,
      (put_absent (Cache.new 2) (by decide) (by decide) (by decide) "c" "3" (by decide)).2
        (by decide)⟩⟩

/-- C7: in a well-formed cache state, `remove(key)` deletes the entry of `key` when there
is one and keeps every other entry with its value and relative order; when `key` is not
held the state after the call is the state before it; `hits`, `misses` and `evicts` are
unchanged in both cases. -/
theorem remove_frame (c : Cache) (h : c.WF) (key : String) :
    ∃ c1, c.remove key = some c1 ∧
      c1.entries = c.entries.filter (fun x => decide (x.k ≠ key)) ∧ key ∉ c1.keys ∧
      c1.hits = c.hits ∧ c1.misses = c.misses ∧ c1.evicts = c.evicts ∧
      c1.max_size = c.max_size ∧ c1.WF ∧ (key ∉ c.keys → c1 = c) := by
  obtain ⟨c1, hr, he, hh, hm, hev, hms, hw⟩ := remove_entries h key
  refine ⟨c1, hr, he, ?_, hh, hm, hev, hms, hw, ?_⟩
  · rw [mem_keys_iff, he]
    rintro ⟨n, hn, hk⟩
    simp only [List.mem_filter, decide_eq_true_eq] at hn
    exact hn.2 hk
  · intro hk
    have hf := h.find_none_of_not_mem hk
    rw [remove_miss hf] at hr
    exact (Option.some.inj hr).symm

theorem remove_frame_witness :
    Cache.demo.WF ∧
    ∃ c1, Cache.demo.remove "b" = some c1 ∧
      c1.entries = Cache.demo.entries.filter (fun x => decide (x.k ≠ "b")) ∧ "b" ∉ c1.keys ∧
      c1.hits = Cache.demo.hits ∧ c1.misses = Cache.demo.misses ∧
      c1.evicts = Cache.demo.evicts ∧ c1.max_size = Cache.demo.max_size ∧ c1.WF ∧
      ("b" ∉ Cache.demo.keys → c1 = Cache.demo) :=
  ⟨by decide, remove_frame Cache.demo (by decide) "b"⟩


/-! ## The properties of the `/kv/*` handlers -/

/-- With no free connection `DB::get` returns `false` without an escape call or a
statement. -/
theorem DB.get_no_conn {σ : Type} (M : MySQL σ) (d : DB) (s : σ) (key : String)
    (hp : d.pool = []) : DB.get M d s key = some (none, d, s) := by
  unfold DB.get DB.get_conn
  simp [hp]

/-- `DB::get` is defined when no connection is free or the escaped key fits
`esc_key[512]`. -/
theorem DB.get_defined {σ : Type} (M : MySQL σ) (d : DB) (s : σ) (key : String)
    (h : d.pool = [] ∨ (DB.get_writes key).all EscapeWrite.ok = true) :
    ∃ r, DB.get M d s key = some r := by
  rcases h with h | h
  · exact ⟨_, DB.get_no_conn M d s key h⟩
  · unfold DB.get
    rcases d.get_conn with ⟨_ | conn, d1⟩
    · exact ⟨_, rfl⟩
    · simp only [h, if_true]
      split <;> exact ⟨_, rfl⟩

/-- `DB::put` is defined when no connection is free or the escaped key and value fit
`esc_key[512]` and `esc_val[1024]`. -/
theorem DB.put_defined {σ : Type} (M : MySQL σ) (d : DB) (s : σ) (key val : String)
    (h : d.pool = [] ∨ (DB.put_writes key val).all EscapeWrite.ok = true) :
    ∃ r, DB.put M d s key val = some r := by
  unfold DB.put
  rcases h with h | h
  · simp [DB.get_conn, h]
  · rcases d.get_conn with ⟨_ | conn, d1⟩
    · exact ⟨_, rfl⟩
    · simp only [h, if_true]
      exact ⟨_, rfl⟩

/-- `DB::del` is defined when no connection is free or the escaped key fits
`esc_key[512]`. -/
theorem DB.del_defined {σ : Type} (M : MySQL σ) (d : DB) (s : σ) (key : String)
    (h : d.pool = [] ∨ (DB.del_writes key).all EscapeWrite.ok = true) :
    ∃ r, DB.del M d s key = some r := by
  unfold DB.del
  rcases h with h | h
  · simp [DB.get_conn, h]
  · rcases d.get_conn with ⟨_ | conn, d1⟩
    · exact ⟨_, rfl⟩
    · simp only [h, if_true]
      exact ⟨_, rfl⟩

/-- A defined `DB::put` returns `false` exactly when no connection is free or the server
rejects the statement. -/
theorem DB.put_false_iff {σ : Type} (M : MySQL σ) (d : DB) (s : σ) (key val : String)
    (r : Bool × DB × σ) (hr : DB.put M d s key val = some r) :
    r.1 = false ↔
      d.pool = [] ∨ ∃ conn, d.pool.getLast? = some conn ∧
        (M.exec s conn (Query.upsert key val)).1 = Answer.rejected := by
  unfold DB.put DB.get_conn at hr
  cases hp : d.pool.getLast? with
  | none =>
    have he : d.pool = [] := List.getLast?_eq_none_iff.mp hp
    simp only [hp, Option.some.injEq] at hr
    subst hr
    simp [he]
  | some conn =>
    have hne : d.pool ≠ [] := by
      intro e
      rw [e] at hp
      simp at hp
    simp only [hp] at hr
    split at hr
    · simp only [Option.some.injEq] at hr
      subst hr
      simp [hne]
    · cases hr

/-- C8: in `/kv/create` with a key and a value whose escaped forms fit `esc_key[512]` and
`esc_val[1024]`, `db->get` and `db->put` return; when the durable write `db->put(key, val)`
returns `false` (no free connection, or the statement is rejected), the handler answers 500
with the `db error` body and the cache after the call is the cache before it: same cells,
same recency order, same index, same `hits`, `misses` and `evicts`. -/
theorem create_store_failure {σ : Type} (M : MySQL σ) (srv : Server) (s : σ) (req : Request)
    (key val : String)
    (hk : assocFind req.params "key" = some key)
    (hv : assocFind req.params "value" = some val)
    (hne : key ≠ "")
    (hfit : (DB.put_writes key val).all EscapeWrite.ok = true) :
    ∃ old d1 s1 ok d2 s2,
      DB.get M srv.db s key = some (old, d1, s1) ∧
      DB.put M d1 s1 key val = some (ok, d2, s2) ∧
      (ok = false →
        ∃ srv1, Server.kv_create M srv s req
            = some ({ status := 500, body := Server.db_error }, srv1, s2) ∧
          srv1.cache = srv.cache ∧ srv1.hash_cache = srv.hash_cache ∧ srv1.db = d2) := by
  have e1 : req.has_param "key" = true := by simp [Request.has_param, hk]
  have e2 : req.has_param "value" = true := by simp [Request.has_param, hv]
  have e3 : req.get_param_value "key" = key := by simp [Request.get_param_value, hk]
  have e4 : req.get_param_value "value" = val := by simp [Request.get_param_value, hv]
  have hfitk : (DB.get_writes key).all EscapeWrite.ok = true := by
    simp only [DB.put_writes, DB.get_writes, List.all_cons, List.all_nil, Bool.and_true,
      Bool.and_eq_true] at hfit ⊢
    exact hfit.1
  obtain ⟨⟨old, d1, s1⟩, hget⟩ := DB.get_defined M srv.db s key (Or.inr hfitk)
  obtain ⟨⟨ok, d2, s2⟩, hput⟩ := DB.put_defined M d1 s1 key val (Or.inr hfit)
  refine ⟨old, d1, s1, ok, d2, s2, hget, hput, ?_⟩
  intro hok
  subst hok
  refine ⟨{ srv with db := d2 }, ?_, rfl, rfl, rfl⟩
  unfold Server.kv_create
  simp only [e1, e2, e3, e4, Bool.and_self, if_true, if_neg hne, hget, hput]

theorem create_store_failure_witness :
    assocFind (Request.mk [("key", "x"), ("value", "y")]).params "key" = some "x" ∧
    assocFind (Request.mk [("key", "x"), ("value", "y")]).params "value" = some "y" ∧
    "x" ≠ "" ∧
    (DB.put_writes "x" "y").all EscapeWrite.ok = true ∧
    DB.get down_sql Server.demo.db [] "x" = some (none, Server.demo.db, []) ∧
    DB.put down_sql Server.demo.db [] "x" "y" = some (false, Server.demo.db, []) ∧
    ∃ srv1, Server.kv_create down_sql Server.demo [] (Request.mk [("key", "x"), ("value", "y")])
        = some ({ status := 500, body := Server.db_error }, srv1, []) ∧
      srv1.cache = Server.demo.cache ∧ srv1.hash_cache = Server.demo.hash_cache ∧
      srv1.db = Server.demo.db := by
  obtain ⟨old, d1, s1, ok, d2, s2, hget, hput, hfail⟩ :=
    create_store_failure down_sql Server.demo [] (Request.mk [("key", "x"), ("value", "y")])
      "x" "y" (by decide) (by decide) (by decide) (by decide)
  have eg : DB.get down_sql Server.demo.db [] "x" = some (none, Server.demo.db, []) := by
    decide
  rw [eg] at hget
  simp only [Option.some.injEq, Prod.mk.injEq] at hget
  obtain ⟨rfl, rfl, rfl⟩ := hget
  have ep : DB.put down_sql Server.demo.db [] "x" "y" = some (false, Server.demo.db, []) := by
    decide
  rw [ep] at hput
  simp only [Option.some.injEq, Prod.mk.injEq] at hput
  obtain ⟨rfl, rfl, rfl⟩ := hput
  exact ⟨by decide, by decide, by decide, by decide, eg, ep, hfail rfl⟩

/-- C10: for a key whose escaped form fits `esc_key[512]`, `db->del(key)` returns, and
whatever it does (statement accepted, statement rejected, no free connection),
`/kv/delete` on a server with a well-formed cache answers 200 and has removed `key` from
the cache: the cache holds no entry of `key`, all other entries keep their values and
order, and `hits`, `misses` and `evicts` are unchanged. -/
theorem delete_cache_side {σ : Type} (M : MySQL σ) (srv : Server) (s : σ) (req : Request)
    (key : String) (hw : srv.cache.WF)
    (hk : assocFind req.params "key" = some key)
    (hfit : (DB.del_writes key).all EscapeWrite.ok = true) :
    ∃ ok d1 s1 srv1, DB.del M srv.db s key = some (ok, d1, s1) ∧
      Server.kv_delete M srv s req
        = some ({ status := 200, body := Server.deleted key }, srv1, s1) ∧
      key ∉ srv1.cache.keys ∧
      srv1.cache.entries = srv.cache.entries.filter (fun x => decide (x.k ≠ key)) ∧
      srv1.cache.hits = srv.cache.hits ∧ srv1.cache.misses = srv.cache.misses ∧
      srv1.cache.evicts = srv.cache.evicts ∧ srv1.cache.max_size = srv.cache.max_size ∧
      srv1.hash_cache = srv.hash_cache ∧ srv1.db = d1 := by
  have e1 : req.has_param "key" = true := by simp [Request.has_param, hk]
  have e3 : req.get_param_value "key" = key := by simp [Request.get_param_value, hk]
  obtain ⟨c1, hr, he, hh, hm, hev, hms, _⟩ := remove_entries hw key
  obtain ⟨⟨ok, d1, s1⟩, hd⟩ := DB.del_defined M srv.db s key (Or.inr hfit)
  refine ⟨ok, d1, s1, { srv with cache := c1, db := d1 }, hd, ?_, ?_, he, hh, hm, hev, hms,
    rfl, rfl⟩
  · unfold Server.kv_delete
    simp only [e1, e3, hd, hr]
    rfl
  · show key ∉ c1.keys
    rw [mem_keys_iff, he]
    rintro ⟨n, hn, hk1⟩
    simp only [List.mem_filter, decide_eq_true_eq] at hn
    exact hn.2 hk1

theorem delete_cache_side_witness :
    Server.demo.cache.WF ∧
    assocFind (Request.mk [("key", "a")]).params "key" = some "a" ∧
    (DB.del_writes "a").all EscapeWrite.ok = true ∧
    ∃ ok d1 s1 srv1, DB.del down_sql Server.demo.db [("a", "1")] "a" = some (ok, d1, s1) ∧
      Server.kv_delete down_sql Server.demo [("a", "1")] (Request.mk [("key", "a")])
        = some ({ status := 200, body := Server.deleted "a" }, srv1, s1) ∧
      "a" ∉ srv1.cache.keys ∧
      srv1.cache.entries
        = Server.demo.cache.entries.filter (fun x => decide (x.k ≠ "a")) ∧
      srv1.cache.hits = Server.demo.cache.hits ∧
      srv1.cache.misses = Server.demo.cache.misses ∧
      srv1.cache.evicts = Server.demo.cache.evicts ∧
      srv1.cache.max_size = Server.demo.cache.max_size ∧
      srv1.hash_cache = Server.demo.hash_cache ∧ srv1.db = d1 :=
  ⟨by decide, by decide, by decide,
    delete_cache_side down_sql Server.demo [("a", "1")] (Request.mk [("key", "a")]) "a"
      (by decide) (by decide) (by decide)⟩

/-! ## Further lemmas on the cache -/

namespace Cache

theorem keys_eq_map_entries (c : Cache) : c.keys = c.entries.map Node.k := by
  simp [keys, entries, List.map_map, Function.comp_def]

/-- `put` of a key that the index does not hold: either the list is below the capacity
and the entry is added in front, or it is not and the last entry is dropped first. -/
theorem put_miss_entries {c : Cache} (h : c.WF)
    (hok : c.items ≠ [] ∨ size_t_of_int c.max_size ≠ 0)
    {key : String} (hf : assocFind c.map key = none) (val : String) :
    ∃ c1, c.put key val = some c1 ∧ c1.WF ∧ c1.max_size = c.max_size ∧
      c1.hits = c.hits ∧ c1.misses = c.misses ∧
      ((c.items.length < size_t_of_int c.max_size ∧
          c1.entries = { k := key, v := val } :: c.entries ∧ c1.evicts = c.evicts) ∨
       (size_t_of_int c.max_size ≤ c.items.length ∧
          c1.entries = { k := key, v := val } :: c.entries.dropLast ∧
          c1.evicts = int_incr c.evicts)) := by
  by_cases hlt : c.items.length < size_t_of_int c.max_size
  · refine ⟨push_new c key val, by rw [put_miss hf, evict_not_full hlt]; rfl,
      wf_push_new h hf val, rfl, rfl, rfl, Or.inl ⟨hlt, ?_, rfl⟩⟩
    simp [push_new, entries]
  · have hge : c.items.length ≥ size_t_of_int c.max_size := by omega
    have hne : c.items ≠ [] := by
      rcases hok with hne | hcap
      · exact hne
      · intro e
        rw [e] at hge
        simp at hge
        exact hcap hge
    obtain ⟨init, last, hi⟩ := eq_append_of_ne_nil c.items hne
    have hw := wf_evict h hi
    have hf1 : assocFind (assocErase c.map last.2.k) key = none := by
      rw [assocFind_eq_none] at hf ⊢
      intro p hp
      exact hf p (mem_assocErase.mp hp).1
    refine ⟨push_new { c with map := assocErase c.map last.2.k, items := init,
                              evicts := int_incr c.evicts } key val,
      by rw [put_miss hf, evict_full hge hi]; rfl, wf_push_new hw hf1 val, rfl, rfl, rfl,
      Or.inr ⟨hge, ?_, rfl⟩⟩
    simp [push_new, entries, hi]

/-- A call never changes `hits` or `misses` except a `get`, which adds one to exactly one
of them. -/
theorem step_counters {c c1 : Cache} (op : Op) (hs : c.step op = some c1) :
    (op.is_get = true →
      (c1.hits = int_incr c.hits ∧ c1.misses = c.misses) ∨
      (c1.hits = c.hits ∧ c1.misses = int_incr c.misses)) ∧
    (op.is_get = false → c1.hits = c.hits ∧ c1.misses = c.misses) := by
  cases op with
  | get key =>
    refine ⟨fun _ => ?_, fun e => by simp [Op.is_get] at e⟩
    simp only [step, get] at hs
    cases hf : assocFind c.map key with
    | none =>
      simp only [hf, Option.map_some', Option.some.injEq] at hs
      subst hs
      exact Or.inr ⟨rfl, rfl⟩
    | some it =>
      simp only [hf] at hs
      cases h1 : splice_front c.items it with
      | none => simp [h1] at hs
      | some items1 =>
        simp only [h1] at hs
        cases h2 : assocFind items1 it with
        | none => simp [h2] at hs
        | some n =>
          simp only [h2, Option.map_some', Option.some.injEq] at hs
          subst hs
          exact Or.inl ⟨rfl, rfl⟩
  | put key val =>
    refine ⟨fun e => by simp [Op.is_get] at e, fun _ => ?_⟩
    simp only [step, put] at hs
    cases hf : assocFind c.map key with
    | none =>
      simp only [hf] at hs
      cases h1 : c.evict_if_full with
      | none => simp [h1] at hs
      | some c0 =>
        simp only [h1, Option.some.injEq] at hs
        subst hs
        unfold evict_if_full at h1
        split at h1
        · cases h2 : c.items.getLast? with
          | none => simp [h2] at h1
          | some last =>
            simp only [h2, Option.some.injEq] at h1
            subst h1
            exact ⟨rfl, rfl⟩
        · simp only [Option.some.injEq] at h1
          subst h1
          exact ⟨rfl, rfl⟩
    | some it =>
      simp only [hf] at hs
      cases h1 : splice_front c.items it with
      | none => simp [h1] at hs
      | some items1 =>
        simp only [h1] at hs
        cases h2 : assign_v items1 it val with
        | none => simp [h2] at hs
        | some items2 =>
          simp only [h2, Option.some.injEq] at hs
          subst hs
          exact ⟨rfl, rfl⟩
  | remove key =>
    refine ⟨fun e => by simp [Op.is_get] at e, fun _ => ?_⟩
    simp only [step, remove] at hs
    cases hf : assocFind c.map key with
    | none =>
      simp only [hf, Option.some.injEq] at hs
      subst hs
      exact ⟨rfl, rfl⟩
    | some it =>
      simp only [hf] at hs
      cases h1 : assocFind c.items it with
      | none => simp [h1] at hs
      | some n =>
        simp only [h1, Option.some.injEq] at hs
        subst hs
        exact ⟨rfl, rfl⟩

theorem run_counters (ops : List Op) : ∀ {c c1 : Cache}, 0 ≤ c.hits → 0 ≤ c.misses →
    c.hits + c.misses + (ops.countP Op.is_get : Nat) ≤ INT_MAX → c.run ops = some c1 →
    0 ≤ c1.hits ∧ 0 ≤ c1.misses ∧
      c1.hits + c1.misses = c.hits + c.misses + (ops.countP Op.is_get : Nat) := by
  have hi : INT_MAX = 2147483647 := rfl
  have hmin : INT_MIN = -2147483648 := rfl
  induction ops with
  | nil =>
    intro c c1 hh hm _ hr
    simp only [run, Option.some.injEq] at hr
    subst hr
    simp [hh, hm]
  | cons op rest ih =>
    intro c c1 hh hm hb hr
    cases hs : c.step op with
    | none => simp [run, hs] at hr
    | some c0 =>
      simp only [run, hs] at hr
      have h2 := step_counters op hs
      by_cases hg : op.is_get = true
      · rw [List.countP_cons_of_pos _ _ hg] at hb ⊢
        push_cast at hb ⊢
        rcases h2.1 hg with ⟨a, b⟩ | ⟨a, b⟩
        · rw [int_incr_eq (by omega) (by omega)] at a
          have h1 := ih (c := c0) (by omega) (by omega) (by rw [a, b]; omega) hr
          rw [a, b] at h1
          omega
        · rw [int_incr_eq (by omega) (by omega)] at b
          have h1 := ih (c := c0) (by omega) (by omega) (by rw [a, b]; omega) hr
          rw [a, b] at h1
          omega
      · have hg1 : op.is_get = false := by simpa using hg
        rw [List.countP_cons_of_neg _ _ hg] at hb ⊢
        obtain ⟨a, b⟩ := h2.2 hg1
        have h1 := ih (c := c0) (by omega) (by omega) (by rw [a, b]; exact hb) hr
        rw [a, b] at h1
        exact h1

end Cache

namespace Cache

theorem take_append_take {α : Type} (A B : List α) (n : Nat) :
    (A ++ B.take n).take n = (A ++ B).take n := by
  rw [List.take_append_eq_append_take, List.take_append_eq_append_take, List.take_take]
  congr 2
  omega

theorem take_cons_of_le {α : Type} (a : α) (E : List α) (n : Nat) (h1 : 1 ≤ n)
    (hl : E.length ≤ n) :
    (a :: E).take n = a :: (if E.length < n then E else E.dropLast) := by
  obtain ⟨m, rfl⟩ : ∃ m, n = m + 1 := ⟨n - 1, by omega⟩
  rw [List.take_succ_cons]
  congr 1
  split
  · exact List.take_of_length_le (by omega)
  · have : E.length = m + 1 := by omega
    rw [List.dropLast_eq_take, this]
    rfl

/-- Putting pairwise distinct keys that the cache does not hold: the new entries pile up
in front, the recency order is cut at the capacity, and every cut is counted in `evicts`. -/
theorem run_puts (cap : Nat) (hcap : 1 ≤ cap) :
    ∀ (kvs : List (String × String)) (c : Cache), c.WF → size_t_of_int c.max_size = cap →
      c.entries.length ≤ cap → (kvs.map Prod.fst).Nodup → (∀ p ∈ kvs, p.1 ∉ c.keys) →
      INT_MIN ≤ c.evicts →
      c.evicts + ((c.entries.length + kvs.length - cap : Nat) : Int) ≤ INT_MAX →
      ∃ c1, c.run (puts kvs) = some c1 ∧ c1.WF ∧
        c1.entries = ((kvs.reverse.map (fun p => Node.mk p.1 p.2)) ++ c.entries).take cap ∧
        c1.evicts = c.evicts + ((c.entries.length + kvs.length - cap : Nat) : Int) ∧
        c1.hits = c.hits ∧ c1.misses = c.misses ∧ c1.max_size = c.max_size := by
  have hi : INT_MAX = 2147483647 := rfl
  have hmin : INT_MIN = -2147483648 := rfl
  intro kvs
  induction kvs with
  | nil =>
    intro c h _ hl _ _ _ _
    refine ⟨c, rfl, h, ?_, ?_, rfl, rfl, rfl⟩
    · simp [List.take_of_length_le hl]
    · have : c.entries.length - cap = 0 := by omega
      simp [this]
  | cons kv rest ih =>
    intro c h hm hl hd hfresh hlo hhi
    obtain ⟨key, val⟩ := kv
    simp only [List.length_cons] at hhi
    have hlen : c.entries.length = c.items.length := by simp [entries]
    have hk : key ∉ c.keys := hfresh (key, val) (List.mem_cons_self _ _)
    have hf := h.find_none_of_not_mem hk
    obtain ⟨c0, hp, hw0, hm0, hh0, hmi0, hcase⟩ :=
      put_miss_entries h (Or.inr (by omega)) hf val
    rw [List.map_cons, List.nodup_cons] at hd
    have hent : c0.entries = (Node.mk key val :: c.entries).take cap := by
      rw [take_cons_of_le _ _ _ hcap hl]
      rcases hcase with ⟨hlt, he, _⟩ | ⟨hge, he, _⟩
      · rw [he, if_pos (by omega)]
      · rw [he, if_neg (by omega)]
    have hl0 : c0.entries.length ≤ cap := by
      rw [hent, List.length_take]
      exact Nat.min_le_left _ _
    have hfresh0 : ∀ p ∈ rest, p.1 ∉ c0.keys := by
      intro p hp1 hmem
      rw [keys_eq_map_entries, hent] at hmem
      obtain ⟨n, hn, hnk⟩ := List.mem_map.mp hmem
      rcases List.mem_cons.mp (List.mem_of_mem_take hn) with e | e
      · subst e
        exact hd.1 (List.mem_map.mpr ⟨p, hp1, hnk.symm⟩)
      · apply hfresh p (List.mem_cons_of_mem _ hp1)
        rw [keys_eq_map_entries]
        exact List.mem_map.mpr ⟨n, e, hnk⟩
    have hlen0 : c0.entries.length = min cap (c.entries.length + 1) := by
      rw [hent, List.length_take, List.length_cons]
    have hev0 : c0.evicts + ((c0.entries.length + rest.length - cap : Nat) : Int)
        = c.evicts + ((c.entries.length + (rest.length + 1) - cap : Nat) : Int) := by
      rw [hlen0]
      rcases hcase with ⟨hlt, _, hev⟩ | ⟨hge, _, hev⟩
      · rw [hev]
        have : min cap (c.entries.length + 1) + rest.length - cap
            = c.entries.length + (rest.length + 1) - cap := by omega
        rw [this]
      · have e1 : min cap (c.entries.length + 1) + rest.length - cap = rest.length := by omega
        have e2 : c.entries.length + (rest.length + 1) - cap = rest.length + 1 := by omega
        rw [e2] at hhi
        rw [hev, int_incr_eq hlo (by push_cast at hhi; omega), e1, e2]
        push_cast
        ring
    have hlo0 : INT_MIN ≤ c0.evicts := by
      rcases hcase with ⟨_, _, hev⟩ | ⟨hge, _, hev⟩
      · rw [hev]
        exact hlo
      · have e2 : c.entries.length + (rest.length + 1) - cap = rest.length + 1 := by omega
        rw [e2] at hhi
        rw [hev, int_incr_eq hlo (by push_cast at hhi; omega)]
        omega
    obtain ⟨c1, hr, hw1, he1, hev1, hh1, hmi1, hm1⟩ :=
      ih c0 hw0 (by rw [hm0]; exact hm) hl0 hd.2 hfresh0 hlo0 (by rw [hev0]; exact hhi)
    refine ⟨c1, ?_, hw1, ?_, ?_, by rw [hh1, hh0], by rw [hmi1, hmi0], by rw [hm1, hm0]⟩
    · simp only [puts, List.map_cons, run, step, hp]
      exact hr
    · rw [he1, hent, take_append_take]
      simp
    · rw [hev1, hev0]
      simp only [List.length_cons]

end Cache

/-! ## The properties of the pool, of put sequences and of the counters -/

theorem DB.get_conn_append (init : List Conn) (last : Conn) :
    (DB.mk (init ++ [last])).get_conn = (some last, DB.mk init) := by
  simp [DB.get_conn]

/-- After `i` calls the pool has lost its last `i` connections, handed out from the back. -/
theorem DB.acquire_take (d : DB) :
    ∀ i, i ≤ d.pool.length →
      d.acquire i = ((d.pool.drop (d.pool.length - i)).reverse.map some,
        DB.mk (d.pool.take (d.pool.length - i))) := by
  intro i
  induction i with
  | zero =>
    intro _
    simp [DB.acquire]
  | succ i ih =>
    intro hi
    have hi1 : i ≤ d.pool.length := by omega
    have hlt : d.pool.length - (i + 1) < d.pool.length := by omega
    have hsplit : d.pool.take (d.pool.length - i)
        = d.pool.take (d.pool.length - (i + 1)) ++ [d.pool.get ⟨_, hlt⟩] := by
      have e : d.pool.length - i = (d.pool.length - (i + 1)) + 1 := by omega
      rw [e, List.take_succ]
      simp [List.getElem?_eq_getElem hlt]
    have hdrop : d.pool.drop (d.pool.length - (i + 1))
        = d.pool.get ⟨_, hlt⟩ :: d.pool.drop (d.pool.length - i) := by
      have e : d.pool.length - i = (d.pool.length - (i + 1)) + 1 := by omega
      rw [e]
      exact List.drop_eq_getElem_cons hlt
    simp only [DB.acquire, ih hi1, hsplit, DB.get_conn_append, hdrop, List.reverse_cons,
      List.map_append, List.map_cons, List.map_nil]

/-- C13: on a pool that holds `n` distinct free connections, `n` successive `get_conn`
calls with no `return_conn` in between all succeed and return pairwise distinct
connections; each call takes exactly the connection it returns out of the pool, which was
in it before and is not in it after; the pool is then empty and the next `get_conn`
returns null and leaves it empty. -/
theorem pool_acquire_all (d : DB) (hn : d.pool.Nodup) :
    (∀ i, i < d.pool.length →
      ∃ conn, (d.acquire i).2.get_conn = (some conn, (d.acquire (i + 1)).2) ∧
        (d.acquire (i + 1)).1 = (d.acquire i).1 ++ [some conn] ∧
        (d.acquire i).2.pool = (d.acquire (i + 1)).2.pool ++ [conn] ∧
        conn ∉ (d.acquire (i + 1)).2.pool) ∧
    (d.acquire d.pool.length).1 = d.pool.reverse.map some ∧
    (d.acquire d.pool.length).1.Nodup ∧
    (d.acquire d.pool.length).2.pool = [] ∧
    (d.acquire d.pool.length).2.get_conn = (none, (d.acquire d.pool.length).2) := by
  have hall := DB.acquire_take d d.pool.length (le_refl _)
  simp only [Nat.sub_self, List.drop_zero, List.take_zero] at hall
  refine ⟨?_, ?_, ?_, ?_, ?_⟩
  · intro i hi
    have h0 := DB.acquire_take d i (by omega)
    have h1 := DB.acquire_take d (i + 1) (by omega)
    have hlt : d.pool.length - (i + 1) < d.pool.length := by omega
    have hsplit : d.pool.take (d.pool.length - i)
        = d.pool.take (d.pool.length - (i + 1)) ++ [d.pool.get ⟨_, hlt⟩] := by
      have e : d.pool.length - i = (d.pool.length - (i + 1)) + 1 := by omega
      rw [e, List.take_succ]
      simp [List.getElem?_eq_getElem hlt]
    have hdrop : d.pool.drop (d.pool.length - (i + 1))
        = d.pool.get ⟨_, hlt⟩ :: d.pool.drop (d.pool.length - i) := by
      have e : d.pool.length - i = (d.pool.length - (i + 1)) + 1 := by omega
      rw [e]
      exact List.drop_eq_getElem_cons hlt
    refine ⟨d.pool.get ⟨_, hlt⟩, ?_, ?_, ?_, ?_⟩
    · rw [h0, h1]
      simp only [hsplit, DB.get_conn_append]
    · rw [h0, h1]
      simp only [hdrop, List.reverse_cons, List.map_append, List.map_cons, List.map_nil]
    · rw [h0, h1]
      exact hsplit
    · rw [h1]
      show d.pool.get ⟨_, hlt⟩ ∉ d.pool.take (d.pool.length - (i + 1))
      intro hmem
      have hnd : (d.pool.take (d.pool.length - i)).Nodup := hn.sublist (List.take_sublist _ _)
      rw [hsplit, List.nodup_append] at hnd
      exact hnd.2.2 hmem (List.mem_singleton_self _)
  · rw [hall]
  · rw [hall]
    exact (List.nodup_reverse.mpr hn).map (Option.some_injective _)
  · rw [hall]
  · rw [hall]
    rfl

theorem pool_acquire_all_witness :
    (DB.mk [1, 2, 3]).pool.Nodup ∧
    ((∀ i, i < (DB.mk [1, 2, 3]).pool.length →
      ∃ conn, ((DB.mk [1, 2, 3]).acquire i).2.get_conn
          = (some conn, ((DB.mk [1, 2, 3]).acquire (i + 1)).2) ∧
        ((DB.mk [1, 2, 3]).acquire (i + 1)).1 = ((DB.mk [1, 2, 3]).acquire i).1 ++ [some conn] ∧
        ((DB.mk [1, 2, 3]).acquire i).2.pool
          = ((DB.mk [1, 2, 3]).acquire (i + 1)).2.pool ++ [conn] ∧
        conn ∉ ((DB.mk [1, 2, 3]).acquire (i + 1)).2.pool) ∧
    ((DB.mk [1, 2, 3]).acquire (DB.mk [1, 2, 3]).pool.length).1
      = (DB.mk [1, 2, 3]).pool.reverse.map some ∧
    ((DB.mk [1, 2, 3]).acquire (DB.mk [1, 2, 3]).pool.length).1.Nodup ∧
    ((DB.mk [1, 2, 3]).acquire (DB.mk [1, 2, 3]).pool.length).2.pool = [] ∧
    ((DB.mk [1, 2, 3]).acquire (DB.mk [1, 2, 3]).pool.length).2.get_conn
      = (none, ((DB.mk [1, 2, 3]).acquire (DB.mk [1, 2, 3]).pool.length).2)) :=
  ⟨by decide, pool_acquire_all (DB.mk [1, 2, 3]) (by decide)⟩

/-- C18: on a cache that starts empty, whatever its capacity, every sequence of `get`,
`put` and `remove` calls with at most `INT_MAX` `get` calls that is defined ends with
`hits + misses` equal to the number of `get` calls in it, neither counter negative (and
every sequence is defined when the capacity does not convert to zero); in any state whose
`hits` and `misses` are `int` values below `INT_MAX`, a `get` adds one to exactly one of
`hits` and `misses`, and `put` and `remove` change neither. -/
theorem hits_plus_misses (size : Int) (ops : List Op)
    (hn : ((ops.countP Op.is_get : Nat) : Int) ≤ INT_MAX) :
    (size_t_of_int size ≠ 0 → ∃ c, (Cache.new size).run ops = some c) ∧
    (∀ c, (Cache.new size).run ops = some c →
      0 ≤ c.hits ∧ 0 ≤ c.misses ∧ c.hits + c.misses = (ops.countP Op.is_get : Nat)) ∧
    (∀ (c c1 : Cache) (op : Op), INT_MIN ≤ c.hits → c.hits < INT_MAX →
      INT_MIN ≤ c.misses → c.misses < INT_MAX → c.step op = some c1 →
      (op.is_get = true →
        (c1.hits = c.hits + 1 ∧ c1.misses = c.misses) ∨
        (c1.hits = c.hits ∧ c1.misses = c.misses + 1)) ∧
      (op.is_get = false → c1.hits = c.hits ∧ c1.misses = c.misses)) := by
  refine ⟨?_, ?_, ?_⟩
  · intro hcap
    obtain ⟨c, hr, _⟩ := run_inv ops (wf_new size) hcap (Nat.zero_le _)
    exact ⟨c, hr⟩
  · intro c hr
    have := run_counters ops (c := Cache.new size) (le_refl _) (le_refl _)
      (by simpa [Cache.new] using hn) hr
    simpa [Cache.new] using this
  · intro c c1 op h1 h2 h3 h4 hs
    have := step_counters op hs
    rw [int_incr_eq h1 h2, int_incr_eq h3 h4] at this
    exact this

theorem hits_plus_misses_witness :
    ((([Op.put "a" "1", Op.get "a", Op.get "b", Op.remove "a", Op.get "a"].countP
        Op.is_get : Nat) : Int) ≤ INT_MAX) ∧
    size_t_of_int 2 ≠ 0 ∧
    (∃ c, (Cache.new 2).run [Op.put "a" "1", Op.get "a", Op.get "b", Op.remove "a", Op.get "a"]
        = some c ∧ 0 ≤ c.hits ∧ 0 ≤ c.misses ∧ c.hits + c.misses = 3) ∧
    (∀ (c c1 : Cache) (op : Op), INT_MIN ≤ c.hits → c.hits < INT_MAX →
      INT_MIN ≤ c.misses → c.misses < INT_MAX → c.step op = some c1 →
      (op.is_get = true →
        (c1.hits = c.hits + 1 ∧ c1.misses = c.misses) ∨
        (c1.hits = c.hits ∧ c1.misses = c.misses + 1)) ∧
      (op.is_get = false → c1.hits = c.hits ∧ c1.misses = c.misses)) := by
  obtain ⟨hdef, hsum, hstep⟩ :=
    hits_plus_misses 2 [Op.put "a" "1", Op.get "a", Op.get "b", Op.remove "a", Op.get "a"]
      (by decide)
  obtain ⟨c, hr⟩ := hdef (by decide)
  obtain ⟨hh, hm, hc⟩ := hsum c hr
  refine ⟨by decide, by decide, ⟨c, hr, hh, hm, ?_⟩, hstep⟩
  rw [hc]
  decide

/-- C20 (failing input): on the empty cache built with capacity 0, `put("a", "1")` finds the
list full (`0 >= 0`) and reads and pops the last cell of an empty list: the call is not
defined, and neither is any sequence of calls that starts with it. -/
theorem put_capacity_zero_undefined :
    (Cache.new 0).put "a" "1" = none ∧
    (Cache.new 0).evict_if_full = none ∧
    ∀ rest : List Op, (Cache.new 0).run (Op.put "a" "1" :: rest) = none := by
  refine ⟨by decide, by decide, ?_⟩
  intro rest
  have h : (Cache.new 0).step (Op.put "a" "1") = none := by decide
  simp [run, h]

/-- C15: into the empty cache of capacity `cap ≥ 1`, put `n` pairwise distinct keys in
order and nothing else, with `n - cap` at most `INT_MAX`. Then `evicts` is
`max (n - cap) 0`, a `get` of any of the last `min n cap` keys put is a hit that returns the
value put with it, and a `get` of any other key (the earlier ones included) is a miss. -/
theorem put_distinct_then_get (cap : Int) (h1 : 1 ≤ cap) (h2 : cap ≤ INT_MAX)
    (kvs : List (String × String)) (hd : (kvs.map Prod.fst).Nodup)
    (hn : (kvs.length : Int) - cap ≤ INT_MAX) :
    ∃ c, (Cache.new cap).run (puts kvs) = some c ∧
      c.evicts = max ((kvs.length : Int) - cap) 0 ∧
      (kvs.drop (kvs.length - cap.toNat)).length = min kvs.length cap.toNat ∧
      (∀ p ∈ kvs.drop (kvs.length - cap.toNat), ∃ c1, c.get p.1 = some (some p.2, c1)) ∧
      (∀ key, key ∉ (kvs.drop (kvs.length - cap.toNat)).map Prod.fst →
        c.get key = some (none, { c with misses := c.misses + 1 })) := by
  have hi : INT_MAX = 2147483647 := rfl
  have hs : (size_t_of_int cap : Int) = cap := size_t_of_int_eq (by omega) h2
  have hs1 : size_t_of_int (Cache.new cap).max_size = cap.toNat := by
    show size_t_of_int cap = cap.toNat
    omega
  obtain ⟨c, hr, hw, he, hev, _, hmis, _⟩ :=
    run_puts cap.toNat (by omega) kvs (Cache.new cap) (wf_new cap) hs1
      (by simp [entries, Cache.new]) hd (by simp [keys, Cache.new])
      (by show INT_MIN ≤ (0 : Int); decide)
      (by
        simp only [entries, Cache.new, List.map_nil, List.length_nil, Nat.zero_add]
        show (0 : Int) + ((kvs.length - cap.toNat : Nat) : Int) ≤ INT_MAX
        omega)
  have he1 : c.entries
      = ((kvs.drop (kvs.length - cap.toNat)).reverse).map (fun p => Node.mk p.1 p.2) := by
    rw [he]
    simp only [entries, Cache.new, List.map_nil, List.append_nil]
    rw [← List.map_take, List.take_reverse]
  have hmis0 : c.misses = 0 := hmis
  refine ⟨c, hr, ?_, ?_, ?_, ?_⟩
  · rw [hev]
    simp only [entries, Cache.new, List.map_nil, List.length_nil, Nat.zero_add]
    show (0 : Int) + ((kvs.length - cap.toNat : Nat) : Int) = _
    omega
  · rw [List.length_drop]
    omega
  · intro p hp
    have hmem : Node.mk p.1 p.2 ∈ c.entries := by
      rw [he1]
      exact List.mem_map.mpr ⟨p, List.mem_reverse.mpr hp, rfl⟩
    obtain ⟨it, hq⟩ := mem_entries hmem
    exact ⟨_, get_hit hw hq⟩
  · intro key hk
    have hinc : int_incr c.misses = c.misses + 1 :=
      int_incr_eq (by rw [hmis0]; decide) (by rw [hmis0]; decide)
    rw [← hinc]
    apply get_miss
    apply hw.find_none_of_not_mem
    rw [keys_eq_map_entries, he1]
    intro hmem
    apply hk
    obtain ⟨n, hn, hnk⟩ := List.mem_map.mp hmem
    obtain ⟨p, hp, rfl⟩ := List.mem_map.mp hn
    exact List.mem_map.mpr ⟨p, List.mem_reverse.mp hp, hnk⟩

theorem put_distinct_then_get_witness :
    (1 : Int) ≤ 2 ∧ (2 : Int) ≤ INT_MAX ∧
    ([("a", "1"), ("b", "2"), ("c", "3")].map Prod.fst).Nodup ∧
    ((([("a", "1"), ("b", "2"), ("c", "3")] : List (String × String)).length : Int) - 2
      ≤ INT_MAX) ∧
    ∃ c, (Cache.new 2).run (puts [("a", "1"), ("b", "2"), ("c", "3")]) = some c ∧
      c.evicts = 1 ∧
      (c.get "a").map Prod.fst = some none ∧
      (c.get "b").map Prod.fst = some (some "2") ∧
      (c.get "c").map Prod.fst = some (some "3") := by
  obtain ⟨c, hr, hev, _, hhit, hmiss⟩ :=
    put_distinct_then_get 2 (by decide) (by decide) [("a", "1"), ("b", "2"), ("c", "3")]
      (by decide) (by decide)
  refine ⟨by decide, by decide, by decide, by decide, c, hr, ?_, ?_, ?_, ?_⟩
  · rw [hev]
    decide
  · rw [hmiss "a" (by decide)]
    rfl
  · obtain ⟨c1, h⟩ := hhit ("b", "2") (by decide)
    rw [h]
    rfl
  · obtain ⟨c1, h⟩ := hhit ("c", "3") (by decide)
    rw [h]
    rfl

/-- C16: in a well-formed cache state of capacity at least 2 that holds `k` with value
`vk`, after the hit `get(k)` a `put` of a key that the cache does not hold keeps `k` with
`vk` (a following `get(k)` returns `vk`). When the cache held fewer entries than its
capacity the put evicts nothing. When it was full (and `evicts` is an `int` below
`INT_MAX`) the put evicts exactly one entry: the last entry of the recency order after the
`get`, which has a key other than `k` and is gone afterwards. -/
theorem get_then_put_keeps (c : Cache) (h : c.WF) (h1 : 2 ≤ c.max_size)
    (h2 : c.max_size ≤ INT_MAX) (k vk new v : String)
    (hp : ({ k := k, v := vk } : Node) ∈ c.entries) (hn : new ∉ c.keys) :
    ∃ c1 c2, c.get k = some (some vk, c1) ∧ c1.put new v = some c2 ∧
      ({ k := k, v := vk } : Node) ∈ c2.entries ∧
      (∃ c3, c2.get k = some (some vk, c3)) ∧
      ((c.entries.length : Int) < c.max_size →
        c2.evicts = c1.evicts ∧ c2.entries = { k := new, v := v } :: c1.entries) ∧
      (c.max_size ≤ (c.entries.length : Int) → INT_MIN ≤ c.evicts → c.evicts < INT_MAX →
        c2.evicts = c1.evicts + 1 ∧
        c2.entries = { k := new, v := v } :: c1.entries.dropLast ∧
        ∃ lru, c1.entries.getLast? = some lru ∧ lru.k ≠ k ∧ lru.k ∉ c2.keys) := by
  obtain ⟨it, hq⟩ := mem_entries hp
  have hs : (size_t_of_int c.max_size : Int) = c.max_size := size_t_of_int_eq (by omega) h2
  have hw1 : WF { c with items := (it, { k := k, v := vk }) :: assocErase c.items it,
                         hits := int_incr c.hits } := wf_move_front h hq vk _
  have hf : assocFind c.map new = none := h.find_none_of_not_mem hn
  have hlen : c.entries.length = (assocErase c.items it).length + 1 := by
    have := (cons_assocErase_perm h.1 hq).length_eq
    simp only [List.length_cons] at this
    simp [entries, this]
  obtain ⟨c2, hput, hw2, hm2, _, _, hcase⟩ :=
    put_miss_entries hw1 (Or.inl (List.cons_ne_nil _ _)) hf v
  have hkeep : ∀ c3 : Cache, c3.WF → ({ k := k, v := vk } : Node) ∈ c3.entries →
      ∃ c4, c3.get k = some (some vk, c4) := by
    intro c3 hw3 hmem
    obtain ⟨it3, hq3⟩ := mem_entries hmem
    exact ⟨_, get_hit hw3 hq3⟩
  refine ⟨_, c2, get_hit h hq, hput, ?_⟩
  rcases hcase with ⟨hlt, he, hev⟩ | ⟨hge, he, hev⟩
  · have hmem : ({ k := k, v := vk } : Node) ∈ c2.entries := by
      rw [he]
      simp [entries]
    refine ⟨hmem, hkeep c2 hw2 hmem, fun _ => ⟨hev, he⟩, ?_⟩
    intro hfull
    exfalso
    have : (assocErase c.items it).length + 1 < size_t_of_int c.max_size := hlt
    omega
  · -- the list is full, so it has at least two cells: the front one is `k`
    have hlen2 : 2 ≤ (assocErase c.items it).length + 1 := by
      have : size_t_of_int c.max_size ≤ (assocErase c.items it).length + 1 := hge
      omega
    have hne : assocErase c.items it ≠ [] := by
      intro e
      rw [e] at hlen2
      simp at hlen2
    obtain ⟨init, last, hi⟩ := eq_append_of_ne_nil _ hne
    have hent1 : ∀ m : Int, Cache.entries { c with
        items := (it, { k := k, v := vk }) :: assocErase c.items it, hits := m }
        = { k := k, v := vk } :: (init.map Prod.snd ++ [last.2]) := by
      intro m
      simp [entries, hi]
    have he2 : c2.entries
        = { k := new, v := v } :: { k := k, v := vk } :: init.map Prod.snd := by
      rw [he, hent1]
      simp [List.dropLast_cons_of_ne_nil, List.dropLast_concat]
    have hmem : ({ k := k, v := vk } : Node) ∈ c2.entries := by
      rw [he2]
      simp
    refine ⟨hmem, hkeep c2 hw2 hmem, ?_, ?_⟩
    · intro hlt
      exfalso
      have : size_t_of_int c.max_size ≤ (assocErase c.items it).length + 1 := hge
      omega
    · intro _ hlo hhi
      refine ⟨by rw [hev]; exact int_incr_eq hlo hhi, he, last.2, ?_, ?_, ?_⟩
      · rw [hent1, ← List.cons_append, List.getLast?_concat]
      · -- keys of the list after the `get` are distinct
        have hnd := hw1.2.1
        simp only [List.map_cons, hi, List.map_append, List.map_nil, List.nodup_cons] at hnd
        intro e
        apply hnd.1
        simp [e]
      · have hnd := hw1.2.1
        simp only [List.map_cons, hi, List.map_append, List.map_nil, List.nodup_cons,
          List.nodup_append] at hnd
        rw [keys_eq_map_entries, he2]
        simp only [List.map_cons, List.map_map, List.mem_cons, not_or]
        refine ⟨?_, ?_, ?_⟩
        · intro e
          apply hn
          have hmem1 : last ∈ c.items := by
            have : last ∈ assocErase c.items it := by rw [hi]; simp
            exact (mem_assocErase.mp this).1
          exact List.mem_map.mpr ⟨last, hmem1, e⟩
        · intro e
          apply hnd.1
          simp [e]
        · intro hmem2
          obtain ⟨q, hq1, hq2⟩ := List.mem_map.mp hmem2
          exact hnd.2.2.2 (List.mem_map.mpr ⟨q, hq1, hq2⟩) (by simp)

theorem get_then_put_keeps_witness :
    Cache.demo.WF ∧ 2 ≤ Cache.demo.max_size ∧ Cache.demo.max_size ≤ INT_MAX ∧
    (⟨"a", "1"⟩ : Node) ∈ Cache.demo.entries ∧ "c" ∉ Cache.demo.keys ∧
    Cache.demo.max_size ≤ (Cache.demo.entries.length : Int) ∧
    INT_MIN ≤ Cache.demo.evicts ∧ Cache.demo.evicts < INT_MAX ∧
    ∃ c1 c2, Cache.demo.get "a" = some (some "1", c1) ∧ c1.put "c" "3" = some c2 ∧
      (⟨"a", "1"⟩ : Node) ∈ c2.entries ∧
      (∃ c3, c2.get "a" = some (some "1", c3)) ∧
      c2.evicts = c1.evicts + 1 ∧
      c2.entries = ⟨"c", "3"⟩ :: c1.entries.dropLast ∧
      c1.entries.getLast? = some ⟨"b", "2"⟩ ∧ "b" ∉ c2.keys ∧
      c2.entries = [⟨"c", "3"⟩, ⟨"a", "1"⟩] := by
  obtain ⟨c1, c2, hg, hput, hmem, hget, _, hfull⟩ :=
    get_then_put_keeps Cache.demo (by decide) (by decide) (by decide) "a" "1" "c" "3"
      (by decide) (by decide)
  obtain ⟨hev, he, lru, hl, _, hgone⟩ := hfull (by decide) (by decide) (by decide)
  have e1 : Cache.demo.get "a"
      = some (some "1", Cache.mk 2 [(1, ⟨"a", "1"⟩), (2, ⟨"b", "2"⟩)] [("b", 2), ("a", 1)]
          1 0 0) := by decide
  have hc1 : c1 = Cache.mk 2 [(1, ⟨"a", "1"⟩), (2, ⟨"b", "2"⟩)] [("b", 2), ("a", 1)] 1 0 0 := by
    rw [e1] at hg
    simp only [Option.some.injEq, Prod.mk.injEq, true_and] at hg
    exact hg.symm
  subst hc1
  have hlast : (Cache.entries
      (Cache.mk 2 [(1, ⟨"a", "1"⟩), (2, ⟨"b", "2"⟩)] [("b", 2), ("a", 1)] 1 0 0)).getLast?
        = some ⟨"b", "2"⟩ := by decide
  have hlru : lru = ⟨"b", "2"⟩ := by
    rw [hlast] at hl
    exact (Option.some.inj hl).symm
  subst hlru
  refine ⟨by decide, by decide, by decide, by decide, by decide, by decide, by decide,
    by decide, _, c2, hg, hput, hmem, hget, hev, he, hlast, hgone, ?_⟩
  rw [he]
  decide

/-! ## Lemmas on the pool and on the store operations -/

namespace DB

/-- Taking a connection and giving it back restores the pool. -/
theorem take_return {d d1 : DB} {conn : Conn} (h : d.get_conn = (some conn, d1)) :
    d1.return_conn (some conn) = d := by
  unfold get_conn at h
  cases hl : d.pool.getLast? with
  | none => simp [hl] at h
  | some x =>
    simp only [hl, Prod.mk.injEq, Option.some.injEq] at h
    obtain ⟨rfl, rfl⟩ := h
    have := List.dropLast_append_getLast? x hl
    cases d
    simp only [return_conn] at this ⊢
    rw [this]

theorem take_none {d d1 : DB} (h : d.get_conn = (none, d1)) : d1 = d ∧ d.pool = [] := by
  unfold get_conn at h
  cases hl : d.pool.getLast? with
  | none =>
    simp only [hl, Prod.mk.injEq, true_and] at h
    exact ⟨h.symm, List.getLast?_eq_none_iff.mp hl⟩
  | some x => simp [hl] at h

/-- `DB::put`, when defined, leaves the pool as it found it. -/
theorem put_pool {σ : Type} (M : MySQL σ) (d : DB) (s : σ) (key val : String)
    (r : Bool × DB × σ) (hr : put M d s key val = some r) : r.2.1 = d := by
  unfold put at hr
  rcases hc : d.get_conn with ⟨_ | conn, d1⟩
  · rw [hc] at hr
    simp only [Option.some.injEq] at hr
    subst hr
    exact (take_none hc).1
  · rw [hc] at hr
    simp only at hr
    split at hr
    · simp only [Option.some.injEq] at hr
      subst hr
      exact take_return hc
    · cases hr

/-- `DB::get`, when defined, leaves the pool as it found it. -/
theorem get_pool {σ : Type} (M : MySQL σ) (d : DB) (s : σ) (key : String)
    (r : Option String × DB × σ) (hr : get M d s key = some r) : r.2.1 = d := by
  unfold get at hr
  rcases hc : d.get_conn with ⟨_ | conn, d1⟩
  · rw [hc] at hr
    simp only [Option.some.injEq] at hr
    subst hr
    exact (take_none hc).1
  · rw [hc] at hr
    simp only at hr
    split at hr
    · split at hr <;>
      · simp only [Option.some.injEq] at hr
        subst hr
        exact take_return hc
    · cases hr

/-- `DB::del`, when defined, leaves the pool as it found it. -/
theorem del_pool {σ : Type} (M : MySQL σ) (d : DB) (s : σ) (key : String)
    (r : Bool × DB × σ) (hr : del M d s key = some r) : r.2.1 = d := by
  unfold del at hr
  rcases hc : d.get_conn with ⟨_ | conn, d1⟩
  · rw [hc] at hr
    simp only [Option.some.injEq] at hr
    subst hr
    exact (take_none hc).1
  · rw [hc] at hr
    simp only at hr
    split at hr
    · simp only [Option.some.injEq] at hr
      subst hr
      exact take_return hc
    · cases hr

/-- `DB::put_hash`, when defined, leaves the pool as it found it. -/
theorem put_hash_pool {σ : Type} (M : MySQL σ) (d : DB) (s : σ) (text : String) (hash : Nat)
    (r : Bool × DB × σ) (hr : put_hash M d s text hash = some r) : r.2.1 = d := by
  unfold put_hash at hr
  rcases hc : d.get_conn with ⟨_ | conn, d1⟩
  · rw [hc] at hr
    simp only [Option.some.injEq] at hr
    subst hr
    exact (take_none hc).1
  · rw [hc] at hr
    simp only at hr
    split at hr
    · simp only [Option.some.injEq] at hr
      subst hr
      exact take_return hc
    · cases hr

/-- `DB::get_hash`, when defined, leaves the pool as it found it when it returns; when it
throws, the connection it took is missing from the pool. -/
theorem get_hash_pool {σ : Type} (M : MySQL σ) (d : DB) (s : σ) (text : String)
    (r : HashResult × DB × σ) (hr : get_hash M d s text = some r) :
    (r.1 ≠ HashResult.thrown → r.2.1 = d) ∧
    (r.1 = HashResult.thrown → ∃ conn, d.pool = r.2.1.pool ++ [conn]) := by
  unfold get_hash at hr
  rcases hc : d.get_conn with ⟨_ | conn, d1⟩
  · rw [hc] at hr
    simp only [Option.some.injEq] at hr
    subst hr
    exact ⟨fun _ => (take_none hc).1, fun h => by simp at h⟩
  · have hret := take_return hc
    rw [hc] at hr
    simp only at hr
    split at hr
    · split at hr
      · rename_i v s1 _
        cases hst : stoul (c_string v) with
        | none =>
          simp only [hst, Option.some.injEq] at hr
          subst hr
          refine ⟨fun h => by simp at h, fun _ => ⟨conn, ?_⟩⟩
          simp only
          rw [← hret]
          rfl
        | some n =>
          simp only [hst, Option.some.injEq] at hr
          subst hr
          exact ⟨fun _ => hret, fun h => by simp at h⟩
      · simp only [Option.some.injEq] at hr
        subst hr
        exact ⟨fun _ => hret, fun h => by simp at h⟩
    · cases hr

/-- `DB::put_hash` is defined when the escaped text fits `esc_text[4096]`. -/
theorem put_hash_defined {σ : Type} (M : MySQL σ) (d : DB) (s : σ) (text : String) (hash : Nat)
    (h : (put_hash_writes text).all EscapeWrite.ok = true) :
    ∃ r, put_hash M d s text hash = some r := by
  unfold put_hash
  rcases d.get_conn with ⟨_ | conn, d1⟩
  · exact ⟨_, rfl⟩
  · simp only [h, if_true]
    exact ⟨_, rfl⟩

/-- `DB::get_hash` is defined when the escaped text fits `esc_text[4096]`. -/
theorem get_hash_defined {σ : Type} (M : MySQL σ) (d : DB) (s : σ) (text : String)
    (h : (get_hash_writes text).all EscapeWrite.ok = true) :
    ∃ r, get_hash M d s text = some r := by
  unfold get_hash
  rcases d.get_conn with ⟨_ | conn, d1⟩
  · exact ⟨_, rfl⟩
  · simp only [h, if_true]
    split
    · split <;> exact ⟨_, rfl⟩
    · exact ⟨_, rfl⟩

end DB

/-! ## Lemmas on the modelled store -/

/-- What a statement does to the `kv_pairs` table of `store_sql`. -/
theorem store_sql_kv (t : Store) (conn : Conn) (q : Query) :
    ((store_sql.exec t conn q).1 = Answer.rejected ∧ (store_sql.exec t conn q).2.kv = t.kv) ∨
    ((store_sql.exec t conn q).1 ≠ Answer.rejected ∧
      match q with
      | Query.upsert key val =>
        (store_sql.exec t conn q).2.kv = (key, val) :: assocErase t.kv key
      | Query.select key =>
        (store_sql.exec t conn q).2.kv = t.kv ∧
        ∀ v, (store_sql.exec t conn q).1 = Answer.value v → assocFind t.kv key = some v
      | Query.delete key => (store_sql.exec t conn q).2.kv = assocErase t.kv key
      | _ => (store_sql.exec t conn q).2.kv = t.kv) := by
  by_cases hfault : t.faults.head? = some true
  · left
    simp [store_sql, hfault]
  · right
    cases q with
    | upsert key val => simp [store_sql, hfault]
    | select key =>
      cases hf : assocFind t.kv key <;> simp [store_sql, hfault, hf]
    | delete key => simp [store_sql, hfault]
    | upsert_hash pfx th text hash => simp [store_sql, hfault]
    | select_hash pfx th text =>
      cases hf : t.lookup pfx th text <;> simp [store_sql, hfault, hf]

/-- What a statement does to the `hash_store` table of `store_sql`: every row afterwards
was there before or is the row just written. -/
theorem store_sql_hs (t : Store) (conn : Conn) (q : Query) :
    ∀ r ∈ (store_sql.exec t conn q).2.hs,
      r ∈ t.hs ∨ ∃ pfx th text hash, q = Query.upsert_hash pfx th text hash ∧ r.text = text := by
  intro r hr
  by_cases hfault : t.faults.head? = some true
  · left
    simpa [store_sql, hfault] using hr
  · cases q with
    | upsert key val => left; simpa [store_sql, hfault] using hr
    | select key => left; simpa [store_sql, hfault] using hr
    | delete key => left; simpa [store_sql, hfault] using hr
    | upsert_hash pfx th text hash =>
      simp only [store_sql, hfault, if_false, List.mem_cons, List.mem_filter] at hr
      rcases hr with e | e
      · right
        exact ⟨pfx, th, text, hash, rfl, by rw [e]⟩
      · left
        exact e.1
    | select_hash pfx th text => left; simpa [store_sql, hfault] using hr

/-- An answer with a value to a select on `hash_store` comes from a row with that exact
text, prefix and text hash. -/
theorem store_sql_select_hash (t : Store) (conn : Conn) (pfx : List Nat) (th text v : String)
    (h : (store_sql.exec t conn (Query.select_hash pfx th text)).1 = Answer.value v) :
    ∃ r ∈ t.hs, r.text = text ∧ r.text_pfx = pfx ∧ r.text_hash = th ∧
      v = toString r.hash_value := by
  by_cases hfault : t.faults.head? = some true
  · simp [store_sql, hfault] at h
  · cases hf : t.lookup pfx th text with
    | none => simp [store_sql, hfault, hf] at h
    | some r =>
      simp only [store_sql, hfault, if_false, hf, Answer.value.injEq] at h
      unfold Store.lookup at hf
      have hm := List.mem_of_find?_eq_some hf
      have hp := List.find?_some hf
      simp only [decide_eq_true_eq] at hp
      exact ⟨r, hm, hp.2.2, hp.1, hp.2.1, h.symm⟩

theorem DB.put_hash_rows (d : DB) (st : Store) (text : String) (hash : Nat)
    (r0 : Bool × DB × Store) (h0 : DB.put_hash store_sql d st text hash = some r0) :
    ∀ r ∈ r0.2.2.hs, r ∈ st.hs ∨ r.text = text := by
  intro r hr
  unfold DB.put_hash at h0
  rcases hc : d.get_conn with ⟨_ | conn, d1⟩
  · rw [hc] at h0
    simp only [Option.some.injEq] at h0
    subst h0
    exact Or.inl hr
  · rw [hc] at h0
    simp only at h0
    split at h0
    · simp only [Option.some.injEq] at h0
      subst h0
      have hr1 : r ∈ (store_sql.exec st conn
          (Query.upsert_hash (text_pfx text) (compute_text_hash text) text hash)).2.hs := hr
      rcases store_sql_hs st conn _ r hr1 with e | ⟨_, _, _, _, hq, e⟩
      · exact Or.inl e
      · right
        simp only [Query.upsert_hash.injEq] at hq
        rw [e, hq.2.2.1]
    · cases h0

/-- `get_hash` on the modelled store finds a hash only in a row with the exact text. -/
theorem DB.get_hash_found (d : DB) (st : Store) (text : String) (h : Nat) (d1 : DB)
    (st1 : Store) (hf : DB.get_hash store_sql d st text = some (HashResult.found h, d1, st1)) :
    ∃ r ∈ st.hs, r.text = text ∧ r.text_pfx = text_pfx text ∧
      r.text_hash = compute_text_hash text := by
  unfold DB.get_hash at hf
  rcases hc : d.get_conn with ⟨_ | conn, d0⟩
  · simp [hc] at hf
  · simp only [hc] at hf
    split at hf
    · split at hf
      · rename_i v s1 he
        have hv : (store_sql.exec st conn
            (Query.select_hash (text_pfx text) (compute_text_hash text) text)).1
              = Answer.value v := by rw [he]
        obtain ⟨r, hm, h1, h2, h3, _⟩ := store_sql_select_hash st conn _ _ _ _ hv
        exact ⟨r, hm, h1, h2, h3⟩
      · simp at hf
    · cases hf

/-- `get_hash` on the modelled store returns not-found when no row has the text. -/
theorem DB.get_hash_no_row (d : DB) (st : Store) (text : String)
    (hno : ∀ r ∈ st.hs, r.text ≠ text) (r0 : HashResult × DB × Store)
    (h0 : DB.get_hash store_sql d st text = some r0) : r0.1 = HashResult.not_found := by
  unfold DB.get_hash at h0
  rcases hc : d.get_conn with ⟨_ | conn, d1⟩
  · rw [hc] at h0
    simp only [Option.some.injEq] at h0
    subst h0
    rfl
  · rw [hc] at h0
    simp only at h0
    split at h0
    · split at h0
      · rename_i v s1 he
        have hv : (store_sql.exec st conn
            (Query.select_hash (text_pfx text) (compute_text_hash text) text)).1
              = Answer.value v := by rw [he]
        obtain ⟨r, hm, h1, _⟩ := store_sql_select_hash st conn _ _ _ _ hv
        exact absurd h1 (hno r hm)
      · simp only [Option.some.injEq] at h0
        subst h0
        rfl
    · cases h0

/-- When the text misses the hash cache, `get_hash` returns `false` and `put_hash` is
defined, `/compute/hash` answers 200 with source `computed` and leaves the computed hash
in front of the hash cache: the result of `put_hash` plays no part. -/
theorem Server.compute_hash_computed {σ : Type} (M : MySQL σ) (srv : Server) (s : σ)
    (req : Request) (text : String) (d1 d2 : DB) (s1 s2 : σ) (ok : Bool)
    (hw : srv.hash_cache.WF)
    (hcap : size_t_of_int srv.hash_cache.max_size ≠ 0)
    (hk : assocFind req.params "text" = some text) (hmiss : text ∉ srv.hash_cache.keys)
    (hnf : DB.get_hash M srv.db s text = some (HashResult.not_found, d1, s1))
    (hp : DB.put_hash M d1 s1 text (Server.text_hash32 text) = some (ok, d2, s2)) :
    ∃ srv1, Server.compute_hash M srv s req
        = some ({ status := 200,
                  body := Server.hashed text (toString (Server.text_hash32 text)) "computed" },
                srv1, s2) ∧
      srv1.hash_cache.entries.head?
        = some { k := text, v := toString (Server.text_hash32 text) } := by
  have e1 : req.has_param "text" = true := by simp [Request.has_param, hk]
  have e3 : req.get_param_value "text" = text := by simp [Request.get_param_value, hk]
  have hf := hw.find_none_of_not_mem hmiss
  have hw1 : Cache.WF { srv.hash_cache with misses := int_incr srv.hash_cache.misses } :=
    Cache.WF.congr hw rfl (List.Perm.refl _)
  obtain ⟨c2, it, rest, hput, _, hitems, _⟩ :=
    Cache.put_miss_defined hw1 hcap hf (toString (Server.text_hash32 text))
  refine ⟨{ srv with hash_cache := c2, db := d2 }, ?_, ?_⟩
  · unfold Server.compute_hash
    simp only [e1, e3, Cache.get_miss hf, hnf, hp, hput]
    rfl
  · simp [Cache.entries, hitems]

/-! ## The properties of the fingerprint dataset and of the store operations -/

/-- C12 (failing input): the hash cache is empty, the store holds no row, and the store
rejects the upsert of `put_hash` (second statement of the request). `/compute/hash` for
the text `abc` still answers 200 with source `computed` and puts `abc` in the hash cache,
while `hash_store` stays empty; the same happens when no connection is free. -/
theorem compute_hash_caches_unwritten :
    (DB.put_hash store_sql Server.small.db { kv := [], hs := [], faults := [true] } "abc"
      (Server.text_hash32 "abc")).map Prod.fst = some false ∧
    Server.compute_hash store_sql Server.small { kv := [], hs := [], faults := [false, true] }
        (Request.mk [("text", "abc")])
      = some ({ status := 200, body := Server.hashed "abc" "96354" "computed" },
          { Server.small with
            hash_cache := { max_size := 2, items := [(1, ⟨"abc", "96354"⟩)],
                            map := [("abc", 1)], hits := 0, misses := 1, evicts := 0 } },
          { kv := [], hs := [], faults := [] }) ∧
    Server.compute_hash store_sql { Server.small with db := { pool := [] } }
        { kv := [], hs := [], faults := [] } (Request.mk [("text", "abc")])
      = some ({ status := 200, body := Server.hashed "abc" "96354" "computed" },
          { Server.small with
            hash_cache := { max_size := 2, items := [(1, ⟨"abc", "96354"⟩)],
                            map := [("abc", 1)], hits := 0, misses := 1, evicts := 0 },
            db := { pool := [] } },
          { kv := [], hs := [], faults := [] }) := by
  refine ⟨by decide, by decide, by decide⟩

/-- C14 (failing input): one free connection, and the server answers the select of
`get_hash` with a row whose first column is `abc`. `stoul` throws, `get_hash` is left
before `return_conn`, and the pool that held connection 7 is empty afterwards; the
`/compute/hash` request ends in the exception handler with status 500 and the same empty
pool. -/
theorem get_hash_leaks_connection :
    stoul "abc" = none ∧
    DB.get_hash (fixed_sql (Answer.value "abc")) { pool := [7] } () "abc"
      = some (HashResult.thrown, { pool := [] }, ()) ∧
    Server.compute_hash (fixed_sql (Answer.value "abc")) Server.small ()
        (Request.mk [("text", "abc")])
      = some ({ status := 500, body := Server.internal_error },
          { Server.small with
            hash_cache := { Server.small.hash_cache with misses := 1 },
            db := { pool := [] } }, ()) := by
  refine ⟨by decide, by decide, by decide⟩

/-- C19: on the modelled store, take two distinct texts (in particular two that share the
first 255 bytes and the text hash) whose escaped forms fit `esc_text[4096]`, and a store
with no row for `text2`. `put_hash(text1, h1)` returns, and after it, whether it succeeded
or not, `get_hash(text2)` returns not-found, so it never returns `h1`. In any state,
`get_hash(text)` finds a hash only in a row whose stored text is `text` exactly (and whose
prefix and text hash are those of `text`). -/
theorem fingerprint_collision_safe (st : Store) (d : DB) (text1 text2 : String) (h1 : Nat)
    (hne : text1 ≠ text2) (hno : ∀ r ∈ st.hs, r.text ≠ text2)
    (hfit1 : (DB.put_hash_writes text1).all EscapeWrite.ok = true)
    (hfit2 : (DB.get_hash_writes text2).all EscapeWrite.ok = true) :
    (∃ ok d1 st1 d2 st2, DB.put_hash store_sql d st text1 h1 = some (ok, d1, st1) ∧
      DB.get_hash store_sql d1 st1 text2 = some (HashResult.not_found, d2, st2)) ∧
    ∀ (d0 : DB) (st0 : Store) (text : String) (h : Nat) (d3 : DB) (st3 : Store),
      DB.get_hash store_sql d0 st0 text = some (HashResult.found h, d3, st3) →
      ∃ r ∈ st0.hs, r.text = text ∧ r.text_pfx = text_pfx text ∧
        r.text_hash = compute_text_hash text := by
  refine ⟨?_, DB.get_hash_found⟩
  obtain ⟨⟨ok, d1, st1⟩, hput⟩ := DB.put_hash_defined store_sql d st text1 h1 hfit1
  obtain ⟨⟨res, d2, st2⟩, hget⟩ := DB.get_hash_defined store_sql d1 st1 text2 hfit2
  have hres : res = HashResult.not_found := by
    apply DB.get_hash_no_row d1 st1 text2 _ _ hget
    intro r hr
    rcases DB.put_hash_rows d st text1 h1 _ hput r hr with e | e
    · exact hno r e
    · rw [e]
      exact hne
  subst hres
  exact ⟨ok, d1, st1, d2, st2, hput, hget⟩

set_option maxRecDepth 20000 in
theorem fingerprint_collision_safe_witness :
    collide false ≠ collide true ∧
    text_pfx (collide false) = text_pfx (collide true) ∧
    compute_text_hash (collide false) = compute_text_hash (collide true) ∧
    (∀ r ∈ (Store.mk [] [] []).hs, r.text ≠ collide true) ∧
    (DB.put_hash_writes (collide false)).all EscapeWrite.ok = true ∧
    (DB.get_hash_writes (collide true)).all EscapeWrite.ok = true ∧
    (∃ ok d1 st1 d2 st2,
      DB.put_hash store_sql (DB.mk [7]) (Store.mk [] [] []) (collide false) 5
        = some (ok, d1, st1) ∧
      DB.get_hash store_sql d1 st1 (collide true) = some (HashResult.not_found, d2, st2)) ∧
    ∀ (d0 : DB) (st0 : Store) (text : String) (h : Nat) (d3 : DB) (st3 : Store),
      DB.get_hash store_sql d0 st0 text = some (HashResult.found h, d3, st3) →
      ∃ r ∈ st0.hs, r.text = text ∧ r.text_pfx = text_pfx text ∧
        r.text_hash = compute_text_hash text :=
  ⟨by decide, by decide, by decide, by simp, by decide, by decide,
    fingerprint_collision_safe (Store.mk [] [] []) (DB.mk [7]) (collide false) (collide true) 5
      (by decide) (by simp) (by decide) (by decide)⟩

/-! ## Lemmas on the escape buffers -/

theorem escape_byte_length (b : Nat) :
    1 ≤ (escape_byte b).length ∧ (escape_byte b).length ≤ 2 := by
  unfold escape_byte
  split_ifs <;> simp

/-- The escaped form of `n` bytes, with its terminating null byte, takes between `n + 1`
and `2 * n + 1` bytes. -/
theorem escape_length_bounds (bs : List Nat) :
    bs.length + 1 ≤ (mysql_real_escape_string bs).length ∧
    (mysql_real_escape_string bs).length ≤ 2 * bs.length + 1 := by
  unfold mysql_real_escape_string
  induction bs with
  | nil => simp
  | cons b t ih =>
    have hb := escape_byte_length b
    simp only [List.map_cons, List.flatten_cons, List.length_append, List.length_cons,
      List.length_nil] at ih ⊢
    omega

theorem escape_plain (n : Nat) :
    (mysql_real_escape_string (List.replicate n 97)).length = n + 1 := by
  have e : escape_byte 97 = [97] := by decide
  unfold mysql_real_escape_string
  rw [List.map_replicate, e]
  induction n with
  | zero => rfl
  | succ n ih =>
    simp only [List.replicate_succ, List.flatten_cons, List.length_append, List.length_cons,
      List.length_nil] at ih ⊢
    omega

theorem escape_quotes (n : Nat) :
    (mysql_real_escape_string (List.replicate n 39)).length = 2 * n + 1 := by
  have e : escape_byte 39 = [92, 39] := by decide
  unfold mysql_real_escape_string
  rw [List.map_replicate, e]
  induction n with
  | zero => rfl
  | succ n ih =>
    simp only [List.replicate_succ, List.flatten_cons, List.length_append, List.length_cons,
      List.length_nil] at ih ⊢
    omega

theorem bytes_letters (n : Nat) : bytes (letters n) = List.replicate n 97 := by
  induction n with
  | zero => rfl
  | succ n ih =>
    have h : bytes (letters (n + 1)) = utf8 ('a').toNat ++ bytes (letters n) := by
      simp [bytes, letters, List.replicate_succ]
    rw [h, ih]
    rfl

theorem bytes_quotes (n : Nat) : bytes (quotes n) = List.replicate n 39 := by
  induction n with
  | zero => rfl
  | succ n ih =>
    have h : bytes (quotes (n + 1)) = utf8 (Char.ofNat 39).toNat ++ bytes (quotes n) := by
      simp [bytes, quotes, List.replicate_succ]
    rw [h, ih]
    rfl

/-- The 255-byte prefix always fits `esc_prefix[512]`. -/
theorem escape_pfx_fits (text : String) :
    (mysql_real_escape_string (text_pfx text)).length ≤ 512 := by
  have h := (escape_length_bounds (text_pfx text)).2
  have hl : (text_pfx text).length ≤ 255 := by
    unfold text_pfx
    rw [List.length_take]
    exact Nat.min_le_left _ _
  omega

/-- A key of at most 255 bytes and a value of at most 511 bytes fit the arrays of
`DB::put`. -/
theorem DB.put_writes_ok (key val : String) (hk : (bytes key).length ≤ 255)
    (hv : (bytes val).length ≤ 511) : (DB.put_writes key val).all EscapeWrite.ok = true := by
  have h1 := (escape_length_bounds (bytes key)).2
  have h2 := (escape_length_bounds (bytes val)).2
  simp only [DB.put_writes, List.all_cons, List.all_nil, EscapeWrite.ok, Bool.and_true,
    Bool.and_eq_true, decide_eq_true_eq]
  constructor <;> omega

/-- A text of at most 2047 bytes fits the arrays of `DB::put_hash` and `DB::get_hash`. -/
theorem DB.hash_writes_ok (text : String) (ht : (bytes text).length ≤ 2047) :
    (DB.put_hash_writes text).all EscapeWrite.ok = true ∧
    (DB.get_hash_writes text).all EscapeWrite.ok = true := by
  have h1 := (escape_length_bounds (bytes text)).2
  have h2 := escape_pfx_fits text
  simp only [DB.put_hash_writes, DB.get_hash_writes, List.all_cons, List.all_nil,
    EscapeWrite.ok, Bool.and_true, Bool.and_eq_true, decide_eq_true_eq]
  refine ⟨⟨?_, h2⟩, ⟨?_, h2⟩⟩ <;> omega

/-! ## Lemmas for runs of the service on the modelled store -/

/-- On the modelled store a defined `DB::get` leaves `kv_pairs` alone, and a value it
returns is the value of the row of the key, cut at its first null byte. -/
theorem DB.get_store (d : DB) (st : Store) (key : String) (r : Option String × DB × Store)
    (hr : DB.get store_sql d st key = some r) :
    r.2.2.kv = st.kv ∧
    ∀ v, r.1 = some v → ∃ w, assocFind st.kv key = some w ∧ v = c_string w := by
  unfold DB.get at hr
  rcases hc : d.get_conn with ⟨_ | conn, d1⟩
  · rw [hc] at hr
    simp only [Option.some.injEq] at hr
    subst hr
    exact ⟨rfl, fun v h => by simp at h⟩
  · rw [hc] at hr
    simp only at hr
    have hk := store_sql_kv st conn (Query.select key)
    split at hr
    · split at hr
      · rename_i v s1 he
        simp only [Option.some.injEq] at hr
        subst hr
        rw [he] at hk
        rcases hk with ⟨h1, _⟩ | ⟨_, h2, h3⟩
        · simp at h1
        · refine ⟨h2, ?_⟩
          intro v1 hv1
          simp only [Option.some.injEq] at hv1
          exact ⟨v, h3 v rfl, hv1.symm⟩
      · rename_i a s1 _ he
        simp only [Option.some.injEq] at hr
        subst hr
        rw [he] at hk
        refine ⟨?_, fun v h => by simp at h⟩
        rcases hk with ⟨_, h2⟩ | ⟨_, h2, _⟩ <;> exact h2
    · cases hr

theorem DB.put_store (d : DB) (st : Store) (key val : String) (r : Bool × DB × Store)
    (hr : DB.put store_sql d st key val = some r) :
    (r.1 = true → r.2.2.kv = (key, val) :: assocErase st.kv key) ∧
    (r.1 = false → r.2.2.kv = st.kv) := by
  unfold DB.put at hr
  rcases hc : d.get_conn with ⟨_ | conn, d1⟩
  · rw [hc] at hr
    simp only [Option.some.injEq] at hr
    subst hr
    exact ⟨fun h => by simp at h, fun _ => rfl⟩
  · rw [hc] at hr
    simp only at hr
    have hk := store_sql_kv st conn (Query.upsert key val)
    split at hr
    · simp only [Option.some.injEq] at hr
      subst hr
      simp only at hk ⊢
      rcases hk with ⟨h1, h2⟩ | ⟨h1, h2⟩
      · exact ⟨fun h => by simp [h1] at h, fun _ => h2⟩
      · exact ⟨fun _ => h2, fun h => by simp [h1] at h⟩
    · cases hr

theorem DB.del_store (d : DB) (st : Store) (key : String) (r : Bool × DB × Store)
    (hr : DB.del store_sql d st key = some r) :
    r.2.2.kv = st.kv ∨ r.2.2.kv = assocErase st.kv key := by
  unfold DB.del at hr
  rcases hc : d.get_conn with ⟨_ | conn, d1⟩
  · rw [hc] at hr
    simp only [Option.some.injEq] at hr
    subst hr
    exact Or.inl rfl
  · rw [hc] at hr
    simp only at hr
    have hk := store_sql_kv st conn (Query.delete key)
    split at hr
    · simp only [Option.some.injEq] at hr
      subst hr
      simp only at hk ⊢
      rcases hk with ⟨_, h2⟩ | ⟨_, h2⟩
      · exact Or.inl h2
      · exact Or.inr h2
    · cases hr

namespace Cache

/-- `put` on a well-formed state: every entry afterwards is the one just put or an entry
of another key that was there before. -/
theorem put_sub {c : Cache} (h : c.WF) (hcap : size_t_of_int c.max_size ≠ 0)
    (key val : String) :
    ∃ c1, c.put key val = some c1 ∧ c1.WF ∧ c1.max_size = c.max_size ∧
      ∀ n ∈ c1.entries, n = { k := key, v := val } ∨ (n ∈ c.entries ∧ n.k ≠ key) := by
  cases hf : assocFind c.map key with
  | none =>
    have hk := h.find_none hf
    have hne : ∀ n ∈ c.entries, n.k ≠ key := by
      intro n hn
      obtain ⟨it, hq⟩ := mem_entries hn
      exact hk _ hq
    obtain ⟨c1, hp, hw, hm, _, _, hcase⟩ := put_miss_entries h (Or.inr hcap) hf val
    refine ⟨c1, hp, hw, hm, ?_⟩
    intro n hn
    rcases hcase with ⟨_, he, _⟩ | ⟨_, he, _⟩
    · rw [he] at hn
      rcases List.mem_cons.mp hn with e | e
      · exact Or.inl e
      · exact Or.inr ⟨e, hne n e⟩
    · rw [he] at hn
      rcases List.mem_cons.mp hn with e | e
      · exact Or.inl e
      · have e1 := List.mem_of_mem_dropLast e
        exact Or.inr ⟨e1, hne n e1⟩
  | some it =>
    obtain ⟨node, hq, rfl, _⟩ := h.find_some hf
    refine ⟨_, put_hit h hq val, wf_move_front h hq val c.hits, rfl, ?_⟩
    intro n hn
    have he := entries_move_front h hq { k := node.k, v := val }
    have hn1 : n ∈ ({ k := node.k, v := val } : Node) ::
        c.entries.filter (fun x => decide (x.k ≠ node.k)) := by
      rw [← he]
      exact hn
    rcases List.mem_cons.mp hn1 with e | e
    · exact Or.inl e
    · simp only [List.mem_filter, decide_eq_true_eq] at e
      exact Or.inr e

/-- `get` on a well-formed state is defined, keeps the capacity and the invariant, and
leaves no entry that was not there; a miss means that the key is not held. -/
theorem get_sub {c : Cache} (h : c.WF) (key : String) :
    ∃ r c1, c.get key = some (r, c1) ∧ c1.WF ∧ c1.max_size = c.max_size ∧
      (∀ n ∈ c1.entries, n ∈ c.entries) ∧
      (r = none → c1 = { c with misses := int_incr c.misses } ∧ key ∉ c.keys) := by
  cases hf : assocFind c.map key with
  | none =>
    refine ⟨none, _, get_miss hf, WF.congr h rfl (List.Perm.refl _), rfl, fun n hn => hn,
      fun _ => ⟨rfl, ?_⟩⟩
    intro hk
    obtain ⟨it, n, hq, hn⟩ := mem_keys hk
    exact h.find_none hf _ hq hn
  | some it =>
    obtain ⟨node, hq, rfl, _⟩ := h.find_some hf
    refine ⟨some node.v, _, get_hit h hq, wf_move_front h hq node.v _, rfl, ?_,
      fun e => by simp at e⟩
    intro n hn
    have he := entries_move_front h hq node
    have hn1 : n ∈ node :: c.entries.filter (fun x => decide (x.k ≠ node.k)) := by
      rw [← he]
      exact hn
    rcases List.mem_cons.mp hn1 with e | e
    · rw [e]
      exact List.mem_map.mpr ⟨(it, node), hq, rfl⟩
    · exact (List.mem_filter.mp e).1

end Cache

theorem assocFind_upsert (t : List (String × String)) (key val k : String) :
    assocFind ((key, val) :: assocErase t key) k
      = if key = k then some val else assocFind t k := by
  by_cases e : key = k
  · simp [assocFind, e]
  · have e1 : k ≠ key := fun x => e x.symm
    simp [assocFind, e, assocFind_assocErase_ne e1]

/-- The value of a parameter of a plain request has at most 255 bytes and no null byte,
also when the parameter is missing. -/
theorem Request.plain_param {r : Request} (h : r.plain) (name : String) :
    (bytes (r.get_param_value name)).length ≤ 255 ∧
    c_string (r.get_param_value name) = r.get_param_value name := by
  unfold Request.get_param_value
  cases hf : assocFind r.params name with
  | none => exact ⟨by decide, by decide⟩
  | some v => exact h _ (assocFind_some_mem hf)

/-- A key of at most 255 bytes fits the array of `DB::get` and of `DB::del`. -/
theorem DB.key_writes_ok (key : String) (hk : (bytes key).length ≤ 255) :
    (DB.get_writes key).all EscapeWrite.ok = true ∧
    (DB.del_writes key).all EscapeWrite.ok = true := by
  have h1 := (escape_length_bounds (bytes key)).2
  simp only [DB.get_writes, DB.del_writes, List.all_cons, List.all_nil, EscapeWrite.ok,
    Bool.and_true, decide_eq_true_eq]
  constructor <;> omega

theorem Server.kv_create_agree (srv : Server) (st : Store) (req : Request)
    (h : srv.Agree st) (hst : st.plain) (hreq : req.plain) :
    ∃ r srv1 st1, Server.kv_create store_sql srv st req = some (r, srv1, st1) ∧
      srv1.Agree st1 ∧ st1.plain := by
  obtain ⟨hw, hcap, hin⟩ := h
  have hpk := Request.plain_param hreq "key"
  have hpv := Request.plain_param hreq "value"
  have hk255 : (bytes (if (req.has_param "key" && req.has_param "value") = true
      then req.get_param_value "key" else "")).length ≤ 255 := by
    split
    · exact hpk.1
    · decide
  have hv : (bytes (if (req.has_param "key" && req.has_param "value") = true
        then req.get_param_value "value" else "")).length ≤ 511 ∧
      c_string (if (req.has_param "key" && req.has_param "value") = true
        then req.get_param_value "value" else "")
        = (if (req.has_param "key" && req.has_param "value") = true
          then req.get_param_value "value" else "") := by
    split
    · exact ⟨le_trans hpv.1 (by decide), hpv.2⟩
    · exact ⟨by decide, by decide⟩
  unfold Server.kv_create
  simp only
  generalize (if (req.has_param "key" && req.has_param "value") = true
    then req.get_param_value "key" else "") = key at hk255 ⊢
  generalize (if (req.has_param "key" && req.has_param "value") = true
    then req.get_param_value "value" else "") = val at hv ⊢
  by_cases hkey : key = ""
  · rw [if_pos hkey]
    exact ⟨_, srv, st, rfl, ⟨hw, hcap, hin⟩, hst⟩
  · rw [if_neg hkey]
    obtain ⟨⟨old, d1, s1⟩, hge⟩ :=
      DB.get_defined store_sql srv.db st key (Or.inr (DB.key_writes_ok key hk255).1)
    have hg := DB.get_store srv.db st key _ hge
    obtain ⟨⟨ok, d2, s2⟩, hpe⟩ :=
      DB.put_defined store_sql d1 s1 key val (Or.inr (DB.put_writes_ok key val hk255 hv.1))
    have hp := DB.put_store d1 s1 key val _ hpe
    simp only at hg hp
    simp only [hge, hpe]
    cases ok with
    | false =>
      have hkv : s2.kv = st.kv := by rw [hp.2 rfl, hg.1]
      refine ⟨_, _, _, rfl, ⟨hw, hcap, ?_⟩, ?_⟩
      · intro n hn
        show assocFind s2.kv n.k = some n.v
        rw [hkv]
        exact hin n hn
      · intro p hp1
        rw [hkv] at hp1
        exact hst p hp1
    | true =>
      have hkv : s2.kv = (key, val) :: assocErase st.kv key := by rw [hp.1 rfl, hg.1]
      obtain ⟨c1, hput, hw1, hm1, hsub⟩ := Cache.put_sub hw hcap key val
      simp only [hput]
      refine ⟨_, _, _, rfl, ⟨hw1, by rw [hm1]; exact hcap, ?_⟩, ?_⟩
      · intro n hn
        show assocFind s2.kv n.k = some n.v
        rw [hkv, assocFind_upsert]
        rcases hsub n hn with e | ⟨e1, e2⟩
        · rw [e]
          simp
        · rw [if_neg (fun x => e2 x.symm)]
          exact hin n e1
      · intro p hp1
        rw [hkv] at hp1
        rcases List.mem_cons.mp hp1 with e | e
        · rw [e]
          exact hv.2
        · exact hst p (mem_assocErase.mp e).1

theorem Server.kv_read_agree (srv : Server) (st : Store) (req : Request)
    (h : srv.Agree st) (hst : st.plain) (hreq : req.plain) :
    ∃ r srv1 st1, Server.kv_read store_sql srv st req = some (r, srv1, st1) ∧
      srv1.Agree st1 ∧ st1.plain := by
  obtain ⟨hw, hcap, hin⟩ := h
  have hpk := Request.plain_param hreq "key"
  unfold Server.kv_read
  split
  · exact ⟨_, srv, st, rfl, ⟨hw, hcap, hin⟩, hst⟩
  · simp only
    generalize req.get_param_value "key" = key at hpk ⊢
    obtain ⟨r, c1, hget, hw1, hm1, hsub1, hmiss⟩ := Cache.get_sub hw key
    rw [hget]
    cases r with
    | some val =>
      refine ⟨_, _, _, rfl, ⟨hw1, by rw [hm1]; exact hcap, ?_⟩, hst⟩
      intro n hn
      exact hin n (hsub1 n hn)
    | none =>
      simp only
      obtain ⟨⟨found, d1, s1⟩, hge⟩ :=
        DB.get_defined store_sql srv.db st key (Or.inr (DB.key_writes_ok key hpk.1).1)
      have hg := DB.get_store srv.db st key _ hge
      simp only at hg
      have hst1 : Store.plain s1 := by
        intro p hp1
        rw [hg.1] at hp1
        exact hst p hp1
      simp only [hge]
      cases found with
      | none =>
        refine ⟨_, _, _, rfl, ⟨hw1, by rw [hm1]; exact hcap, ?_⟩, hst1⟩
        intro n hn
        show assocFind s1.kv n.k = some n.v
        rw [hg.1]
        exact hin n (hsub1 n hn)
      | some val =>
        obtain ⟨c2, hput, hw2, hm2, hsub2⟩ :=
          Cache.put_sub hw1 (by rw [hm1]; exact hcap) key val
        simp only [hput]
        refine ⟨_, _, _, rfl, ⟨hw2, by rw [hm2, hm1]; exact hcap, ?_⟩, hst1⟩
        intro n hn
        show assocFind s1.kv n.k = some n.v
        rw [hg.1]
        rcases hsub2 n hn with e | ⟨e1, _⟩
        · rw [e]
          obtain ⟨w, hw0, hvw⟩ := hg.2 val rfl
          have hwp : c_string w = w := hst (key, w) (assocFind_some_mem hw0)
          show assocFind st.kv key = some val
          rw [hw0, hvw, hwp]
        · exact hin n (hsub1 n e1)

theorem Server.kv_delete_agree (srv : Server) (st : Store) (req : Request)
    (h : srv.Agree st) (hst : st.plain) (hreq : req.plain) :
    ∃ r srv1 st1, Server.kv_delete store_sql srv st req = some (r, srv1, st1) ∧
      srv1.Agree st1 ∧ st1.plain := by
  obtain ⟨hw, hcap, hin⟩ := h
  have hpk := Request.plain_param hreq "key"
  unfold Server.kv_delete
  split
  · exact ⟨_, srv, st, rfl, ⟨hw, hcap, hin⟩, hst⟩
  · simp only
    generalize req.get_param_value "key" = key at hpk ⊢
    obtain ⟨⟨ok, d1, s1⟩, hde⟩ :=
      DB.del_defined store_sql srv.db st key (Or.inr (DB.key_writes_ok key hpk.1).2)
    have hd := DB.del_store srv.db st key _ hde
    simp only at hd
    obtain ⟨c1, hr, he, _, _, _, hm1, hw1⟩ := Cache.remove_entries hw key
    simp only [hde, hr]
    refine ⟨_, _, _, rfl, ⟨hw1, by rw [hm1]; exact hcap, ?_⟩, ?_⟩
    · intro n hn
      have hn1 : n ∈ c1.entries := hn
      rw [he] at hn1
      simp only [List.mem_filter, decide_eq_true_eq] at hn1
      show assocFind s1.kv n.k = some n.v
      rcases hd with e | e
      · rw [e]
        exact hin n hn1.1
      · rw [e, assocFind_assocErase_ne hn1.2]
        exact hin n hn1.1
    · intro p hp1
      rcases hd with e | e
      · rw [e] at hp1
        exact hst p hp1
      · rw [e] at hp1
        exact hst p (mem_assocErase.mp hp1).1

/-- On the modelled store, in which every statement may fail and a failed statement
changes nothing: when no value of `kv_pairs` has a null byte and every parameter of every
request has at most 255 bytes and no null byte, every request of a sequential run of
`/kv/create`, `/kv/read` and `/kv/delete` requests is answered, and after the run each
entry of the cache is a row of `kv_pairs` with the same value. -/
theorem Server.serve_agree (calls : List (Server.Endpoint × Request)) :
    ∀ (srv : Server) (st : Store), srv.Agree st → st.plain →
      (∀ call ∈ calls, call.2.plain) →
      ∃ srv1 st1, Server.serve store_sql srv st calls = some (srv1, st1) ∧
        srv1.Agree st1 ∧ st1.plain := by
  induction calls with
  | nil => intro srv st h hst _; exact ⟨srv, st, rfl, h, hst⟩
  | cons call rest ih =>
    intro srv st h hst hreq
    have hstep : ∃ r srv1 st1, Server.handle store_sql srv st call = some (r, srv1, st1) ∧
        srv1.Agree st1 ∧ st1.plain := by
      have hc := hreq call (List.mem_cons_self _ _)
      obtain ⟨ep, req⟩ := call
      cases ep with
      | kv_create => exact Server.kv_create_agree srv st req h hst hc
      | kv_read => exact Server.kv_read_agree srv st req h hst hc
      | kv_delete => exact Server.kv_delete_agree srv st req h hst hc
    obtain ⟨r, srv1, st1, hh, h1, hst1⟩ := hstep
    obtain ⟨srv2, st2, hs, h2⟩ :=
      ih srv1 st1 h1 hst1 (fun c hc => hreq c (List.mem_cons_of_mem _ hc))
    exact ⟨srv2, st2, by simp [Server.serve, hh, hs], h2⟩

/-! ## The two tiers of the key-value dataset -/

/-- C11 (failing input): an empty cache of capacity 2, an empty store, one connection, no
statement fails. `/kv/create` stores the key `k` with a value that has a null byte (the
letter `a`, a null byte, the letter `b`); two more `/kv/create` requests push `k` out of
the cache; `/kv/read` of `k` then misses the cache and fills it from the store, where
`val = row[0]` stops at the null byte. The request answers 200 with the value `a`, and
afterwards the cache holds `k` with the value `a` while the row of `k` in `kv_pairs` still
has the value written: the two tiers hold `k` with different values. Whatever server
returns a column with that content, `DB::get` gives the value `a`. -/
theorem backfill_cuts_value :
    Server.serve store_sql Server.small { kv := [], hs := [], faults := [] }
        [(Server.Endpoint.kv_create, Request.mk [("key", "k"), ("value", nul_value)]),
          (Server.Endpoint.kv_create, Request.mk [("key", "x"), ("value", "1")]),
          (Server.Endpoint.kv_create, Request.mk [("key", "y"), ("value", "2")]),
          (Server.Endpoint.kv_read, Request.mk [("key", "k")])]
      = some ({ Server.small with
                cache := { max_size := 2, items := [(4, ⟨"k", "a"⟩), (3, ⟨"y", "2"⟩)],
                           map := [("k", 4), ("y", 3)], hits := 0, misses := 1, evicts := 2 } },
              { kv := [("y", "2"), ("x", "1"), ("k", nul_value)], hs := [], faults := [] }) ∧
    (⟨"k", "a"⟩ : Node) ∈ (Cache.mk 2 [(4, ⟨"k", "a"⟩), (3, ⟨"y", "2"⟩)]
      [("k", 4), ("y", 3)] 0 1 2).entries ∧
    assocFind [("y", "2"), ("x", "1"), ("k", nul_value)] "k" = some nul_value ∧
    nul_value ≠ "a" ∧
    (DB.put_writes "k" nul_value).all EscapeWrite.ok = true ∧
    DB.get store_sql (DB.mk [7])
        { kv := [("y", "2"), ("x", "1"), ("k", nul_value)], hs := [], faults := [] } "k"
      = some (some "a", DB.mk [7],
          { kv := [("y", "2"), ("x", "1"), ("k", nul_value)], hs := [], faults := [] }) ∧
    DB.get (fixed_sql (Answer.value nul_value)) (DB.mk [7]) () "k"
      = some (some "a", DB.mk [7], ()) ∧
    (Server.kv_read store_sql
        { Server.small with
          cache := { max_size := 2, items := [(3, ⟨"y", "2"⟩), (2, ⟨"x", "1"⟩)],
                     map := [("y", 3), ("x", 2)], hits := 0, misses := 0, evicts := 1 } }
        { kv := [("y", "2"), ("x", "1"), ("k", nul_value)], hs := [], faults := [] }
        (Request.mk [("key", "k")])).map Prod.fst
      = some { status := 200, body := Server.found "k" "a" "database" } := by
  refine ⟨by decide, by decide, by decide, by decide, by decide, by decide, by decide,
    by decide⟩

/-! ## Lemmas on the `double` arithmetic -/

theorem round_half_even_err (y : ℚ) : |(round_half_even y : ℚ) - y| ≤ 1 / 2 := by
  have h1 : (Int.floor y : ℚ) ≤ y := Int.floor_le y
  have h2 : y < Int.floor y + 1 := Int.lt_floor_add_one y
  unfold round_half_even
  split_ifs with a b c
  · rw [abs_le]; constructor <;> linarith
  · push_cast
    rw [abs_le]; constructor <;> linarith
  · rw [abs_le]; constructor <;> linarith
  · push_cast
    rw [abs_le]; constructor <;> linarith

theorem round_half_even_int (n : Int) : round_half_even (n : ℚ) = n := by
  unfold round_half_even
  simp

theorem ulp_pos (x : ℚ) : (0 : ℚ) < 2 ^ (Int.log 2 |x| - 52) :=
  zpow_pos (by norm_num) _

/-- Rounding to `double` moves a number by at most `2^-53` of its size. -/
theorem round_double_err (x : ℚ) : |round_double x - x| ≤ |x| / 2 ^ 53 := by
  unfold round_double
  split_ifs with h0
  · simp [h0]
  · have hx : 0 < |x| := abs_pos.mpr h0
    have hu := ulp_pos x
    have hle : (2 : ℚ) ^ Int.log 2 |x| ≤ |x| := by
      have := Int.zpow_log_le_self (b := 2) (by norm_num) hx
      simpa using this
    have hulp : (2 : ℚ) ^ (Int.log 2 |x| - 52) = 2 ^ Int.log 2 |x| / 2 ^ 52 := by
      rw [zpow_sub₀ (by norm_num)]
      norm_num
    have herr := round_half_even_err (x / 2 ^ (Int.log 2 |x| - 52))
    have hd : (round_half_even (x / 2 ^ (Int.log 2 |x| - 52)) : ℚ) * 2 ^ (Int.log 2 |x| - 52) - x
        = ((round_half_even (x / 2 ^ (Int.log 2 |x| - 52)) : ℚ) - x / 2 ^ (Int.log 2 |x| - 52))
          * 2 ^ (Int.log 2 |x| - 52) := by
      field_simp
    rw [hd, abs_mul, abs_of_pos hu]
    calc |(round_half_even (x / 2 ^ (Int.log 2 |x| - 52)) : ℚ) - x / 2 ^ (Int.log 2 |x| - 52)|
          * 2 ^ (Int.log 2 |x| - 52)
        ≤ 1 / 2 * 2 ^ (Int.log 2 |x| - 52) := mul_le_mul_of_nonneg_right herr hu.le
      _ = 2 ^ Int.log 2 |x| / 2 ^ 53 := by rw [hulp]; ring
      _ ≤ |x| / 2 ^ 53 := by
          apply div_le_div_of_nonneg_right hle
          norm_num

/-- A positive integer below `2^53` times a power of two is a `double`: rounding keeps it. -/
theorem round_double_exact (n : Nat) (k : Int) (hn0 : 0 < n) (hn : n < 2 ^ 53) :
    round_double ((n : ℚ) * 2 ^ k) = (n : ℚ) * 2 ^ k := by
  have h2 : (0 : ℚ) < 2 ^ k := zpow_pos (by norm_num) _
  have hnq : (0 : ℚ) < n := by exact_mod_cast hn0
  have hx : (0 : ℚ) < (n : ℚ) * 2 ^ k := mul_pos hnq h2
  unfold round_double
  rw [if_neg hx.ne', abs_of_pos hx]
  set e := Int.log 2 ((n : ℚ) * 2 ^ k) with he
  -- the exponent is below `53 + k`
  have hle : (2 : ℚ) ^ e ≤ (n : ℚ) * 2 ^ k := by
    have := Int.zpow_log_le_self (b := 2) (by norm_num) hx
    simpa using this
  have hlt : (2 : ℚ) ^ e < 2 ^ (53 + k) := by
    calc (2 : ℚ) ^ e ≤ (n : ℚ) * 2 ^ k := hle
      _ < 2 ^ (53 : ℕ) * 2 ^ k := by
          apply mul_lt_mul_of_pos_right _ h2
          exact_mod_cast hn
      _ = 2 ^ (53 + k) := by
          rw [zpow_add₀ (by norm_num)]
          norm_cast
  have he53 : e < 53 + k := (zpow_lt_zpow_iff_right₀ (by norm_num : (1 : ℚ) < 2)).mp hlt
  obtain ⟨j, hj⟩ : ∃ j : Nat, k = (e - 52) + j := ⟨(k - (e - 52)).toNat, by omega⟩
  have hy : (n : ℚ) * 2 ^ k / 2 ^ (e - 52) = ((n * 2 ^ j : Nat) : Int) := by
    rw [hj, zpow_add₀ (by norm_num)]
    have hu : (0 : ℚ) < 2 ^ (e - 52) := zpow_pos (by norm_num) _
    field_simp
    ring
  rw [hy, round_half_even_int]
  rw [hj, zpow_add₀ (by norm_num), zpow_natCast]
  push_cast
  ring

theorem round_double_zero : round_double 0 = 0 := by
  simp [round_double]

/-- Every `double` is an integer times a power of two. -/
theorem round_double_dyadic (x : ℚ) : ∃ (n k : Int), round_double x = (n : ℚ) * 2 ^ k := by
  unfold round_double
  split_ifs
  · exact ⟨0, 0, by simp⟩
  · exact ⟨_, _, rfl⟩

/-- One third of a hundred is not an integer times a power of two. -/
theorem not_dyadic_100_3 (n k : Int) : (n : ℚ) * 2 ^ k ≠ 100 / 3 := by
  intro h
  have key : ∀ m : Nat, ∀ a : Int, 3 * a ≠ 100 * 2 ^ m := by
    intro m
    induction m with
    | zero => intro a; omega
    | succ m ih =>
      intro a ha
      -- `3 * a` is even, so `a` is
      have hpow : (2 : Int) ^ (m + 1) = 2 * 2 ^ m := by ring
      rw [hpow] at ha
      have : a % 2 = 0 := by omega
      obtain ⟨b, hb⟩ : ∃ b, a = 2 * b := ⟨a / 2, by omega⟩
      apply ih b
      rw [hb] at ha
      linarith
  rcases le_or_lt 0 k with hk | hk
  · obtain ⟨j, rfl⟩ : ∃ j : Nat, k = j := ⟨k.toNat, by omega⟩
    have h1 : (3 : ℚ) * ((n * 2 ^ j : Int) : ℚ) = 100 := by
      push_cast
      rw [zpow_natCast] at h
      linarith
    have h2 : 3 * (n * 2 ^ j : Int) = 100 := by exact_mod_cast h1
    omega
  · obtain ⟨j, rfl⟩ : ∃ j : Nat, k = -(j : Int) := ⟨(-k).toNat, by omega⟩
    have hp : (0 : ℚ) < 2 ^ j := by positivity
    have h1 : (3 : ℚ) * n = 100 * 2 ^ j := by
      rw [zpow_neg, zpow_natCast] at h
      field_simp at h
      linarith
    have h2 : 3 * n = 100 * 2 ^ j := by exact_mod_cast h1
    exact key j n h2

/-- A non-negative integer below `2^53` is a `double`. -/
theorem round_double_int (n : Int) (h0 : 0 ≤ n) (h1 : n < 2 ^ 53) :
    round_double (n : ℚ) = n := by
  obtain ⟨m, rfl⟩ : ∃ m : Nat, n = m := ⟨n.toNat, by omega⟩
  rcases Nat.eq_zero_or_pos m with e | e
  · subst e
    simp [round_double]
  · have := round_double_exact m 0 e (by exact_mod_cast h1)
    simpa using this

theorem int_add_eq {a b : Int} (h0 : 0 ≤ a) (h1 : 0 ≤ b) (h2 : a + b ≤ INT_MAX) :
    int_add a b = a + b := by
  unfold int_add
  unfold INT_MAX at h2
  omega

/-- What `hit_rate` computes once the conversions are known to be exact. -/
theorem Cache.hit_rate_eq (c : Cache) (hh : 0 ≤ c.hits) (hm : 0 ≤ c.misses)
    (hr : c.hits + c.misses ≤ INT_MAX) (ht : 0 < c.hits + c.misses) :
    c.hit_rate
      = round_double (round_double ((c.hits : ℚ) / ((c.hits : ℚ) + c.misses)) * 100) := by
  have hi : INT_MAX = 2147483647 := rfl
  unfold Cache.hit_rate
  rw [int_add_eq hh hm hr, if_pos ht, round_double_int c.hits hh (by omega),
    round_double_int (c.hits + c.misses) (by omega) (by omega)]
  push_cast
  rfl

/-! ## The hit rate -/

/-- C17 (counterexample): after one hit and two misses `hit_rate()` is not the rational
`1 / (1 + 2) * 100`: a third of a hundred is not a `double`. -/
theorem hit_rate_not_exact :
    (Cache.new 2).run [Op.put "a" "1", Op.get "a", Op.get "b", Op.get "c"]
      = some { max_size := 2, items := [(1, ⟨"a", "1"⟩)], map := [("a", 1)],
               hits := 1, misses := 2, evicts := 0 } ∧
    (0 : Int) ≤ 1 ∧ (0 : Int) ≤ 2 ∧ (1 : Int) + 2 ≤ INT_MAX ∧
    Cache.hit_rate { max_size := 2, items := [(1, ⟨"a", "1"⟩)], map := [("a", 1)],
                     hits := 1, misses := 2, evicts := 0 }
      ≠ ((1 : Int) : ℚ) / (((1 : Int) : ℚ) + ((2 : Int) : ℚ)) * 100 := by
  refine ⟨by decide, by decide, by decide, by decide, ?_⟩
  intro h
  have hne : (0 : Int) < int_add 1 2 := by decide
  unfold Cache.hit_rate at h
  simp only [gt_iff_lt, hne, if_true] at h
  obtain ⟨n, k, hnk⟩ := round_double_dyadic
    (round_double (round_double ((1 : Int) : ℚ) / round_double ((int_add 1 2 : Int) : ℚ)) * 100)
  rw [hnk] at h
  apply not_dyadic_100_3 n k
  rw [h]
  norm_num

/-- C17 (amended): for a cache state with `hits ≥ 0`, `misses ≥ 0` and `hits + misses`
within the `int` range, `hit_rate()` is 0 when `hits + misses = 0`; otherwise it is
`hits / (hits + misses) * 100` computed in `double` arithmetic, which is within a factor
`2^-51` of the exact rational, and is the exact rational when `hits + misses` is a power of
two. -/
theorem hit_rate_rounded (c : Cache) (hh : 0 ≤ c.hits) (hm : 0 ≤ c.misses)
    (hr : c.hits + c.misses ≤ INT_MAX) :
    (c.hits + c.misses = 0 → c.hit_rate = 0) ∧
    (0 < c.hits + c.misses →
      |c.hit_rate - (c.hits : ℚ) / ((c.hits : ℚ) + c.misses) * 100|
        ≤ (c.hits : ℚ) / ((c.hits : ℚ) + c.misses) * 100 / 2 ^ 51) ∧
    (∀ j : Nat, c.hits + c.misses = 2 ^ j →
      c.hit_rate = (c.hits : ℚ) / ((c.hits : ℚ) + c.misses) * 100) := by
  have hi : INT_MAX = 2147483647 := rfl
  refine ⟨?_, ?_, ?_⟩
  · intro h0
    unfold Cache.hit_rate
    rw [int_add_eq hh hm hr, h0]
    simp
  · intro ht
    rw [Cache.hit_rate_eq c hh hm hr ht]
    have htq : (0 : ℚ) < (c.hits : ℚ) + c.misses := by exact_mod_cast ht
    have hhq : (0 : ℚ) ≤ (c.hits : ℚ) := by exact_mod_cast hh
    set q : ℚ := (c.hits : ℚ) / ((c.hits : ℚ) + c.misses) with hq
    have hq0 : 0 ≤ q := div_nonneg hhq htq.le
    have e1 := round_double_err q
    have e2 := round_double_err (round_double q * 100)
    rw [abs_of_nonneg hq0] at e1
    have hb : |round_double q * 100| ≤ (q + q / 2 ^ 53) * 100 := by
      rw [abs_mul, abs_of_pos (by norm_num : (0 : ℚ) < 100)]
      apply mul_le_mul_of_nonneg_right _ (by norm_num)
      have := abs_le.mp e1
      rw [abs_le]
      constructor <;> linarith
    have e3 : |round_double (round_double q * 100) - round_double q * 100|
        ≤ (q + q / 2 ^ 53) * 100 / 2 ^ 53 :=
      le_trans e2 (div_le_div_of_nonneg_right hb (by norm_num))
    have a1 := abs_le.mp e1
    have a3 := abs_le.mp e3
    rw [abs_le]
    constructor <;> nlinarith
  · intro j hj
    have h2j : (0 : Int) < 2 ^ j := by positivity
    have ht : 0 < c.hits + c.misses := by rw [hj]; exact h2j
    rw [Cache.hit_rate_eq c hh hm hr ht]
    have hsum : (c.hits : ℚ) + c.misses = 2 ^ j := by exact_mod_cast hj
    rw [hsum]
    obtain ⟨m, hm1⟩ : ∃ m : Nat, c.hits = m := ⟨c.hits.toNat, by omega⟩
    rw [hm1]
    rcases Nat.eq_zero_or_pos m with e | e
    · subst e
      simp [round_double]
    · have hmlt : m < 2147483648 := by omega
      have hq : ((m : Int) : ℚ) / 2 ^ j = (m : ℚ) * 2 ^ (-(j : Int)) := by
        rw [zpow_neg, zpow_natCast]
        push_cast
        rfl
      have hp : (m : ℚ) * 2 ^ (-(j : Int)) * 100 = ((m * 100 : Nat) : ℚ) * 2 ^ (-(j : Int)) := by
        push_cast
        ring
      rw [hq, round_double_exact m _ e (by omega), hp,
        round_double_exact (m * 100) _ (by omega) (by omega)]

theorem hit_rate_rounded_witness :
    0 ≤ ({ Cache.demo with hits := 3, misses := 1 } : Cache).hits ∧
    0 ≤ ({ Cache.demo with hits := 3, misses := 1 } : Cache).misses ∧
    ({ Cache.demo with hits := 3, misses := 1 } : Cache).hits
      + ({ Cache.demo with hits := 3, misses := 1 } : Cache).misses ≤ INT_MAX ∧
    ({ Cache.demo with hits := 3, misses := 1 } : Cache).hits
      + ({ Cache.demo with hits := 3, misses := 1 } : Cache).misses = 2 ^ 2 ∧
    ({ Cache.demo with hits := 3, misses := 1 } : Cache).hit_rate = 75 := by
  have h := hit_rate_rounded { Cache.demo with hits := 3, misses := 1 }
    (by decide) (by decide) (by decide)
  refine ⟨by decide, by decide, by decide, by decide, ?_⟩
  rw [h.2.2 2 (by decide)]
  norm_num

/-! ## Reads while the pool is exhausted -/

/-- A cache miss followed by `false` from `DB::get` is answered 404 `Key not found`. -/
theorem Server.kv_read_false {σ : Type} (M : MySQL σ) (srv : Server) (s : σ) (req : Request)
    (key : String) (d1 : DB) (s1 : σ) (hw : srv.cache.WF)
    (hk : assocFind req.params "key" = some key)
    (hmiss : key ∉ srv.cache.keys) (hnone : DB.get M srv.db s key = some (none, d1, s1)) :
    Server.kv_read M srv s req
      = some ({ status := 404, body := Server.not_found key },
          { srv with cache := { srv.cache with misses := int_incr srv.cache.misses },
                     db := d1 }, s1) := by
  have e1 : req.has_param "key" = true := by simp [Request.has_param, hk]
  have e3 : req.get_param_value "key" = key := by simp [Request.get_param_value, hk]
  have hf := hw.find_none_of_not_mem hmiss
  unfold Server.kv_read
  simp only [e1, e3, Cache.get_miss hf, hnone]
  rfl

/-- C21 (counterexample): the key `x` misses the cache. With no free connection and a
store that holds `x`, `/kv/read` answers 404 `Key not found`; with a free connection and a
store that does not hold `x` it gives the very same answer. The caller cannot tell the
unavailable store from the absent key. -/
theorem read_unavailable_same_as_absent :
    (Server.kv_read store_sql { Server.small with db := { pool := [] } }
        { kv := [("x", "1")], hs := [], faults := [] } (Request.mk [("key", "x")])).map Prod.fst
      = some { status := 404, body := Server.not_found "x" } ∧
    (Server.kv_read store_sql Server.small
        { kv := [], hs := [], faults := [] } (Request.mk [("key", "x")])).map Prod.fst
      = some { status := 404, body := Server.not_found "x" } ∧
    assocFind (Store.mk [("x", "1")] [] []).kv "x" = some "1" := by
  refine ⟨by decide, by decide, by decide⟩

/-- C21 (amended): when `key` misses the well-formed cache, whose `misses` is an `int`
below `INT_MAX`, and the pool has no free connection, `/kv/read` answers 404
`Key not found`, also when the store holds the key: no statement is sent, the store and
the pool are unchanged, the cache only counts the miss. It is the answer that every cache
miss gets for which `DB::get` returns `false`, an absent key included. -/
theorem read_unavailable_not_found {σ : Type} (M : MySQL σ) (srv : Server) (s : σ)
    (req : Request) (key : String) (hw : srv.cache.WF)
    (hlo : INT_MIN ≤ srv.cache.misses) (hhi : srv.cache.misses < INT_MAX)
    (hk : assocFind req.params "key" = some key) (hmiss : key ∉ srv.cache.keys)
    (hpool : srv.db.pool = []) :
    Server.kv_read M srv s req
      = some ({ status := 404, body := Server.not_found key },
          { srv with cache := { srv.cache with misses := srv.cache.misses + 1 } }, s) ∧
    ∀ (srv2 : Server) (s2 : σ) (d3 : DB) (s3 : σ), srv2.cache.WF → key ∉ srv2.cache.keys →
      DB.get M srv2.db s2 key = some (none, d3, s3) →
      (Server.kv_read M srv2 s2 req).map Prod.fst
        = some { status := 404, body := Server.not_found key } := by
  constructor
  · have hg := DB.get_no_conn M srv.db s key hpool
    rw [Server.kv_read_false M srv s req key _ _ hw hk hmiss hg, Cache.int_incr_eq hlo hhi]
  · intro srv2 s2 d3 s3 hw2 hmiss2 hnone
    rw [Server.kv_read_false M srv2 s2 req key _ _ hw2 hk hmiss2 hnone]
    rfl

theorem read_unavailable_not_found_witness :
    ({ Server.small with db := { pool := [] } } : Server).cache.WF ∧
    INT_MIN ≤ ({ Server.small with db := { pool := [] } } : Server).cache.misses ∧
    ({ Server.small with db := { pool := [] } } : Server).cache.misses < INT_MAX ∧
    assocFind (Request.mk [("key", "x")]).params "key" = some "x" ∧
    "x" ∉ ({ Server.small with db := { pool := [] } } : Server).cache.keys ∧
    ({ Server.small with db := { pool := [] } } : Server).db.pool = [] ∧
    Server.kv_read store_sql { Server.small with db := { pool := [] } }
        { kv := [("x", "1")], hs := [], faults := [] } (Request.mk [("key", "x")])
      = some ({ status := 404, body := Server.not_found "x" },
          { ({ Server.small with db := { pool := [] } } : Server) with
            cache := { ({ Server.small with db := { pool := [] } } : Server).cache with
              misses := ({ Server.small with db := { pool := [] } } : Server).cache.misses + 1 } },
          { kv := [("x", "1")], hs := [], faults := [] }) ∧
    ∀ (srv2 : Server) (s2 : Store) (d3 : DB) (s3 : Store), srv2.cache.WF →
      "x" ∉ srv2.cache.keys → DB.get store_sql srv2.db s2 "x" = some (none, d3, s3) →
      (Server.kv_read store_sql srv2 s2 (Request.mk [("key", "x")])).map Prod.fst
        = some { status := 404, body := Server.not_found "x" } :=
  ⟨by decide, by decide, by decide, by decide, by decide, by decide,
    read_unavailable_not_found store_sql { Server.small with db := { pool := [] } }
      { kv := [("x", "1")], hs := [], faults := [] } (Request.mk [("key", "x")]) "x"
      (by decide) (by decide) (by decide) (by decide) (by decide) (by decide)⟩

/-! ## The escape buffers -/

/-- C23 (failing input): a key of 512 letters `a` (or of 256 single quotes) is escaped
into 513 bytes, one more than `esc_key[512]` holds, in `DB::put`, `DB::get` and `DB::del`;
a value of 1024 letters takes 1025 bytes in `esc_val[1024]`; a text of 4096 letters takes
4097 bytes in `esc_text[4096]` in `DB::put_hash` and `DB::get_hash`. Only the 255-byte
prefix always fits its array. -/
theorem escape_buffers_overflow :
    DB.put_writes (letters 512) (letters 1024)
      = [{ written := 513, size := 512 }, { written := 1025, size := 1024 }] ∧
    DB.get_writes (letters 512) = [{ written := 513, size := 512 }] ∧
    DB.del_writes (letters 512) = [{ written := 513, size := 512 }] ∧
    DB.get_writes (quotes 256) = [{ written := 513, size := 512 }] ∧
    DB.put_hash_writes (letters 4096)
      = [{ written := 4097, size := 4096 }, { written := 256, size := 512 }] ∧
    DB.get_hash_writes (letters 4096)
      = [{ written := 4097, size := 4096 }, { written := 256, size := 512 }] ∧
    (DB.put_writes (letters 512) (letters 1024)).all EscapeWrite.ok = false ∧
    (DB.get_hash_writes (letters 4096)).all EscapeWrite.ok = false ∧
    ∀ text : String, (mysql_real_escape_string (text_pfx text)).length ≤ 512 := by
  have hp : text_pfx (letters 4096) = List.replicate 255 97 := by
    unfold text_pfx
    rw [bytes_letters, List.take_replicate]
    rfl
  have e1 : DB.put_writes (letters 512) (letters 1024)
      = [{ written := 513, size := 512 }, { written := 1025, size := 1024 }] := by
    simp only [DB.put_writes, bytes_letters, escape_plain]
  have e2 : DB.get_hash_writes (letters 4096)
      = [{ written := 4097, size := 4096 }, { written := 256, size := 512 }] := by
    simp only [DB.get_hash_writes, hp, bytes_letters, escape_plain]
  refine ⟨e1, ?_, ?_, ?_, ?_, e2, ?_, ?_, escape_pfx_fits⟩
  · simp only [DB.get_writes, bytes_letters, escape_plain]
  · simp only [DB.del_writes, bytes_letters, escape_plain]
  · simp only [DB.get_writes, bytes_quotes, escape_quotes]
  · simp only [DB.put_hash_writes, hp, bytes_letters, escape_plain]
  · rw [e1]
    decide
  · rw [e2]
    decide

/-! ## Callers on two threads -/

/-- When `hits + misses` is a power of two within the `int` range, `hit_rate` is the exact
quotient times a hundred. -/
theorem Cache.hit_rate_pow2 (c : Cache) (hh : 0 ≤ c.hits) (hm : 0 ≤ c.misses)
    (hr : c.hits + c.misses ≤ INT_MAX) (j : Nat) (hj : c.hits + c.misses = 2 ^ j) :
    c.hit_rate = (c.hits : ℚ) / ((c.hits : ℚ) + c.misses) * 100 := by
  have hi : INT_MAX = 2147483647 := rfl
  have h2j : (0 : Int) < 2 ^ j := by positivity
  have ht : 0 < c.hits + c.misses := by rw [hj]; exact h2j
  rw [Cache.hit_rate_eq c hh hm hr ht]
  have hsum : (c.hits : ℚ) + c.misses = 2 ^ j := by exact_mod_cast hj
  rw [hsum]
  obtain ⟨m, hm1⟩ : ∃ m : Nat, c.hits = m := ⟨c.hits.toNat, by omega⟩
  rw [hm1]
  rcases Nat.eq_zero_or_pos m with e | e
  · subst e
    simp [round_double]
  · have hmlt : m < 2147483648 := by omega
    have hq : ((m : Int) : ℚ) / 2 ^ j = (m : ℚ) * 2 ^ (-(j : Int)) := by
      rw [zpow_neg, zpow_natCast]
      push_cast
      rfl
    have hp : (m : ℚ) * 2 ^ (-(j : Int)) * 100 = ((m * 100 : Nat) : ℚ) * 2 ^ (-(j : Int)) := by
      push_cast
      ring
    rw [hq, round_double_exact m _ e (by omega), hp,
      round_double_exact (m * 100) _ (by omega) (by omega)]

/-- C22 (failing input): the cache holds `a` and `b` with `hits = 0` and `misses = 0`.
One thread calls `hit_rate()` while another calls `get("zz")` (a miss) and then `get("a")`
(a hit). `hit_rate` takes no lock: it can load `misses = 0` before the two calls and
`hits = 1` after them, and then returns 100. In every sequential order of the three calls
`hit_rate` returns 0 (before the calls, or between them) or 50 (after them), never 100. -/
theorem hit_rate_not_linearizable :
    Cache.demo.hit_rate_during [Op.get "zz", Op.get "a"] 0 2 = some 100 ∧
    Cache.demo.hit_rate_after [Op.get "zz", Op.get "a"] 0 = some 0 ∧
    Cache.demo.hit_rate_after [Op.get "zz", Op.get "a"] 1 = some 0 ∧
    Cache.demo.hit_rate_after [Op.get "zz", Op.get "a"] 2 = some 50 ∧
    ∀ k, Cache.demo.hit_rate_after [Op.get "zz", Op.get "a"] k
      ≠ Cache.demo.hit_rate_during [Op.get "zz", Op.get "a"] 0 2 := by
  have r0 : Cache.demo.run ([Op.get "zz", Op.get "a"].take 0) = some Cache.demo := by decide
  have r1 : Cache.demo.run ([Op.get "zz", Op.get "a"].take 1)
      = some { Cache.demo with misses := 1 } := by decide
  have r2 : Cache.demo.run ([Op.get "zz", Op.get "a"].take 2)
      = some (Cache.mk 2 [(1, ⟨"a", "1"⟩), (2, ⟨"b", "2"⟩)] [("b", 2), ("a", 1)] 1 1 0) := by
    decide
  have v0 : Cache.demo.hit_rate = 0 := by
    simp [Cache.hit_rate, Cache.demo, int_add]
  have v1 : Cache.hit_rate { Cache.demo with misses := 1 } = 0 := by
    rw [Cache.hit_rate_pow2 _ (by decide) (by decide) (by decide) 0 (by decide)]
    simp [Cache.demo]
  have v2 : Cache.hit_rate
      (Cache.mk 2 [(1, ⟨"a", "1"⟩), (2, ⟨"b", "2"⟩)] [("b", 2), ("a", 1)] 1 1 0) = 50 := by
    rw [Cache.hit_rate_pow2 _ (by decide) (by decide) (by decide) 1 (by decide)]
    norm_num
  have vt : Cache.hit_rate
      (Cache.mk 2 [(1, ⟨"a", "1"⟩), (2, ⟨"b", "2"⟩)] [("b", 2), ("a", 1)] 1 0 0) = 100 := by
    rw [Cache.hit_rate_pow2 _ (by decide) (by decide) (by decide) 0 (by decide)]
    norm_num
  have hd : Cache.demo.hit_rate_during [Op.get "zz", Op.get "a"] 0 2 = some 100 := by
    unfold Cache.hit_rate_during
    rw [r0]
    simp only [Nat.zero_add]
    rw [r2]
    simp only
    exact congrArg some vt
  have h0 : Cache.demo.hit_rate_after [Op.get "zz", Op.get "a"] 0 = some 0 := by
    unfold Cache.hit_rate_after
    rw [r0]
    exact congrArg some v0
  have h1 : Cache.demo.hit_rate_after [Op.get "zz", Op.get "a"] 1 = some 0 := by
    unfold Cache.hit_rate_after
    rw [r1]
    exact congrArg some v1
  have h2 : Cache.demo.hit_rate_after [Op.get "zz", Op.get "a"] 2 = some 50 := by
    unfold Cache.hit_rate_after
    rw [r2]
    exact congrArg some v2
  refine ⟨hd, h0, h1, h2, ?_⟩
  intro k
  rw [hd]
  rcases Nat.lt_or_ge k 2 with hk | hk
  · interval_cases k
    · rw [h0]
      norm_num
    · rw [h1]
      norm_num
  · have e : ([Op.get "zz", Op.get "a"] : List Op).take k = [Op.get "zz", Op.get "a"].take 2 := by
      rw [List.take_of_length_le (by simpa using hk), List.take_of_length_le (by simp)]
    have : Cache.demo.hit_rate_after [Op.get "zz", Op.get "a"] k = some 50 := by
      unfold Cache.hit_rate_after
      rw [e, r2]
      exact congrArg some v2
    rw [this]
    norm_num

end KV
